import Mathlib

/-!
Verification of the POP-SYSTEM market-structure pipeline.

This file shallowly embeds the pipeline of the repository:
candle sequences are lists of OHLC records, the swing detector
(server/src/signals/dataProcessor/swings.js), the breakout classifier
(two generations: server/src/signals/dataProcessor/breakouts.js, named
namespace breakouts here, and the later revision bundled in
server/src/app.js, named namespace breakoutsV2), the EQH/EQL level
lifecycle engine (server/src/signals/dataProcessor/eqhEql.js, namespace
eqhEql; its later revision with eviction is modelled where a claim needs
it), and the setup deriver (server/src/signals/dataProcessor/setup.js).

Conventions of the embedding:
* prices are rationals (JS numbers used only through order comparisons,
  min/max and the confidence arithmetic, all exact here); times are
  integers (unix seconds); array positions and candle indices are Nat.
* JS objects become structures; a JS null field becomes an Option.
* derived display fields (formattedTime, date) are omitted: they are
  pure functions of the time field.
* each engine's per-(symbol, granularity) mutable store becomes an
  explicit state value threaded through the detection functions; the
  auxiliary Set mirrors (indexSets) used for O(1) duplicate checks are
  replaced by the equivalent linear lookups over the store they mirror.
-/

namespace POP

/-- OHLC candle as handed to the detection engines by the signal engine.
The signal engine attaches index as the array position
(candles.map((c, i) => (..., index: i)) in signalEngine.js); the
engines nevertheless treat index as an opaque value looked up through
candleIndexMap, and so does this model. -/
structure Candle where
  index : Nat
  time : Int
  open' : ℚ
  high : ℚ
  low : ℚ
  close : ℚ
deriving DecidableEq, Repr

/-- Swing type marker: local maximum or local minimum. -/
inductive SwingType where
  | high
  | low
deriving DecidableEq, Repr

/-- Directional label of a swing relative to the previous swing of the
same type (swings.js updateDirections). -/
inductive SwingDir where
  | FIRST
  | HH
  | LH
  | HL
  | LL
deriving DecidableEq, Repr

/-- Swing record (swings.js buildSwing). The candleIndex field of the
source always equals index and is omitted. -/
structure Swing where
  type : SwingType
  price : ℚ
  keyPrice : ℚ
  open' : ℚ
  high : ℚ
  low : ℚ
  close : ℚ
  time : Int
  index : Nat
  strength : Nat
  direction : Option SwingDir
deriving DecidableEq, Repr

/-- Key price of a candle for a swing type: body extreme
(swings.js calculateKeyPrice). -/
def calculateKeyPrice (type : SwingType) (c : Candle) : ℚ :=
  match type with
  | .high => max c.open' c.close
  | .low => min c.open' c.close

/-- Candle sanity check (swings.js isSaneCandle). The numeric type and
finiteness checks of the source hold by construction over ℚ; the only
remaining condition is high ≥ low. -/
def isSaneCandle (c : Candle) : Bool :=
  c.low ≤ c.high

/-- Build a swing record from a candle (swings.js buildSwing). The
position argument i is the array position of the candle, which the
source stores as both index and candleIndex. -/
def buildSwing (type : SwingType) (c : Candle) (i strength : Nat) : Swing :=
  { type := type
    price := match type with | .high => c.high | .low => c.low
    keyPrice := calculateKeyPrice type c
    open' := c.open'
    high := c.high
    low := c.low
    close := c.close
    time := c.time
    index := i
    strength := strength
    direction := none }

/-- The inner j = 1..strength neighbour loop of the swing scan
(swings.js detectAll / detectLatest). Returns the pair
(isSwingHigh, isSwingLow). The source breaks out of the loop early when
both flags can no longer change; the fold below is extensionally the
same because every update either ANDs into a flag or forces both flags
false. -/
def swingFlagStep (cs : List Candle) (current : Candle) (i : Nat)
    (flags : Bool × Bool) (j : Nat) : Bool × Bool :=
  match cs[i - j]?, cs[i + j]? with
  | some prev, some next =>
    if isSaneCandle prev && isSaneCandle next then
      (flags.1 && decide (prev.high < current.high) && decide (next.high < current.high),
       flags.2 && decide (current.low < prev.low) && decide (current.low < next.low))
    else (false, false)
  | _, _ => (false, false)

def swingFlagsAt (cs : List Candle) (current : Candle) (i k : Nat) : Bool × Bool :=
  (List.range' 1 k).foldl (swingFlagStep cs current i) (true, true)

/-- One center-candidate step of the full scan loop of
swings.js detectAll: skip insane centers, then append the swing high
and/or swing low detected at position i. -/
def scanStep (cs : List Candle) (k : Nat) (acc : List Swing) (i : Nat) : List Swing :=
  match cs[i]? with
  | none => acc
  | some current =>
    if isSaneCandle current then
      let flags := swingFlagsAt cs current i k
      let acc := if flags.1 then acc ++ [buildSwing .high current i k] else acc
      if flags.2 then acc ++ [buildSwing .low current i k] else acc
    else acc

/-- The full scan loop of swings.js detectAll: i runs over
strength ≤ i < candles.length - strength. -/
def scanSwings (cs : List Candle) (k : Nat) : List Swing :=
  (List.range' k (cs.length - 2 * k)).foldl (scanStep cs k) []

/-- Stable insertion placing the new element after all elements with
key ≤ its key; folding this over a list is a stable sort, the behaviour
of the numeric-comparator Array.prototype.sort of the source. -/
def insertAfterLe {α : Type} (key : α → Int) (a : α) : List α → List α
  | [] => [a]
  | x :: xs => if key x ≤ key a then x :: insertAfterLe key a xs else a :: x :: xs

/-- Stable sort by an integer key (models the stable
Array.prototype.sort((a, b) => a.time - b.time) of the source). -/
def stableSortBy {α : Type} (key : α → Int) (l : List α) : List α :=
  l.foldl (fun acc a => insertAfterLe key a acc) []

/-- Full direction rebuild of swings.js updateDirections with
fullRebuild = true, expressed as a single walk carrying the price of
the last swing of each type seen so far: the first swing of a type gets
FIRST, every later one is compared with the previous swing of its type
(strictly greater price gives HH / HL, otherwise LH / LL), exactly the
per-position assignments of the source's two filtered passes. -/
def dirHOf (lastH : Option ℚ) (s : Swing) : SwingDir :=
  match lastH with
  | none => .FIRST
  | some p => if p < s.price then .HH else .LH

def dirLOf (lastL : Option ℚ) (s : Swing) : SwingDir :=
  match lastL with
  | none => .FIRST
  | some p => if p < s.price then .HL else .LL

def assignDirFull (lastH lastL : Option ℚ) : List Swing → List Swing
  | [] => []
  | s :: rest =>
    match s.type with
    | .high =>
      { s with direction := some (dirHOf lastH s) } ::
        assignDirFull (some s.price) lastL rest
    | .low =>
      { s with direction := some (dirLOf lastL s) } ::
        assignDirFull lastH (some s.price) rest

/-- Replace the first element satisfying p by its image under f. -/
def modifyFirstP {α : Type} (p : α → Bool) (f : α → α) : List α → List α
  | [] => []
  | x :: xs => if p x then f x :: xs else x :: modifyFirstP p f xs

/-- Replace the last element satisfying p by its image under f. -/
def modifyLastP {α : Type} (p : α → Bool) (f : α → α) : List α → List α
  | [] => []
  | x :: xs =>
    if xs.any p then x :: modifyLastP p f xs
    else if p x then f x :: xs
    else x :: xs

/-- Overwrite the direction of a swing. -/
def setDirection (d : SwingDir) (s : Swing) : Swing :=
  { s with direction := some d }

def isHighSwing (s : Swing) : Bool := s.type == SwingType.high
def isLowSwing (s : Swing) : Bool := s.type == SwingType.low

/-- Incremental direction update of swings.js updateDirections with
fullRebuild = false: give the first swing of each type FIRST when its
direction is still unset, then recompute the direction of the last
swing of each type from the price of its predecessor of the same type
(only when at least two swings of that type exist). -/
def updateDirectionsIncr (store : List Swing) : List Swing :=
  let highs := store.filter isHighSwing
  let lows := store.filter isLowSwing
  let st := modifyFirstP isHighSwing
    (fun s => if s.direction.isNone then setDirection .FIRST s else s) store
  let st := modifyFirstP isLowSwing
    (fun s => if s.direction.isNone then setDirection .FIRST s else s) st
  let st :=
    if 2 ≤ highs.length then
      match highs[highs.length - 2]?, highs[highs.length - 1]? with
      | some prev, some last =>
        modifyLastP isHighSwing
          (setDirection (if prev.price < last.price then .HH else .LH)) st
      | _, _ => st
    else st
  if 2 ≤ lows.length then
    match lows[lows.length - 2]?, lows[lows.length - 1]? with
    | some prev, some last =>
      modifyLastP isLowSwing
        (setDirection (if prev.price < last.price then .HL else .LL)) st
    | _, _ => st
  else st

namespace SwingEngine

/-- Full detection run of swings.js detectAll as a function of the
engine store: with fewer than strength*2+1 candles the store is left
untouched (the source returns before its reset), otherwise the store is
rebuilt from a fresh scan, stably sorted by time, and directions are
fully rebuilt. A strength below 1 is clamped to 1 after the length
guard, as in the source. -/
def detectAllS (store : List Swing) (cs : List Candle) (strength : Nat) : List Swing :=
  if cs.length < strength * 2 + 1 then store
  else
    let k := max strength 1
    assignDirFull none none (stableSortBy (fun s => s.time) (scanSwings cs k))

/-- Incremental detection of swings.js detectLatest as a function of
the engine store: only position candles.length - strength - 1 can newly
qualify; duplicates (same position and type already stored) are
skipped, the new swing(s) are appended, and directions are updated
incrementally. -/
def detectLatestS (store : List Swing) (cs : List Candle) (strength : Nat) : List Swing :=
  if cs.length < strength * 2 + 1 then store
  else
    let k := max strength 1
    let i := cs.length - k - 1
    if i < k then store
    else
      match cs[i]? with
      | none => store
      | some current =>
        if !isSaneCandle current then store
        else
          let alreadyHigh := store.any fun s => s.index == i && isHighSwing s
          let alreadyLow := store.any fun s => s.index == i && isLowSwing s
          if alreadyHigh && alreadyLow then store
          else
            let flags := swingFlagsAt cs current i k
            let isH := !alreadyHigh && flags.1
            let isL := !alreadyLow && flags.2
            let st1 := if isH then store ++ [buildSwing .high current i k] else store
            let st2 := if isL then st1 ++ [buildSwing .low current i k] else st1
            if isH || isL then updateDirectionsIncr st2 else st2

end SwingEngine

/-- Feeding a candle sequence one confirmed candle at a time: the swing
store obtained by folding detectLatest over all prefixes of the
sequence, starting from an empty store. -/
def incrSwings (cs : List Candle) (strength : Nat) : List Swing :=
  (List.range cs.length).foldl
    (fun st m => SwingEngine.detectLatestS st (cs.take (m + 1)) strength) []

/-! Shared helpers of utils/dataProcessorUtils.js (also present verbatim as
private methods of the first-generation engines). -/

/-- Lookup in the candle.index → array position map built by
buildCandleIndexMap: forEach re-sets the key, so with duplicate index
values the last position wins. -/
def candleIndexMapGet (cs : List Candle) (v : Nat) : Option Nat :=
  cs.enum.foldl (fun acc p => if p.2.index = v then some p.1 else acc) none

/-- Array position of the candle immediately after the candle whose
index value is afterIdx (dataProcessorUtils.js nextArrayIdx): none when
afterIdx is unknown or the candle is the last one. -/
def nextArrayIdx (cs : List Candle) (afterIdx : Nat) : Option Nat :=
  match candleIndexMapGet cs afterIdx with
  | none => none
  | some pos => if pos + 1 < cs.length then some (pos + 1) else none

/-- Breakout / BOS classification strength. -/
inductive BosType where
  | BOS_WICK
  | BOS_CLOSE
  | BOS_SUSTAINED
deriving DecidableEq, Repr

/-- Direction of a break. -/
inductive BreakDir where
  | bullish
  | bearish
deriving DecidableEq, Repr

/-- Trimmed reference to a confirming candle
(breakouts.js buildBreakout confirmingCandles mapping). -/
structure ConfirmRef where
  index : Nat
  time : Int
  close : ℚ
deriving DecidableEq, Repr

/-- Snapshot of the prevailing market bias
(breakouts.js getCurrentBias). -/
structure BiasSnapshot where
  bias : BreakDir
  isCHoCH : Bool
  bosType : BosType
  strength : Nat
deriving DecidableEq, Repr

/-- Strength rank of a classification as assigned by buildBreakout:
SUSTAINED 3, CLOSE 2, WICK 1. -/
def strengthOfBos (t : BosType) : Nat :=
  match t with
  | .BOS_SUSTAINED => 3
  | .BOS_CLOSE => 2
  | .BOS_WICK => 1

/-- CHoCH check (breakouts.js isCHoCH): the broken swing's direction was
counter-trend for its type. -/
def isCHoCHSwing (s : Swing) : Bool :=
  (s.type == SwingType.high && s.direction == some SwingDir.LH) ||
  (s.type == SwingType.low && s.direction == some SwingDir.HL)

namespace breakouts
/-! First-generation breakout classifier,
server/src/signals/dataProcessor/breakouts.js (the module required by
the first-generation eqhEql.js). Its sustained scan is unbounded with a
zone-retreat invalidation check. -/

/-- Breakout record (breakouts.js buildBreakout); display-only fields
omitted, date/formattedTime omitted as functions of time. -/
structure Breakout where
  bosType : BosType
  isCHoCH : Bool
  strength : Nat
  swingType : SwingType
  swingIndex : Nat
  swingPrice : ℚ
  swingKeyPrice : ℚ
  swingDirection : Option SwingDir
  swingTime : Int
  breakingCandleIndex : Nat
  breakingCandleTime : Int
  breakingCandleHigh : ℚ
  breakingCandleLow : ℚ
  breakingCandleClose : ℚ
  confirmingCandles : List ConfirmRef
  breakDirection : BreakDir
  time : Int
deriving DecidableEq, Repr

/-- Build a breakout record (breakouts.js buildBreakout). -/
def buildBreakout (t : BosType) (swing : Swing) (breakingCandle : Candle)
    (confirming : List Candle) : Breakout :=
  { bosType := t
    isCHoCH := isCHoCHSwing swing
    strength := strengthOfBos t
    swingType := swing.type
    swingIndex := swing.index
    swingPrice := swing.price
    swingKeyPrice := swing.keyPrice
    swingDirection := swing.direction
    swingTime := swing.time
    breakingCandleIndex := breakingCandle.index
    breakingCandleTime := breakingCandle.time
    breakingCandleHigh := breakingCandle.high
    breakingCandleLow := breakingCandle.low
    breakingCandleClose := breakingCandle.close
    confirmingCandles := confirming.map fun c =>
      { index := c.index, time := c.time, close := c.close }
    breakDirection := if swing.type == SwingType.high then .bullish else .bearish
    time := breakingCandle.time }

/-- Start position of the forward scan in the first-generation
checkBreak: the map lookup of swing.index + 1 with a findIndex
fallback over index values strictly beyond the swing. -/
def startIdxV1 (cs : List Candle) (swingIndex : Nat) : Option Nat :=
  match candleIndexMapGet cs (swingIndex + 1) with
  | some p => some p
  | none => cs.findIdx? fun c => decide (swingIndex < c.index)

/-- The scan loop of the first-generation checkBreak over the candles
past the start position. State: first wick pierce and first close
beyond; returns (firstWickBOS, firstCloseBOS, sustainedBOS). After the
confirming candle, a close beyond its close stops the scan as
sustained, a close back beyond the swing level invalidates, and any
other candle keeps the chain alive. -/
def checkBreakLoop (isHigh : Bool) (level : ℚ) :
    List Candle → Option Candle → Option Candle →
    Option Candle × Option Candle × Option Candle
  | [], fw, fc => (fw, fc, none)
  | c :: rest, fw, fc =>
    let wickBeyond := if isHigh then decide (level < c.high) else decide (c.low < level)
    let closeBeyond := if isHigh then decide (level < c.close) else decide (c.close < level)
    let fw := if wickBeyond && fw.isNone then some c else fw
    match fc with
    | none =>
      if closeBeyond then checkBreakLoop isHigh level rest fw (some c)
      else checkBreakLoop isHigh level rest fw none
    | some confirm =>
      let beyondConfirming :=
        if isHigh then decide (confirm.close < c.close) else decide (c.close < confirm.close)
      if beyondConfirming then (fw, some confirm, some c)
      else
        let invalidated :=
          if isHigh then decide (c.close < level) else decide (level < c.close)
        if invalidated then (fw, some confirm, none)
        else checkBreakLoop isHigh level rest fw (some confirm)

/-- Core break detection of the first-generation breakouts.js
checkBreak, priority sustained > close > wick. -/
def checkBreak (swing : Swing) (cs : List Candle) : Option Breakout :=
  match startIdxV1 cs swing.index with
  | none => none
  | some start =>
    let r := checkBreakLoop (swing.type == SwingType.high) swing.price (cs.drop start) none none
    match r.2.2, r.2.1 with
    | some s, some c => some (buildBreakout .BOS_SUSTAINED swing c [c, s])
    | none, some c => some (buildBreakout .BOS_CLOSE swing c [])
    | _, _ =>
      match r.1 with
      | some w => some (buildBreakout .BOS_WICK swing w [])
      | none => none

/-- The Object.assign upgrade of breakouts.js upgradeBreakout: replace
the classification and breaking-candle fields in place, preserving the
swing fields, isCHoCH and breakDirection. -/
def upgradeAssign (existing result : Breakout) : Breakout :=
  { existing with
    bosType := result.bosType
    strength := result.strength
    breakingCandleIndex := result.breakingCandleIndex
    breakingCandleTime := result.breakingCandleTime
    breakingCandleHigh := result.breakingCandleHigh
    breakingCandleLow := result.breakingCandleLow
    breakingCandleClose := result.breakingCandleClose
    confirmingCandles := result.confirmingCandles
    time := result.time }

/-- Key match of a stored breakout against a swing
(the find in upgradeBreakout and the indexSets duplicate key). -/
def matchesSwing (swing : Swing) (b : Breakout) : Bool :=
  b.swingIndex == swing.index && b.swingType == swing.type

/-- Upgrade pass of breakouts.js upgradeBreakout on the store: nothing
happens unless a record for the swing exists, is not yet sustained, the
re-run classification is non-null and its strength strictly exceeds the
stored one. -/
def upgradeBreakout (store : List Breakout) (swing : Swing) (cs : List Candle) :
    List Breakout :=
  match store.find? (matchesSwing swing) with
  | none => store
  | some existing =>
    if existing.bosType == BosType.BOS_SUSTAINED then store
    else
      match checkBreak swing cs with
      | none => store
      | some result =>
        if result.strength ≤ existing.strength then store
        else modifyFirstP (matchesSwing swing) (fun b => upgradeAssign b result) store

/-- Full detection run of breakouts.js detectAll: reset the store, then
push the classification of every swing in store order. (The counts and
last-BOS caches of the source are display-only aggregates rebuilt from
the same pushes and are not modelled.) -/
def detectAllS (swings : List Swing) (cs : List Candle) : List Breakout :=
  if swings.isEmpty then []
  else
    swings.foldl
      (fun st swing =>
        match checkBreak swing cs with
        | none => st
        | some r => st ++ [r])
      []

/-- Incremental detection of breakouts.js detectLatest: for every known
swing except one at the final candle, upgrade an already-registered
breakout or classify and append a new one. -/
def detectLatestS (store : List Breakout) (swings : List Swing) (cs : List Candle) :
    List Breakout :=
  if swings.isEmpty then store
  else
    swings.foldl
      (fun st swing =>
        if cs.length - 1 ≤ swing.index then st
        else if st.any (matchesSwing swing) then upgradeBreakout st swing cs
        else
          match checkBreak swing cs with
          | none => st
          | some r => st ++ [r])
      store

/-- Current market bias (breakouts.js getCurrentBias): snapshot of the
latest breakout in the store, none when the store is empty. -/
def getCurrentBias (store : List Breakout) : Option BiasSnapshot :=
  match store.getLast? with
  | none => none
  | some b => some
    { bias := b.breakDirection, isCHoCH := b.isCHoCH,
      bosType := b.bosType, strength := b.strength }

end breakouts

namespace breakoutsV2
/-! Second-generation breakout classifier (the revision of
dataProcessor/breakouts.js bundled in server/src/app.js): the sustained
scan is bounded by the configured MAX_BOS_SCAN_CANDLES window and every
record carries a confidence score. The input-type validation guards of
the source (isValidSwing / isValidCandle) hold by construction in this
typed embedding. -/

/-- Breakout record of the second generation: the first-generation
fields plus confidence. -/
structure Breakout where
  bosType : BosType
  isCHoCH : Bool
  strength : Nat
  swingType : SwingType
  swingIndex : Nat
  swingPrice : ℚ
  swingKeyPrice : ℚ
  swingDirection : Option SwingDir
  swingTime : Int
  breakingCandleIndex : Nat
  breakingCandleTime : Int
  breakingCandleHigh : ℚ
  breakingCandleLow : ℚ
  breakingCandleClose : ℚ
  confirmingCandles : List ConfirmRef
  breakDirection : BreakDir
  time : Int
  confidence : ℚ
deriving DecidableEq, Repr

/-- Confidence scoring (app.js calculateConfidence):
strength / 3 plus 0.2 for a change of character, capped at 1.0. -/
def calculateConfidence (strength : Nat) (isCHoCH : Bool) : ℚ :=
  min ((strength : ℚ) / 3 + (if isCHoCH then 1 / 5 else 0)) 1

/-- Build a second-generation breakout record (app.js buildBreakout):
the first-generation record plus the confidence computed from the
record itself. -/
def buildBreakout (t : BosType) (swing : Swing) (breakingCandle : Candle)
    (confirming : List Candle) : Breakout :=
  { bosType := t
    isCHoCH := isCHoCHSwing swing
    strength := strengthOfBos t
    swingType := swing.type
    swingIndex := swing.index
    swingPrice := swing.price
    swingKeyPrice := swing.keyPrice
    swingDirection := swing.direction
    swingTime := swing.time
    breakingCandleIndex := breakingCandle.index
    breakingCandleTime := breakingCandle.time
    breakingCandleHigh := breakingCandle.high
    breakingCandleLow := breakingCandle.low
    breakingCandleClose := breakingCandle.close
    confirmingCandles := confirming.map fun c =>
      { index := c.index, time := c.time, close := c.close }
    breakDirection := if swing.type == SwingType.high then .bullish else .bearish
    time := breakingCandle.time
    confidence := calculateConfidence (strengthOfBos t) (isCHoCHSwing swing) }

/-- The main scan loop of the second-generation checkBreak: walk the
candles from the start position (p is the array position of the current
candle), tracking the first wick pierce; at the first close beyond the
swing level, look the confirming candle's position up in the index map,
scan the bounded window k = p+1 .. min(length-1, confirmPos+maxScan)
for the first close beyond the confirming close, and stop. Returns none
for the hard null of a failed map lookup, otherwise the tracked first
wick together with the optional (confirming, sustained) pair. -/
def scanV2 (cs : List Candle) (isHigh : Bool) (level : ℚ) (maxScan : Nat) :
    Nat → List Candle → Option Candle →
    Option (Option Candle × Option (Candle × Option Candle))
  | _, [], fw => some (fw, none)
  | p, c :: rest, fw =>
    let wickBeyond := if isHigh then decide (level < c.high) else decide (c.low < level)
    let closeBeyond := if isHigh then decide (level < c.close) else decide (c.close < level)
    let fw := if wickBeyond && fw.isNone then some c else fw
    if closeBeyond then
      match candleIndexMapGet cs c.index with
      | none => none
      | some pos =>
        let endIdx := min (cs.length - 1) (pos + maxScan)
        let window := (cs.drop (p + 1)).take (endIdx + 1 - (p + 1))
        let sus := window.find? fun cc =>
          if isHigh then decide (c.close < cc.close) else decide (cc.close < c.close)
        some (fw, some (c, sus))
    else scanV2 cs isHigh level maxScan (p + 1) rest fw

/-- Core break detection of the second-generation checkBreak
(app.js), with the bounded sustained window maxScan
(config MAX_BOS_SCAN_CANDLES, default 10). -/
def checkBreak (swing : Swing) (cs : List Candle) (maxScan : Nat) : Option Breakout :=
  match nextArrayIdx cs swing.index with
  | none => none
  | some start =>
    match scanV2 cs (swing.type == SwingType.high) swing.price maxScan start
        (cs.drop start) none with
    | none => none
    | some (_, some (confirm, some sus)) =>
      some (buildBreakout .BOS_SUSTAINED swing confirm [confirm, sus])
    | some (_, some (confirm, none)) =>
      some (buildBreakout .BOS_CLOSE swing confirm [])
    | some (some w, none) => some (buildBreakout .BOS_WICK swing w [])
    | some (none, none) => none

/-- The Object.assign of the second-generation upgradeBreakout followed
by the confidence recalculation on the merged record: classification
and breaking-candle fields come from the recomputed result, the swing
fields, isCHoCH and breakDirection stay, and confidence is recomputed
from the merged strength and the preserved isCHoCH. -/
def upgradeAssign (existing result : Breakout) : Breakout :=
  { existing with
    bosType := result.bosType
    strength := result.strength
    breakingCandleIndex := result.breakingCandleIndex
    breakingCandleTime := result.breakingCandleTime
    breakingCandleHigh := result.breakingCandleHigh
    breakingCandleLow := result.breakingCandleLow
    breakingCandleClose := result.breakingCandleClose
    confirmingCandles := result.confirmingCandles
    time := result.time
    confidence := calculateConfidence result.strength existing.isCHoCH }

/-- Key match of a stored breakout against a swing. -/
def matchesSwing (swing : Swing) (b : Breakout) : Bool :=
  b.swingIndex == swing.index && b.swingType == swing.type

/-- Upgrade pass of the second-generation upgradeBreakout. -/
def upgradeBreakout (store : List Breakout) (swing : Swing) (cs : List Candle)
    (maxScan : Nat) : List Breakout :=
  match store.find? (matchesSwing swing) with
  | none => store
  | some existing =>
    if existing.bosType == BosType.BOS_SUSTAINED then store
    else
      match checkBreak swing cs maxScan with
      | none => store
      | some result =>
        if result.strength ≤ existing.strength then store
        else modifyFirstP (matchesSwing swing) (fun b => upgradeAssign b result) store

/-- Full detection run (second-generation detectAll). -/
def detectAllS (swings : List Swing) (cs : List Candle) (maxScan : Nat) :
    List Breakout :=
  if swings.isEmpty then []
  else
    swings.foldl
      (fun st swing =>
        match checkBreak swing cs maxScan with
        | none => st
        | some r => st ++ [r])
      []

/-- Incremental detection (second-generation detectLatest). -/
def detectLatestS (store : List Breakout) (swings : List Swing) (cs : List Candle)
    (maxScan : Nat) : List Breakout :=
  if swings.isEmpty then store
  else
    swings.foldl
      (fun st swing =>
        if cs.length - 1 ≤ swing.index then st
        else if st.any (matchesSwing swing) then upgradeBreakout st swing cs maxScan
        else
          match checkBreak swing cs maxScan with
          | none => st
          | some r => st ++ [r])
      store

end breakoutsV2

/-- Level type: equal-high or equal-low zone. -/
inductive LevelType where
  | EQH
  | EQL
deriving DecidableEq, Repr

/-- Lifecycle status of a level. -/
inductive LevelStatus where
  | active
  | swept
  | broken
deriving DecidableEq, Repr

namespace eqhEql
/-! First-generation level lifecycle engine,
server/src/signals/dataProcessor/eqhEql.js. -/

/-- Level record (eqhEql.js validateAndBuild); formatted/date display
fields omitted, zoneMid kept. -/
structure Level where
  type : LevelType
  zoneTop : ℚ
  zoneBottom : ℚ
  zoneMid : ℚ
  firstSwingIndex : Nat
  firstSwingPrice : ℚ
  firstSwingKeyPrice : ℚ
  firstSwingDirection : Option SwingDir
  firstSwingTime : Int
  secondSwingIndex : Nat
  secondSwingPrice : ℚ
  secondSwingKeyPrice : ℚ
  secondSwingDirection : Option SwingDir
  secondSwingTime : Int
  vShapeDepth : Option ℚ
  vShapeIndex : Option Nat
  vShapeTime : Option Int
  candlesBetween : Nat
  status : LevelStatus
  brokenTime : Option Int
  brokenIndex : Option Nat
  brokenBy : Option ℚ
  brokenBosType : Option BosType
  sweptTime : Option Int
  sweptIndex : Option Nat
  sweptBy : Option ℚ
  lastCheckedIndex : Option Nat
  bias : Option BiasSnapshot
  time : Int
deriving DecidableEq, Repr

/-- Pair-identity key of a level, the
firstSwingIndex_secondSwingIndex_type string of the source. -/
def Level.key (l : Level) : Nat × Nat × LevelType :=
  (l.firstSwingIndex, l.secondSwingIndex, l.type)

/-- The single walk over the candles strictly between the two forming
swings inside validateAndBuild: stops at the second swing's index,
returns none as soon as the zone is disturbed, and otherwise counts the
candles and tracks the most extreme opposite-direction wick (the
±Infinity sentinel of the source becomes the none start value). -/
def validateWalk (type : LevelType) (zoneTop zoneBottom : ℚ) (secondIndex : Nat) :
    List Candle → Nat → Option (ℚ × Candle) → Option (Nat × Option (ℚ × Candle))
  | [], count, vext => some (count, vext)
  | c :: rest, count, vext =>
    if secondIndex ≤ c.index then some (count, vext)
    else
      if (type == LevelType.EQH && decide (zoneBottom ≤ c.high)) ||
         (type == LevelType.EQL && decide (c.low ≤ zoneTop)) then none
      else
        let vext := match type with
          | .EQH =>
            match vext with
            | none => some (c.low, c)
            | some (v, _) => if c.low < v then some (c.low, c) else vext
          | .EQL =>
            match vext with
            | none => some (c.high, c)
            | some (v, _) => if v < c.high then some (c.high, c) else vext
        validateWalk type zoneTop zoneBottom secondIndex rest (count + 1) vext

/-- Lookup in the swing.index → swing map built by buildSwingIndexMap:
with duplicate index values (a candle that is both a swing high and a
swing low) the last swing wins, exactly as Map.set does. -/
def swingMapGet (swings : List Swing) (idx : Nat) : Option Swing :=
  swings.foldl (fun acc s => if s.index = idx then some s else acc) none

/-- The V-shape search loop of validateAndBuild over the index list of
the swing map: skip indices at or before the first swing, stop at the
second swing, and succeed at the first index whose map entry has the
target type. -/
def hasVShapeLoop (all : List Swing) (firstIndex secondIndex : Nat)
    (target : SwingType) : List Nat → Bool
  | [] => false
  | idx :: rest =>
    if idx ≤ firstIndex then hasVShapeLoop all firstIndex secondIndex target rest
    else if secondIndex ≤ idx then false
    else
      match swingMapGet all idx with
      | some s => if s.type == target then true
                  else hasVShapeLoop all firstIndex secondIndex target rest
      | none => hasVShapeLoop all firstIndex secondIndex target rest

/-- Candidate validation and construction
(eqhEql.js validateAndBuild): single pass over the candles between the
swings, zone-integrity check, V-shape requirement, then the level
record with status active. Returns none when validation fails. -/
def validateAndBuild (type : LevelType) (firstSwing secondSwing : Swing)
    (cs : List Candle) (allSwings : List Swing) : Option Level :=
  let zoneTop := firstSwing.price
  let zoneBottom := firstSwing.keyPrice
  match nextArrayIdx cs firstSwing.index with
  | none => none
  | some startIdx =>
    match validateWalk type zoneTop zoneBottom secondSwing.index
        (cs.drop startIdx) 0 none with
    | none => none
    | some (count, vext) =>
      if count = 0 then none
      else
        let vTargetType : SwingType := if type == LevelType.EQH then .low else .high
        if !hasVShapeLoop allSwings firstSwing.index secondSwing.index vTargetType
            (allSwings.map fun s => s.index) then none
        else some
          { type := type
            zoneTop := zoneTop
            zoneBottom := zoneBottom
            zoneMid := (zoneTop + zoneBottom) / 2
            firstSwingIndex := firstSwing.index
            firstSwingPrice := firstSwing.price
            firstSwingKeyPrice := firstSwing.keyPrice
            firstSwingDirection := firstSwing.direction
            firstSwingTime := firstSwing.time
            secondSwingIndex := secondSwing.index
            secondSwingPrice := secondSwing.price
            secondSwingKeyPrice := secondSwing.keyPrice
            secondSwingDirection := secondSwing.direction
            secondSwingTime := secondSwing.time
            vShapeDepth := vext.map fun p => p.1
            vShapeIndex := vext.map fun p => p.2.index
            vShapeTime := vext.map fun p => p.2.time
            candlesBetween := count
            status := .active
            brokenTime := none
            brokenIndex := none
            brokenBy := none
            brokenBosType := none
            sweptTime := none
            sweptIndex := none
            sweptBy := none
            lastCheckedIndex := none
            bias := none
            time := secondSwing.time }

/-- BOS classification scan of eqhEql.js classifyBosType over the
candles from the position after the break: a close back inside the zone
kills the chain (BOS_CLOSE), a close beyond brokenBy confirms
(BOS_SUSTAINED), gap candles keep scanning, and running out of candles
leaves BOS_CLOSE for the next tick. -/
def classifyBosType (type : LevelType) (zoneTop zoneBottom brokenBy : ℚ) :
    List Candle → BosType
  | [] => .BOS_CLOSE
  | c :: rest =>
    match type with
    | .EQH =>
      if c.close ≤ zoneTop then .BOS_CLOSE
      else if brokenBy < c.close then .BOS_SUSTAINED
      else classifyBosType type zoneTop zoneBottom brokenBy rest
    | .EQL =>
      if zoneBottom ≤ c.close then .BOS_CLOSE
      else if c.close < brokenBy then .BOS_SUSTAINED
      else classifyBosType type zoneTop zoneBottom brokenBy rest

/-- The per-candle loop of eqhEql.js checkLevelStatus: record the
candle as checked; a close beyond the zone boundary makes the level
broken, classifies the BOS type over the remaining candles and stops;
otherwise a wick breach while still active makes it swept. -/
def checkLevelStatusLoop : Level → List Candle → Level
  | lvl, [] => lvl
  | lvl, c :: rest =>
    let lvl := { lvl with lastCheckedIndex := some c.index }
    match lvl.type with
    | .EQH =>
      if lvl.zoneTop < c.close then
        { lvl with
          status := .broken
          brokenTime := some c.time
          brokenIndex := some c.index
          brokenBy := some c.close
          brokenBosType :=
            some (classifyBosType lvl.type lvl.zoneTop lvl.zoneBottom c.close rest) }
      else
        let lvl :=
          if lvl.status == LevelStatus.active && decide (lvl.zoneTop < c.high) then
            { lvl with
              status := .swept
              sweptTime := some c.time
              sweptIndex := some c.index
              sweptBy := some c.high }
          else lvl
        checkLevelStatusLoop lvl rest
    | .EQL =>
      if c.close < lvl.zoneBottom then
        { lvl with
          status := .broken
          brokenTime := some c.time
          brokenIndex := some c.index
          brokenBy := some c.close
          brokenBosType :=
            some (classifyBosType lvl.type lvl.zoneTop lvl.zoneBottom c.close rest) }
      else
        let lvl :=
          if lvl.status == LevelStatus.active && decide (c.low < lvl.zoneBottom) then
            { lvl with
              status := .swept
              sweptTime := some c.time
              sweptIndex := some c.index
              sweptBy := some c.low }
          else lvl
        checkLevelStatusLoop lvl rest

/-- Resumable status evaluation (eqhEql.js checkLevelStatus): resume
from the candle after lastCheckedIndex (secondSwingIndex before the
first scan), by array position. -/
def checkLevelStatus (lvl : Level) (cs : List Candle) : Level :=
  let resumeFrom := lvl.lastCheckedIndex.getD lvl.secondSwingIndex
  match nextArrayIdx cs resumeFrom with
  | none => lvl
  | some startIdx => checkLevelStatusLoop lvl (cs.drop startIdx)

/-- Pending BOS upgrade pass (eqhEql.js upgradePendingBosTypes): every
broken level still at BOS_CLOSE and not created this tick is
re-classified from the candle after its break; only a BOS_SUSTAINED
result is written back. The null coercion of the source when brokenBy
is absent (never the case for a broken level) compares against 0. -/
def upgradePendingOne (cs : List Candle) (newKeys : List (Nat × Nat × LevelType))
    (lvl : Level) : Level :=
  if lvl.status == LevelStatus.broken &&
     lvl.brokenBosType == some BosType.BOS_CLOSE &&
     !newKeys.contains lvl.key then
    match lvl.brokenIndex with
    | none => lvl
    | some bIdx =>
      match nextArrayIdx cs bIdx with
      | none => lvl
      | some startK =>
        if classifyBosType lvl.type lvl.zoneTop lvl.zoneBottom (lvl.brokenBy.getD 0)
            (cs.drop startK) == BosType.BOS_SUSTAINED then
          { lvl with brokenBosType := some .BOS_SUSTAINED }
        else lvl
  else lvl

/-- The pending upgrade pass applied to every stored level. -/
def upgradePendingBosTypes (levels : List Level) (cs : List Candle)
    (newKeys : List (Nat × Nat × LevelType)) : List Level :=
  levels.map (upgradePendingOne cs newKeys)

/-- The status-count aggregates of the engine that gate the
incremental status sweep. -/
structure Counts where
  eqh : Nat
  eql : Nat
  active : Nat
  broken : Nat
  swept : Nat
deriving DecidableEq, Repr

def Counts.zero : Counts := ⟨0, 0, 0, 0, 0⟩

/-- Count registration at level creation
(eqhEql.js registerLevelCounts). -/
def registerLevelCounts (c : Counts) (lvl : Level) : Counts :=
  let c := if lvl.type == LevelType.EQH then { c with eqh := c.eqh + 1 }
           else { c with eql := c.eql + 1 }
  match lvl.status with
  | .active => { c with active := c.active + 1 }
  | .broken => { c with broken := c.broken + 1 }
  | .swept => { c with swept := c.swept + 1 }

/-- Count adjustment for a status transition observed by
updateActiveStatuses. -/
def adjustCounts (c : Counts) (prev next : LevelStatus) : Counts :=
  if prev == next then c
  else if prev == LevelStatus.active && next == LevelStatus.swept then
    { c with active := c.active - 1, swept := c.swept + 1 }
  else if prev == LevelStatus.active && next == LevelStatus.broken then
    { c with active := c.active - 1, broken := c.broken + 1 }
  else if prev == LevelStatus.swept && next == LevelStatus.broken then
    { c with swept := c.swept - 1, broken := c.broken + 1 }
  else c

/-- Engine state for one (symbol, granularity) key: the time-sorted
level store, the count aggregates, and the swing counts of the last
pass that drive incremental candidate generation. The indexSets mirror
of level keys and the lastLevel / lastActiveLevel caches are derived
views with no effect on detection and are not modelled. -/
structure EqhState where
  levels : List Level
  counts : Counts
  lastHighs : Nat
  lastLows : Nat
deriving DecidableEq, Repr

def EqhState.init : EqhState := ⟨[], Counts.zero, 0, 0⟩

/-- The per-level body of the status sweep loop of
eqhEql.js updateActiveStatuses: broken levels and this tick's new
levels are skipped, every other level is re-evaluated from its resume
point. -/
def statusSweepOne (cs : List Candle) (newKeys : List (Nat × Nat × LevelType))
    (lvl : Level) : Level :=
  if lvl.status == LevelStatus.broken || newKeys.contains lvl.key then lvl
  else checkLevelStatus lvl cs

/-- Status sweep of eqhEql.js updateActiveStatuses: when any active or
swept level is on record, walk the store applying the sweep body and
adjusting the counts; afterwards always run the pending BOS upgrades. -/
def updateActiveStatuses (st : EqhState) (cs : List Candle)
    (newKeys : List (Nat × Nat × LevelType)) : EqhState :=
  let (levels, counts) :=
    if 0 < st.counts.active || 0 < st.counts.swept then
      st.levels.foldl
        (fun (acc : List Level × Counts) lvl =>
          let lvl' := statusSweepOne cs newKeys lvl
          (acc.1 ++ [lvl'],
           if lvl.status == LevelStatus.broken || newKeys.contains lvl.key then acc.2
           else adjustCounts acc.2 lvl.status lvl'.status))
        ([], st.counts)
    else (st.levels, st.counts)
  { st with levels := upgradePendingBosTypes levels cs newKeys, counts := counts }

/-- The pair guards of the candidate loops: the second swing must lie
between the first swing's key price and price (EQH) or between its
price and key price (EQL). -/
def pairOk (type : LevelType) (firstSwing secondSwing : Swing) : Bool :=
  match type with
  | .EQH => !(firstSwing.price < secondSwing.price) &&
            !(secondSwing.price < firstSwing.keyPrice)
  | .EQL => !(secondSwing.price < firstSwing.price) &&
            !(firstSwing.keyPrice < secondSwing.price)

/-- Shared creation body of both detection entry points: guards,
duplicate check against the accumulated store, validation, bias
snapshot and initial status evaluation. Returns the processed level or
none. -/
def tryCreateLevel (type : LevelType) (firstSwing secondSwing : Swing)
    (cs : List Candle) (allSwings : List Swing) (bias : Option BiasSnapshot)
    (store : List Level) : Option Level :=
  if !pairOk type firstSwing secondSwing then none
  else if store.any fun l =>
      l.key = (firstSwing.index, secondSwing.index, type) then none
  else
    match validateAndBuild type firstSwing secondSwing cs allSwings with
    | none => none
    | some lvl => some (checkLevelStatus { lvl with bias := bias } cs)

/-- Lexicographic (i, j) pair order of the detectAll candidate loops. -/
def pairsAll (n : Nat) : List (Nat × Nat) :=
  (List.range n).flatMap fun i => (List.range' (i + 1) (n - (i + 1))).map fun j => (i, j)

/-- Pair order of the detectLatest candidate loops: new second swings
j from start outermost, each against every earlier i. -/
def pairsLatest (start n : Nat) : List (Nat × Nat) :=
  (List.range' start (n - start)).flatMap fun j => (List.range j).map fun i => (i, j)

/-- One candidate pair step of a detection run: create-and-process the
level, then register counts and add it to the store through ins
(plain push for detectAll, sorted insert for detectLatest). Also
collects the new levels in order. -/
def pairStep (type : LevelType) (swingsOfType : List Swing) (cs : List Candle)
    (allSwings : List Swing) (bias : Option BiasSnapshot)
    (ins : Level → List Level → List Level)
    (acc : List Level × Counts × List Level) (p : Nat × Nat) :
    List Level × Counts × List Level :=
  match swingsOfType[p.1]?, swingsOfType[p.2]? with
  | some firstSwing, some secondSwing =>
    match tryCreateLevel type firstSwing secondSwing cs allSwings bias acc.1 with
    | none => acc
    | some lvl => (ins lvl acc.1, registerLevelCounts acc.2.1 lvl, acc.2.2 ++ [lvl])
  | _, _ => acc

/-- Full detection run of eqhEql.js detectAll as a state transformer:
no candles leaves the state untouched (the source returns before its
reset); otherwise the store is reset, every EQH pair and then every EQL
pair is examined in lexicographic order with plain pushes, the store is
stably sorted by time at the end, and the swing counts are recorded. -/
def detectAllE (st : EqhState) (allSwings : List Swing) (bias : Option BiasSnapshot)
    (cs : List Candle) : EqhState :=
  if cs.isEmpty then st
  else if allSwings.isEmpty then
    { levels := [], counts := Counts.zero, lastHighs := 0, lastLows := 0 }
  else
    let highs := allSwings.filter isHighSwing
    let lows := allSwings.filter isLowSwing
    let push : Level → List Level → List Level := fun lvl store => store ++ [lvl]
    let acc0 : List Level × Counts × List Level := ([], Counts.zero, [])
    let acc1 := (pairsAll highs.length).foldl
      (pairStep .EQH highs cs allSwings bias push) acc0
    let acc2 := (pairsAll lows.length).foldl
      (pairStep .EQL lows cs allSwings bias push) acc1
    { levels := stableSortBy (fun l => l.time) acc2.1
      counts := acc2.2.1
      lastHighs := highs.length
      lastLows := lows.length }

/-- Sorted insert of the first-generation insertSorted: binary
insertion after all levels with time ≤ the new level's time (no
eviction in this generation). -/
def insertSorted (lvl : Level) (store : List Level) : List Level :=
  insertAfterLe (fun l => l.time) lvl store

/-- Incremental detection of eqhEql.js detectLatest as a state
transformer: candidate pairs whose second swing is new since the last
pass are examined (EQH then EQL), each created level is sorted-inserted
immediately, the swing counts are updated, and the status sweep plus
pending BOS upgrades run over the pre-existing levels. -/
def detectLatestE (st : EqhState) (allSwings : List Swing)
    (bias : Option BiasSnapshot) (cs : List Candle) : EqhState :=
  if cs.isEmpty then st
  else if allSwings.isEmpty then st
  else
    let highs := allSwings.filter isHighSwing
    let lows := allSwings.filter isLowSwing
    let acc0 : List Level × Counts × List Level := (st.levels, st.counts, [])
    let acc1 := (pairsLatest st.lastHighs highs.length).foldl
      (pairStep .EQH highs cs allSwings bias insertSorted) acc0
    let acc2 := (pairsLatest st.lastLows lows.length).foldl
      (pairStep .EQL lows cs allSwings bias insertSorted) acc1
    let newKeys := acc2.2.2.map Level.key
    updateActiveStatuses
      { levels := acc2.1, counts := acc2.2.1
        lastHighs := highs.length, lastLows := lows.length }
      cs newKeys

end eqhEql

/-! Pipeline drivers for the full-batch versus incremental comparison:
swings feed breakouts feed levels, for one (symbol, granularity) key,
using the first-generation engines (swings.js, dataProcessor/breakouts.js,
dataProcessor/eqhEql.js, which require one another). -/

/-- Combined per-key state of the three stores. -/
structure PipelineState where
  swings : List Swing
  breakouts : List breakouts.Breakout
  eqh : eqhEql.EqhState
deriving DecidableEq, Repr

def PipelineState.init : PipelineState :=
  { swings := [], breakouts := [], eqh := eqhEql.EqhState.init }

/-- One incremental tick: swing detection, then breakout detection,
then level detection, each reading the freshly updated upstream store,
with the level engine snapshotting the breakout engine's current
bias. -/
def pipelineStep (st : PipelineState) (cs : List Candle) (strength : Nat) :
    PipelineState :=
  let sw := SwingEngine.detectLatestS st.swings cs strength
  let bk := breakouts.detectLatestS st.breakouts sw cs
  let eq := eqhEql.detectLatestE st.eqh sw (breakouts.getCurrentBias bk) cs
  { swings := sw, breakouts := bk, eqh := eq }

/-- Feeding the sequence one candle at a time through the pipeline. -/
def pipelineIncr (cs : List Candle) (strength : Nat) : PipelineState :=
  (List.range cs.length).foldl
    (fun st m => pipelineStep st (cs.take (m + 1)) strength) PipelineState.init

/-- One full-batch run over the whole sequence. -/
def pipelineFull (cs : List Candle) (strength : Nat) : PipelineState :=
  let sw := SwingEngine.detectAllS [] cs strength
  let bk := breakouts.detectAllS sw cs
  let eq := eqhEql.detectAllE eqhEql.EqhState.init sw (breakouts.getCurrentBias bk) cs
  { swings := sw, breakouts := bk, eqh := eq }

namespace defaultConfig
/-! The default configuration constants of server/src/config.js. -/

/-- Maximum number of candles after a break to wait for sustained
confirmation. -/
def MAX_BOS_SCAN_CANDLES : Nat := 10

/-- Maximum number of candles to scan for a setup V-shape after a
breakout. -/
def MAX_SETUP_SCAN_CANDLES : Nat := 50

/-- Maximum number of EQH/EQL levels to retain per symbol/granularity. -/
def MAX_LEVELS_PER_SYMBOL : Nat := 1000

/-- Maximum age of levels to retain (in milliseconds, 0 disables the
age check): 30 days. -/
def MAX_LEVEL_AGE_MS : Int := 30 * 24 * 60 * 60 * 1000

end defaultConfig

namespace eqhEqlV2
/-! The pieces of the second-generation level engine (the revision of
eqhEql.js also present in this repository snapshot) that the claims
need: its sorted insert additionally enforces the configured count and
age bounds and keeps the pair-identity duplicate set in sync. The level
record itself is the first-generation one; the extra fields of the
second generation (preBreakout tracking, confidence) play no role in
the insertion. -/

/-- The pair-identity duplicate set of a store. -/
abbrev KeySet := Finset (Nat × Nat × LevelType)

/-- Sorted insert with eviction (second-generation insertSorted):
sortedInsert by time, then, when maxLevels > 0 and exceeded, splice the
oldest entries off the front and delete their keys; then, when
maxAgeMs > 0, find the first level within the age bound and, if it is
not the very first, splice everything before it off and delete those
keys. (When findIndex finds nothing it returns -1 and the age branch
does not splice, modelled by the none case.) -/
def insertSorted (store : List eqhEql.Level) (keySet : KeySet) (lvl : eqhEql.Level)
    (now : Int) (maxLevels : Nat) (maxAgeMs : Int) :
    List eqhEql.Level × KeySet :=
  let arr := insertAfterLe (fun l => l.time) lvl store
  let pruned :=
    if 0 < maxLevels ∧ maxLevels < arr.length then
      let removed := arr.take (arr.length - maxLevels)
      (arr.drop (arr.length - maxLevels),
       removed.foldl (fun s l => s.erase l.key) keySet)
    else (arr, keySet)
  if 0 < maxAgeMs then
    match pruned.1.findIdx? (fun l => decide (now - l.time ≤ maxAgeMs)) with
    | some idx =>
      if 0 < idx then
        (pruned.1.drop idx,
         (pruned.1.take idx).foldl (fun s l => s.erase l.key) pruned.2)
      else pruned
    | none => pruned
  else pruned

end eqhEqlV2

namespace setup
/-! Setup deriver, server/src/signals/dataProcessor/setup.js. -/

/-- A setup record: the source spreads the whole source level into the
setup object and adds the pullback and impulse extremes; the spread
copy is the level field here. -/
structure Setup where
  level : eqhEql.Level
  setupVshapeDepth : Option ℚ
  setupVshapeTime : Option Int
  setupVshapeIndex : Option Nat
  impulseExtremeDepth : Option ℚ
  impulseExtremeTime : Option Int
  impulseExtremeIndex : Option Nat
deriving DecidableEq, Repr

/-- One comparison step of the minimum-low scan. -/
def minLowStep (acc : Option Candle) (c : Candle) : Option Candle :=
  match acc with
  | none => some c
  | some b => if c.low < b.low then some c else acc

/-- First-occurrence-wins minimum-low candle of a window (the
minLow/extremeCandle loop of getSetups for a broken EQH). -/
def minLowCandle (window : List Candle) : Option Candle :=
  window.foldl minLowStep none

/-- One comparison step of the maximum-high scan. -/
def maxHighStep (acc : Option Candle) (c : Candle) : Option Candle :=
  match acc with
  | none => some c
  | some b => if b.high < c.high then some c else acc

/-- First-occurrence-wins maximum-high candle of a window (the
maxHigh/extremeCandle loop of getSetups for a broken EQL). -/
def maxHighCandle (window : List Candle) : Option Candle :=
  window.foldl maxHighStep none

/-- Build the setup of one broken level (the loop body of
setup.js getSetups): scan at most scanCandles candles after the
breaking candle for the post-break pullback extreme, then scan the
candles strictly between the level's vShape position and the pullback
position for the impulse extreme. -/
def setupExtreme (cs : List Candle) (scanCandles : Nat) (lvl : eqhEql.Level) :
    Option Candle :=
  match lvl.brokenIndex with
  | none => none
  | some bIdx =>
    match candleIndexMapGet cs bIdx with
    | none => none
    | some breakArrayPos =>
      let window := (cs.drop (breakArrayPos + 1)).take scanCandles
      if lvl.type == LevelType.EQH then minLowCandle window else maxHighCandle window

def setupImpulse (cs : List Candle) (lvl : eqhEql.Level)
    (extremeCandle : Option Candle) : Option Candle :=
  match lvl.vShapeIndex, extremeCandle with
  | some vIdx, some ec =>
    match candleIndexMapGet cs vIdx, candleIndexMapGet cs ec.index with
    | some vPos, some sPos =>
      if vPos < sPos then
        let between := (cs.drop (vPos + 1)).take (sPos - (vPos + 1))
        if lvl.type == LevelType.EQH then maxHighCandle between else minLowCandle between
      else none
    | _, _ => none
  | _, _ => none

def setupFor (cs : List Candle) (scanCandles : Nat) (lvl : eqhEql.Level) : Setup :=
  let extremeCandle : Option Candle := setupExtreme cs scanCandles lvl
  let impulseExtremeCandle : Option Candle := setupImpulse cs lvl extremeCandle
  { level := lvl
    setupVshapeDepth := extremeCandle.map fun c =>
      if lvl.type == LevelType.EQH then c.low else c.high
    setupVshapeTime := extremeCandle.map fun c => c.time
    setupVshapeIndex := extremeCandle.map fun c => c.index
    impulseExtremeDepth := impulseExtremeCandle.map fun c =>
      if lvl.type == LevelType.EQH then c.high else c.low
    impulseExtremeTime := impulseExtremeCandle.map fun c => c.time
    impulseExtremeIndex := impulseExtremeCandle.map fun c => c.index }

/-- Setups of all broken levels (setup.js getSetups): filters the
store to BROKEN levels, returns empty when there are no broken levels
or no candles, and otherwise derives one setup per broken level,
mutating nothing. -/
def getSetups (levels : List eqhEql.Level) (cs : List Candle) (scanCandles : Nat) :
    List Setup :=
  let brokenLevels := levels.filter fun l => l.status == LevelStatus.broken
  if brokenLevels.isEmpty then []
  else if cs.isEmpty then []
  else brokenLevels.map (setupFor cs scanCandles)

end setup

/-! Concrete inputs used by the counterexamples and witnesses below. -/

/-- Shorthand candle constructor: position-valued index and time. -/
def mkCandle (i : Nat) (o h l c : ℚ) : Candle :=
  { index := i, time := (i : Int), open' := o, high := h, low := l, close := c }

/-- Candle sequence with an EQH level (swing highs at positions 1 and
5, an intervening swing low at position 3) that is created by the
incremental pipeline before any breakout exists and is broken by the
candle at position 7. -/
def exC1 : List Candle :=
  [ mkCandle 0 45 50 40 48,
    mkCandle 1 70 100 60 90,
    mkCandle 2 60 80 55 70,
    mkCandle 3 35 70 30 60,
    mkCandle 4 50 75 45 70,
    mkCandle 5 70 95 65 80,
    mkCandle 6 70 85 62 75,
    mkCandle 7 90 120 80 110,
    mkCandle 8 95 105 85 100 ]

/-- Candle sequence producing an EQL level (swing lows at positions 1
and 5 with an intervening swing high at position 3): its first swing
has price 30 (wick) and key price 40 (body). -/
def exC2 : List Candle :=
  [ mkCandle 0 60 80 50 70,
    mkCandle 1 40 70 30 60,
    mkCandle 2 55 75 45 65,
    mkCandle 3 60 90 50 80,
    mkCandle 4 60 80 48 70,
    mkCandle 5 45 60 35 50,
    mkCandle 6 55 65 50 60 ]

/-- The five-candle scenario of the specification: highs 10, 12, 8,
13, 9 and lows 9, 11, 7, 12, 8 (bodies placed at the lows). -/
def exC7 : List Candle :=
  [ mkCandle 0 9 10 9 9,
    mkCandle 1 11 12 11 11,
    mkCandle 2 7 8 7 7,
    mkCandle 3 12 13 12 12,
    mkCandle 4 8 9 8 8 ]

/-- States of the second-generation breakout store reachable through
its two detection entry points. -/
inductive ReachableB : List breakoutsV2.Breakout → Prop where
  | init : ReachableB []
  | detectAll (swings : List Swing) (cs : List Candle) (maxScan : Nat) :
      ReachableB (breakoutsV2.detectAllS swings cs maxScan)
  | detectLatest (s : List breakoutsV2.Breakout) (swings : List Swing)
      (cs : List Candle) (maxScan : Nat) :
      ReachableB s → ReachableB (breakoutsV2.detectLatestS s swings cs maxScan)

/-- The confidence contract of a second-generation breakout record:
the record carries exactly the documented formula of its own strength
rank and character-change flag. -/
def confidenceSpec (b : breakoutsV2.Breakout) : Prop :=
  b.confidence =
    min ((b.strength : ℚ) / 3 + (if b.isCHoCH then 1 / 5 else 0)) 1

/-- Candles for the breakout witnesses: a swing high at price 100 at
position 0, a confirming close 110 at position 1, and a sustained
close 111 at position 2. -/
def exCsW : List Candle :=
  [mkCandle 0 90 100 80 95, mkCandle 1 100 120 95 110, mkCandle 2 100 112 98 111]

/-- The swing the breakout witnesses break. -/
def exSwW : Swing := buildSwing .high (mkCandle 0 90 100 80 95) 0 1

/-- The contracts as a store invariant. -/
def storeContractB (s : List breakoutsV2.Breakout) : Prop :=
  ∀ b ∈ s, b.strength = strengthOfBos b.bosType ∧ confidenceSpec b

/-- How one stored record can evolve across one incremental pass:
untouched, or upgraded in place by a strictly stronger recomputed
classification while not yet sustained. -/
def recordEvolution (old new : breakoutsV2.Breakout) : Prop :=
  new = old ∨
  (old.bosType ≠ BosType.BOS_SUSTAINED ∧
   ∃ result : breakoutsV2.Breakout,
     old.strength < result.strength ∧ new = breakoutsV2.upgradeAssign old result)

/-- The per-position invariant of one pass: every pre-existing position
survives and evolves only through recordEvolution. -/
def passInv (s st : List breakoutsV2.Breakout) : Prop :=
  s.length ≤ st.length ∧
  ∀ (p : Nat) (old : breakoutsV2.Breakout), s[p]? = some old →
    ∃ new, st[p]? = some new ∧ recordEvolution old new

/-- One incremental pass with explicit argument triple. -/
def passArgs := List Swing × List Candle × Nat

/-- Folding any sequence of incremental passes over a store. -/
def detectLatestFold (s : List breakoutsV2.Breakout) (args : List passArgs) :
    List breakoutsV2.Breakout :=
  args.foldl (fun st a => breakoutsV2.detectLatestS st a.1 a.2.1 a.2.2) s

/-- The close-beyond-the-swing-level test of the checkBreak scans. -/
def closeBeyondB (sw : Swing) (c : Candle) : Bool :=
  if sw.type == SwingType.high then decide (sw.price < c.close)
  else decide (c.close < sw.price)

/-- The closes-further-beyond-the-confirming-close test of the bounded
sustained window. -/
def susBeyondB (sw : Swing) (confirm c : Candle) : Bool :=
  if sw.type == SwingType.high then decide (confirm.close < c.close)
  else decide (c.close < confirm.close)

/-- The bounded sustained window of the second-generation scan after a
confirming candle at position q. -/
def susWindow (cs : List Candle) (q maxScan : Nat) : List Candle :=
  (cs.drop (q + 1)).take (min (cs.length - 1) (q + maxScan) + 1 - (q + 1))

/-- Decidable check that candle indices equal array positions from a
given offset, as the signal engine produces them. -/
def posIndexedB : Nat → List Candle → Bool
  | _, [] => true
  | j, c :: rest => c.index == j && posIndexedB (j + 1) rest

/-- Numeric rank of a level status along its one-directional
lifecycle. -/
def statusRank : LevelStatus → Nat
  | .active => 0
  | .swept => 1
  | .broken => 2

/-- Argument triple of one incremental level-engine pass. -/
def eqhArgs := List Swing × Option BiasSnapshot × List Candle

/-- Folding any sequence of incremental level-engine passes. -/
def detectLatestEFold (st : eqhEql.EqhState) (args : List eqhArgs) :
    eqhEql.EqhState :=
  args.foldl (fun s a => eqhEql.detectLatestE s a.1 a.2.1 a.2.2) st

/-- States of the level engine reachable through its two detection
entry points. -/
inductive ReachableE : eqhEql.EqhState → Prop where
  | init : ReachableE eqhEql.EqhState.init
  | detectAll (st : eqhEql.EqhState) (sw : List Swing) (bias : Option BiasSnapshot)
      (cs : List Candle) : ReachableE st → ReachableE (eqhEql.detectAllE st sw bias cs)
  | detectLatest (st : eqhEql.EqhState) (sw : List Swing)
      (bias : Option BiasSnapshot) (cs : List Candle) :
      ReachableE st → ReachableE (eqhEql.detectLatestE st sw bias cs)

/-- The zone ordering the level engine actually maintains: the zone of
an EQH level runs from the first swing's body (zoneBottom) up to its
wick (zoneTop), while for an EQL level zoneTop carries the wick low and
zoneBottom the body, so the numeric order is reversed. -/
def zoneOrder (l : eqhEql.Level) : Prop :=
  (l.type = LevelType.EQH → l.zoneBottom ≤ l.zoneTop) ∧
  (l.type = LevelType.EQL → l.zoneTop ≤ l.zoneBottom)

/-- How one stored level can evolve across one incremental
level-engine pass. -/
def levelEvol (old new : eqhEql.Level) : Prop :=
  new.key = old.key ∧
  statusRank old.status ≤ statusRank new.status ∧
  (old.status = LevelStatus.broken →
    new.status = LevelStatus.broken ∧
    (new.brokenBosType = old.brokenBosType ∨
      (old.brokenBosType = some BosType.BOS_CLOSE ∧
       new.brokenBosType = some BosType.BOS_SUSTAINED)))

/-- Default level record, giving the store element type an Inhabited
instance so a store sample can be taken with headI. -/
instance : Inhabited eqhEql.Level :=
  ⟨{ type := .EQH, zoneTop := 0, zoneBottom := 0, zoneMid := 0,
     firstSwingIndex := 0, firstSwingPrice := 0, firstSwingKeyPrice := 0,
     firstSwingDirection := none, firstSwingTime := 0,
     secondSwingIndex := 0, secondSwingPrice := 0, secondSwingKeyPrice := 0,
     secondSwingDirection := none, secondSwingTime := 0,
     vShapeDepth := none, vShapeIndex := none, vShapeTime := none,
     candlesBetween := 0, status := .active,
     brokenTime := none, brokenIndex := none, brokenBy := none,
     brokenBosType := none, sweptTime := none, sweptIndex := none,
     sweptBy := none, lastCheckedIndex := none, bias := none, time := 0 }⟩

/-- Level literals for exercising the second-generation insert bounds:
pair key (i, i+1, EQH), creation time t, every other field default. -/
def exLevelC6 (i : Nat) (t : Int) : eqhEql.Level :=
  { (default : eqhEql.Level) with
    firstSwingIndex := i, secondSwingIndex := i + 1, time := t }

/-- The accumulator after the two candidate folds of detectLatest
(EQH pairs then EQL pairs), named so the phases can be reasoned about
separately. -/
def eqhLatestAcc2 (st : eqhEql.EqhState) (sw : List Swing)
    (bias : Option BiasSnapshot) (cs : List Candle) :
    List eqhEql.Level × eqhEql.Counts × List eqhEql.Level :=
  (eqhEql.pairsLatest st.lastLows (sw.filter isLowSwing).length).foldl
    (eqhEql.pairStep .EQL (sw.filter isLowSwing) cs sw bias eqhEql.insertSorted)
    ((eqhEql.pairsLatest st.lastHighs (sw.filter isHighSwing).length).foldl
      (eqhEql.pairStep .EQH (sw.filter isHighSwing) cs sw bias eqhEql.insertSorted)
      (st.levels, st.counts, []))

/-- The neighbour condition the scan's j-th comparison imposes on a
swing-high candidate c at position i: both neighbours exist, are sane,
and have strictly smaller highs. -/
def nbrHigh (cs : List Candle) (c : Candle) (i j : Nat) : Prop :=
  ∃ p q, cs[i - j]? = some p ∧ cs[i + j]? = some q ∧
    isSaneCandle p = true ∧ isSaneCandle q = true ∧
    p.high < c.high ∧ q.high < c.high

/-- The neighbour condition for a swing-low candidate: both neighbours
exist, are sane, and have strictly larger lows. -/
def nbrLow (cs : List Candle) (c : Candle) (i j : Nat) : Prop :=
  ∃ p q, cs[i - j]? = some p ∧ cs[i + j]? = some q ∧
    isSaneCandle p = true ∧ isSaneCandle q = true ∧
    c.low < p.low ∧ c.low < q.low

/-- A position the scan reports with the given swing type: the centre
exists, is sane, and carries the matching scan flag. -/
def scanHit (cs : List Candle) (k : Nat) (t : SwingType) (i : Nat) : Prop :=
  ∃ c, cs[i]? = some c ∧ isSaneCandle c = true ∧
    (match t with
     | SwingType.high => (swingFlagsAt cs c i k).1
     | SwingType.low => (swingFlagsAt cs c i k).2) = true

/-- A broken level with default fields, input of the setup witness. -/
def exLvlC10 : eqhEql.Level :=
  { (default : eqhEql.Level) with status := LevelStatus.broken }

/-- The lastHigh accumulator of the full direction rebuild after a
walk over L, starting from lH. -/
def hAccF (lH : Option ℚ) (L : List Swing) : Option ℚ :=
  L.foldl (fun acc s => if isHighSwing s then some s.price else acc) lH

/-- The lastLow accumulator of the full direction rebuild after a walk
over L, starting from lL. -/
def lAccF (lL : Option ℚ) (L : List Swing) : Option ℚ :=
  L.foldl (fun acc s => if isLowSwing s then some s.price else acc) lL

/-- The direction chain restricted to swing highs: what the full
rebuild assigns along the subsequence of highs. -/
def dirChainH (lH : Option ℚ) : List Swing → List Swing
  | [] => []
  | s :: rest =>
    { s with direction := some (dirHOf lH s) } :: dirChainH (some s.price) rest

/-- The direction chain restricted to swing lows. -/
def dirChainL (lL : Option ℚ) : List Swing → List Swing
  | [] => []
  | s :: rest =>
    { s with direction := some (dirLOf lL s) } :: dirChainL (some s.price) rest

/-! From here on: lemmas and the claim theorems. -/

section Lemmas

/-- Invariant preservation along a left fold. -/
theorem foldl_inv {α β : Type} (P : β → Prop) (f : β → α → β) (l : List α) (b0 : β)
    (h0 : P b0) (hstep : ∀ b a, a ∈ l → P b → P (f b a)) : P (l.foldl f b0) := by
  induction l generalizing b0 with
  | nil => exact h0
  | cons x xs ih =>
    exact ih (f b0 x) (hstep b0 x (List.mem_cons_self x xs) h0)
      (fun b a ha hb => hstep b a (List.mem_cons_of_mem x ha) hb)

/-- Membership after modifyFirstP: either an untouched element of the
input or the image of an input element. -/
theorem mem_modifyFirstP {α : Type} {p : α → Bool} {f : α → α} {l : List α} {x : α}
    (hx : x ∈ modifyFirstP p f l) : x ∈ l ∨ ∃ y ∈ l, x = f y := by
  induction l with
  | nil => exact absurd hx (by simp [modifyFirstP])
  | cons a as ih =>
    by_cases hpa : p a
    · simp only [modifyFirstP, hpa, if_pos] at hx
      rcases List.mem_cons.mp hx with h | h
      · exact Or.inr ⟨a, List.mem_cons_self a as, h⟩
      · exact Or.inl (List.mem_cons_of_mem a h)
    · simp only [modifyFirstP, hpa] at hx
      rcases List.mem_cons.mp hx with h | h
      · exact Or.inl (by simp [h])
      · rcases ih h with h' | ⟨y, hy, hxy⟩
        · exact Or.inl (List.mem_cons_of_mem a h')
        · exact Or.inr ⟨y, List.mem_cons_of_mem a hy, hxy⟩

end Lemmas

section C8Lemmas

/-- A freshly built second-generation record satisfies the rank and
confidence contracts. -/
theorem buildBreakout_contract (t : BosType) (sw : Swing) (bc : Candle)
    (conf : List Candle) :
    (breakoutsV2.buildBreakout t sw bc conf).strength =
      strengthOfBos (breakoutsV2.buildBreakout t sw bc conf).bosType ∧
    confidenceSpec (breakoutsV2.buildBreakout t sw bc conf) := by
  constructor
  · rfl
  · rfl

/-- Records produced by the second-generation checkBreak satisfy the
contracts. -/
theorem checkBreak_contract {sw : Swing} {cs : List Candle} {m : Nat}
    {b : breakoutsV2.Breakout} (h : breakoutsV2.checkBreak sw cs m = some b) :
    b.strength = strengthOfBos b.bosType ∧ confidenceSpec b := by
  unfold breakoutsV2.checkBreak at h
  split at h
  · exact absurd h (by simp)
  · split at h
    · exact absurd h (by simp)
    · simp only [Option.some.injEq] at h
      exact h ▸ buildBreakout_contract _ _ _ _
    · simp only [Option.some.injEq] at h
      exact h ▸ buildBreakout_contract _ _ _ _
    · simp only [Option.some.injEq] at h
      exact h ▸ buildBreakout_contract _ _ _ _
    · exact absurd h (by simp)

/-- The in-place upgrade preserves the contracts provided the
recomputed result came from checkBreak. -/
theorem upgradeAssign_contract {e r : breakoutsV2.Breakout}
    (hr : r.strength = strengthOfBos r.bosType) :
    (breakoutsV2.upgradeAssign e r).strength =
      strengthOfBos (breakoutsV2.upgradeAssign e r).bosType ∧
    confidenceSpec (breakoutsV2.upgradeAssign e r) := by
  refine ⟨hr, ?_⟩
  simp only [confidenceSpec, breakoutsV2.upgradeAssign, breakoutsV2.calculateConfidence]


theorem upgradeBreakout_contract {s : List breakoutsV2.Breakout} {sw : Swing}
    {cs : List Candle} {m : Nat} (h : storeContractB s) :
    storeContractB (breakoutsV2.upgradeBreakout s sw cs m) := by
  unfold breakoutsV2.upgradeBreakout
  rcases hf : s.find? (breakoutsV2.matchesSwing sw) with _ | e
  · exact h
  · by_cases he : e.bosType == BosType.BOS_SUSTAINED
    · simpa [he] using h
    · simp only [he, if_false, Bool.false_eq_true]
      rcases hc : breakoutsV2.checkBreak sw cs m with _ | r
      · exact h
      · by_cases hle : r.strength ≤ e.strength
        · simpa [hle] using h
        · simp only [hle, if_false]
          intro b hb
          rcases mem_modifyFirstP hb with hb' | ⟨y, hy, hby⟩
          · exact h b hb'
          · exact hby ▸ upgradeAssign_contract (checkBreak_contract hc).1

theorem detectAllS_contract (swings : List Swing) (cs : List Candle) (m : Nat) :
    storeContractB (breakoutsV2.detectAllS swings cs m) := by
  unfold breakoutsV2.detectAllS
  by_cases hsw : swings.isEmpty
  · simp [hsw, storeContractB]
  · simp only [hsw, if_false, Bool.false_eq_true]
    refine foldl_inv storeContractB _ swings [] (by simp [storeContractB]) ?_
    intro st sw _ hst
    rcases hc : breakoutsV2.checkBreak sw cs m with _ | r
    · exact hst
    · intro b hb
      rcases List.mem_append.mp hb with h' | h'
      · exact hst b h'
      · simp only [List.mem_singleton] at h'
        exact h' ▸ checkBreak_contract hc

theorem detectLatestS_contract {s : List breakoutsV2.Breakout} (swings : List Swing)
    (cs : List Candle) (m : Nat) (h : storeContractB s) :
    storeContractB (breakoutsV2.detectLatestS s swings cs m) := by
  unfold breakoutsV2.detectLatestS
  by_cases hsw : swings.isEmpty
  · simpa [hsw] using h
  · simp only [hsw, if_false, Bool.false_eq_true]
    refine foldl_inv storeContractB _ swings s h ?_
    intro st sw _ hst
    by_cases hskip : cs.length - 1 ≤ sw.index
    · simpa [hskip] using hst
    · simp only [hskip, if_false]
      by_cases hdup : st.any (breakoutsV2.matchesSwing sw)
      · simpa [hdup] using upgradeBreakout_contract hst
      · simp only [hdup, if_false, Bool.false_eq_true]
        rcases hc : breakoutsV2.checkBreak sw cs m with _ | r
        · exact hst
        · intro b hb
          rcases List.mem_append.mp hb with h' | h'
          · exact hst b h'
          · simp only [List.mem_singleton] at h'
            exact h' ▸ checkBreak_contract hc

/-- Every reachable second-generation store satisfies the rank and
confidence contracts. -/
theorem reachableB_contract {s : List breakoutsV2.Breakout} (hs : ReachableB s) :
    storeContractB s := by
  induction hs with
  | init => simp [storeContractB]
  | detectAll swings cs m => exact detectAllS_contract swings cs m
  | detectLatest s swings cs m _ ih => exact detectLatestS_contract swings cs m ih

end C8Lemmas

section C39Lemmas

theorem length_modifyFirstP {α : Type} (p : α → Bool) (f : α → α) (l : List α) :
    (modifyFirstP p f l).length = l.length := by
  induction l with
  | nil => rfl
  | cons a as ih =>
    by_cases hpa : p a
    · simp [modifyFirstP, hpa]
    · simp [modifyFirstP, hpa, ih]

/-- Positional view of modifyFirstP when the first match is known: a
position holds the untouched input element or the image of the found
element. -/
theorem getElem?_modifyFirstP_of_find? {α : Type} {p : α → Bool} {f : α → α}
    {l : List α} {e : α} (hf : l.find? p = some e) (idx : Nat) :
    (modifyFirstP p f l)[idx]? = l[idx]? ∨
    (l[idx]? = some e ∧ (modifyFirstP p f l)[idx]? = some (f e)) := by
  induction l generalizing idx with
  | nil => exact Or.inl rfl
  | cons a as ih =>
    by_cases hpa : p a
    · have he : e = a := by
        have := List.find?_cons_of_pos as hpa
        rw [this] at hf
        exact (Option.some.injEq _ _ ▸ hf.symm)
      subst he
      cases idx with
      | zero => exact Or.inr ⟨by simp, by simp [modifyFirstP, hpa]⟩
      | succ n => exact Or.inl (by simp [modifyFirstP, hpa])
    · have hf' : as.find? p = some e := by
        have := List.find?_cons_of_neg as hpa
        rw [this] at hf
        exact hf
      cases idx with
      | zero => exact Or.inl (by simp [modifyFirstP, hpa])
      | succ n =>
        rcases ih hf' n with h | ⟨h1, h2⟩
        · exact Or.inl (by simp [modifyFirstP, hpa, h])
        · exact Or.inr ⟨by simpa using h1, by simp [modifyFirstP, hpa, h2]⟩


theorem upgradeAssign_strength (old r : breakoutsV2.Breakout) :
    (breakoutsV2.upgradeAssign old r).strength = r.strength := rfl

theorem upgradeAssign_upgradeAssign (old r1 r2 : breakoutsV2.Breakout) :
    breakoutsV2.upgradeAssign (breakoutsV2.upgradeAssign old r1) r2 =
    breakoutsV2.upgradeAssign old r2 := rfl

/-- Composing an evolution with one further in-place upgrade. -/
theorem recordEvolution_upgrade {old mid r : breakoutsV2.Breakout}
    (h : recordEvolution old mid) (hmid : mid.bosType ≠ BosType.BOS_SUSTAINED)
    (hlt : mid.strength < r.strength) :
    recordEvolution old (breakoutsV2.upgradeAssign mid r) := by
  rcases h with rfl | ⟨hb, r1, hr1, rfl⟩
  · exact Or.inr ⟨hmid, r, hlt, rfl⟩
  · refine Or.inr ⟨hb, r, ?_, (upgradeAssign_upgradeAssign old r1 r).symm⟩
    calc old.strength < r1.strength := hr1
    _ = (breakoutsV2.upgradeAssign old r1).strength := (upgradeAssign_strength _ _).symm
    _ < r.strength := hlt

theorem recordEvolution_refl (b : breakoutsV2.Breakout) : recordEvolution b b :=
  Or.inl rfl


theorem passInv_refl (s : List breakoutsV2.Breakout) : passInv s s :=
  ⟨le_refl _, fun _ old h => ⟨old, h, recordEvolution_refl old⟩⟩

/-- The upgrade entry point preserves the per-position invariant. -/
theorem upgradeBreakout_passInv {s st : List breakoutsV2.Breakout} {sw : Swing}
    {cs : List Candle} {m : Nat} (h : passInv s st) :
    passInv s (breakoutsV2.upgradeBreakout st sw cs m) := by
  unfold breakoutsV2.upgradeBreakout
  rcases hf : st.find? (breakoutsV2.matchesSwing sw) with _ | e
  · exact h
  · by_cases he : e.bosType == BosType.BOS_SUSTAINED
    · simpa [he] using h
    · simp only [he, if_false, Bool.false_eq_true]
      rcases hc : breakoutsV2.checkBreak sw cs m with _ | r
      · exact h
      · by_cases hle : r.strength ≤ e.strength
        · simpa [hle] using h
        · simp only [hle, if_false]
          refine ⟨by rw [length_modifyFirstP]; exact h.1, ?_⟩
          intro p old hp
          obtain ⟨mid, hmid, hev⟩ := h.2 p old hp
          rcases @getElem?_modifyFirstP_of_find? _ (breakoutsV2.matchesSwing sw)
              (fun b => breakoutsV2.upgradeAssign b r) st e hf p with hsame | ⟨hpe, hnew⟩
          · exact ⟨mid, hsame ▸ hmid, hev⟩
          · have hme : mid = e := by
              rw [hmid] at hpe
              exact Option.some.injEq _ _ ▸ hpe
            subst hme
            refine ⟨breakoutsV2.upgradeAssign mid r, hnew, ?_⟩
            exact recordEvolution_upgrade hev
              (by simpa using he) (not_le.mp hle)

/-- One incremental pass of the second-generation detectLatest keeps
every pre-existing position and only evolves it through
recordEvolution. -/
theorem detectLatestS_passInv (s : List breakoutsV2.Breakout) (swings : List Swing)
    (cs : List Candle) (m : Nat) :
    passInv s (breakoutsV2.detectLatestS s swings cs m) := by
  unfold breakoutsV2.detectLatestS
  by_cases hsw : swings.isEmpty
  · simpa [hsw] using passInv_refl s
  · simp only [hsw, if_false, Bool.false_eq_true]
    refine foldl_inv (passInv s) _ swings s (passInv_refl s) ?_
    intro st sw _ hst
    by_cases hskip : cs.length - 1 ≤ sw.index
    · simpa [hskip] using hst
    · simp only [hskip, if_false]
      by_cases hdup : st.any (breakoutsV2.matchesSwing sw)
      · simpa [hdup] using upgradeBreakout_passInv hst
      · simp only [hdup, if_false, Bool.false_eq_true]
        rcases hc : breakoutsV2.checkBreak sw cs m with _ | r
        · exact hst
        · refine ⟨by simpa using Nat.le_succ_of_le hst.1, ?_⟩
          intro p old hp
          obtain ⟨new, hnew, hev⟩ := hst.2 p old hp
          refine ⟨new, ?_, hev⟩
          rw [List.getElem?_append]
          have : p < st.length := (List.getElem?_eq_some.mp hnew).1
          simp [this, hnew]


/-- The observable monotonicity facts of an evolution. -/
theorem recordEvolution_facts {old new : breakoutsV2.Breakout}
    (h : recordEvolution old new) :
    old.strength ≤ new.strength ∧
    (old.bosType = BosType.BOS_SUSTAINED → new = old) ∧
    (new ≠ old → old.strength < new.strength ∧ old.bosType ≠ BosType.BOS_SUSTAINED) := by
  rcases h with rfl | ⟨hb, r, hr, rfl⟩
  · exact ⟨le_refl _, fun _ => rfl, fun hne => absurd rfl hne⟩
  · rw [upgradeAssign_strength]
    exact ⟨le_of_lt hr, fun hs => absurd hs hb, fun _ => ⟨hr, hb⟩⟩

/-- Evolution across one pass composes. -/
theorem recordEvolution_trans {old mid new : breakoutsV2.Breakout}
    (h1 : recordEvolution old mid) (h2 : recordEvolution mid new) :
    recordEvolution old new := by
  rcases h2 with rfl | ⟨hb, r, hr, rfl⟩
  · exact h1
  · exact recordEvolution_upgrade h1 hb hr

theorem passInv_trans {s st st' : List breakoutsV2.Breakout}
    (h1 : passInv s st) (h2 : passInv st st') : passInv s st' := by
  refine ⟨le_trans h1.1 h2.1, ?_⟩
  intro p old hp
  obtain ⟨mid, hmid, hev1⟩ := h1.2 p old hp
  obtain ⟨new, hnew, hev2⟩ := h2.2 p mid hmid
  exact ⟨new, hnew, recordEvolution_trans hev1 hev2⟩

theorem detectLatestFold_passInv (s : List breakoutsV2.Breakout)
    (args : List passArgs) : passInv s (detectLatestFold s args) := by
  unfold detectLatestFold
  refine foldl_inv (passInv s) _ args s (passInv_refl s) ?_
  intro st a _ hst
  exact passInv_trans hst (detectLatestS_passInv st a.1 a.2.1 a.2.2)

end C39Lemmas

section C5Lemmas


/-- Index-map lookup over an enumerated suffix when candle indices are
the array positions. -/
theorem foldl_indexMap_enumFrom (v : Nat) :
    ∀ (cs : List Candle) (off : Nat) (acc : Option Nat),
    (∀ (j : Nat) (c : Candle), cs[j]? = some c → c.index = off + j) →
    (List.enumFrom off cs).foldl
      (fun acc p => if p.2.index = v then some p.1 else acc) acc =
    if off ≤ v ∧ v < off + cs.length then some v else acc := by
  intro cs
  induction cs with
  | nil =>
    intro off acc _
    simp only [List.enumFrom, List.foldl_nil, List.length_nil, Nat.add_zero]
    rw [if_neg (by omega)]
  | cons c rest ih =>
    intro off acc hidx
    have hc : c.index = off := by simpa using hidx 0 c (by simp)
    have hrest : ∀ (j : Nat) (c' : Candle), rest[j]? = some c' → c'.index = (off + 1) + j := by
      intro j c' hj
      have := hidx (j + 1) c' (by simpa using hj)
      omega
    simp only [List.enumFrom, List.foldl_cons]
    rw [ih (off + 1) _ hrest]
    by_cases h1 : off + 1 ≤ v ∧ v < off + 1 + rest.length
    · rw [if_pos h1, if_pos (show off ≤ v ∧ v < off + (c :: rest).length by
        simp only [List.length_cons]; omega)]
    · rw [if_neg h1]
      by_cases h2 : off = v
      · have hcv : c.index = v := by rw [hc, h2]
        rw [if_pos hcv, if_pos (show off ≤ v ∧ v < off + (c :: rest).length by
          simp only [List.length_cons]; omega)]
        rw [h2]
      · rw [if_neg (show ¬ c.index = v by rw [hc]; exact h2),
          if_neg (show ¬ (off ≤ v ∧ v < off + (c :: rest).length) by
            simp only [List.length_cons]; omega)]

/-- With position-valued indices the candle index map is the identity
below the length. -/
theorem candleIndexMapGet_eq {cs : List Candle}
    (hidx : ∀ (j : Nat) (c : Candle), cs[j]? = some c → c.index = j) (v : Nat) :
    candleIndexMapGet cs v = if v < cs.length then some v else none := by
  unfold candleIndexMapGet
  have := foldl_indexMap_enumFrom v cs 0 none (by simpa using hidx)
  simp only [List.enum] at this ⊢
  rw [this]
  by_cases h : v < cs.length
  · rw [if_pos (by omega), if_pos h]
  · rw [if_neg (by omega), if_neg h]

/-- With position-valued indices nextArrayIdx is the successor below
the length. -/
theorem nextArrayIdx_eq {cs : List Candle}
    (hidx : ∀ (j : Nat) (c : Candle), cs[j]? = some c → c.index = j) (a : Nat) :
    nextArrayIdx cs a =
      if a < cs.length ∧ a + 1 < cs.length then some (a + 1) else none := by
  unfold nextArrayIdx
  rw [candleIndexMapGet_eq hidx]
  by_cases h : a < cs.length
  · rw [if_pos h]
    show (if a + 1 < cs.length then some (a + 1) else none) = _
    by_cases h2 : a + 1 < cs.length
    · rw [if_pos h2, if_pos ⟨h, h2⟩]
    · rw [if_neg h2, if_neg (by omega)]
  · rw [if_neg h]
    show none = _
    rw [if_neg (by omega)]


/-- Unrolling the second-generation scan across positions that do not
close beyond the level: the scan lands on the first close-beyond
position q and decides sustained confirmation from the bounded window
after it. -/
theorem scanV2_reaches (cs : List Candle) (sw : Swing) (maxScan : Nat)
    (hidx : ∀ (j : Nat) (c : Candle), cs[j]? = some c → c.index = j)
    (q : Nat) (hqn : q < cs.length) :
    ∀ (p : Nat) (fw : Option Candle), p ≤ q →
    (∀ (j : Nat) (hj : j < cs.length), p ≤ j → j < q →
      closeBeyondB sw (cs.get ⟨j, hj⟩) = false) →
    closeBeyondB sw (cs.get ⟨q, hqn⟩) = true →
    ∃ fw2 : Option Candle,
      breakoutsV2.scanV2 cs (sw.type == SwingType.high) sw.price maxScan p
        (cs.drop p) fw =
      some (fw2, some (cs.get ⟨q, hqn⟩,
        (susWindow cs q maxScan).find? (susBeyondB sw (cs.get ⟨q, hqn⟩)))) := by
  intro p
  have hterm : ∀ (d : Nat) (p : Nat) (fw : Option Candle), q - p ≤ d → p ≤ q →
      (∀ (j : Nat) (hj : j < cs.length), p ≤ j → j < q →
        closeBeyondB sw (cs.get ⟨j, hj⟩) = false) →
      closeBeyondB sw (cs.get ⟨q, hqn⟩) = true →
      ∃ fw2 : Option Candle,
        breakoutsV2.scanV2 cs (sw.type == SwingType.high) sw.price maxScan p
          (cs.drop p) fw =
        some (fw2, some (cs.get ⟨q, hqn⟩,
          (susWindow cs q maxScan).find? (susBeyondB sw (cs.get ⟨q, hqn⟩)))) := by
    intro d
    induction d with
    | zero =>
      intro p fw hd hpq hno hcb
      have hpqe : p = q := by omega
      subst hpqe
      rw [List.drop_eq_getElem_cons hqn]
      unfold breakoutsV2.scanV2
      have hcb' : (if sw.type == SwingType.high then decide (sw.price < cs[p].close)
          else decide (cs[p].close < sw.price)) = true := by
        simpa [closeBeyondB] using hcb
      rw [hcb']
      simp only [if_true]
      have hmap : candleIndexMapGet cs (cs[p].index) = some p := by
        have : cs[p].index = p := hidx p cs[p] (by simp [List.getElem?_eq_some, hqn])
        rw [this, candleIndexMapGet_eq hidx, if_pos hqn]
      rw [hmap]
      exact ⟨_, rfl⟩
    | succ d ih =>
      intro p fw hd hpq hno hcb
      by_cases hpqe : p = q
      · subst hpqe
        rw [List.drop_eq_getElem_cons hqn]
        unfold breakoutsV2.scanV2
        have hcb' : (if sw.type == SwingType.high then decide (sw.price < cs[p].close)
            else decide (cs[p].close < sw.price)) = true := by
          simpa [closeBeyondB] using hcb
        rw [hcb']
        simp only [if_true]
        have hmap : candleIndexMapGet cs (cs[p].index) = some p := by
          have : cs[p].index = p := hidx p cs[p] (by simp [List.getElem?_eq_some, hqn])
          rw [this, candleIndexMapGet_eq hidx, if_pos hqn]
        rw [hmap]
        exact ⟨_, rfl⟩
      · have hplt : p < q := by omega
        have hpn : p < cs.length := by omega
        rw [List.drop_eq_getElem_cons hpn]
        unfold breakoutsV2.scanV2
        have hncb : (if sw.type == SwingType.high then decide (sw.price < cs[p].close)
            else decide (cs[p].close < sw.price)) = false := by
          simpa [closeBeyondB] using hno p hpn (le_refl p) hplt
        rw [hncb]
        simp only [Bool.false_eq_true, if_false]
        exact ih (p + 1) _ (by omega) (by omega)
          (fun j hj h1 h2 => hno j hj (by omega) h2) hcb
  exact fun fw hpq => hterm (q - p) p fw (le_refl _) hpq

end C5Lemmas

/-- C5: given a candle sequence with position-valued indices and a
swing whose level is first closed beyond at position q, the
second-generation checkBreak returns a record whose breaking candle is
that confirming candle, classified BOS_SUSTAINED iff some candle within
the bounded window of maxScan candles after the confirming candle
closes further beyond the confirming candle's own close in the break
direction, and BOS_CLOSE otherwise. -/
theorem C5_bounded_sustained_confirmation (cs : List Candle) (sw : Swing)
    (maxScan q : Nat)
    (hidx : ∀ (j : Nat) (c : Candle), cs[j]? = some c → c.index = j)
    (hswlt : sw.index < cs.length)
    (hq : sw.index < q) (hqn : q < cs.length)
    (hclose : closeBeyondB sw (cs.get ⟨q, hqn⟩) = true)
    (hmin : ∀ (j : Nat) (hj : j < cs.length), sw.index < j → j < q →
      closeBeyondB sw (cs.get ⟨j, hj⟩) = false) :
    ∃ b, breakoutsV2.checkBreak sw cs maxScan = some b ∧
      b.breakingCandleIndex = q ∧
      b.breakingCandleClose = (cs.get ⟨q, hqn⟩).close ∧
      (b.bosType = BosType.BOS_SUSTAINED ↔
        ∃ (r : Nat) (hr : r < cs.length), q < r ∧ r ≤ q + maxScan ∧
          susBeyondB sw (cs.get ⟨q, hqn⟩) (cs.get ⟨r, hr⟩) = true) ∧
      (b.bosType = BosType.BOS_SUSTAINED ∨ b.bosType = BosType.BOS_CLOSE) := by
  have hnext : nextArrayIdx cs sw.index = some (sw.index + 1) := by
    rw [nextArrayIdx_eq hidx]
    exact if_pos ⟨hswlt, by omega⟩
  obtain ⟨fw2, hscan⟩ := scanV2_reaches cs sw maxScan hidx q hqn (sw.index + 1) none
    (by omega) (fun j hj h1 h2 => hmin j hj (by omega) h2) hclose
  have hwin : (∃ x ∈ susWindow cs q maxScan,
      susBeyondB sw (cs.get ⟨q, hqn⟩) x = true) ↔
      ∃ (r : Nat) (hr : r < cs.length), q < r ∧ r ≤ q + maxScan ∧
        susBeyondB sw (cs.get ⟨q, hqn⟩) (cs.get ⟨r, hr⟩) = true := by
    constructor
    · rintro ⟨x, hx, hxp⟩
      obtain ⟨j, hj⟩ := List.mem_iff_getElem?.mp hx
      unfold susWindow at hj
      rw [List.getElem?_take] at hj
      by_cases hjlt : j < min (cs.length - 1) (q + maxScan) + 1 - (q + 1)
      · rw [if_pos hjlt, List.getElem?_drop] at hj
        have hr : q + 1 + j < cs.length := (List.getElem?_eq_some.mp hj).1
        refine ⟨q + 1 + j, hr, by omega, by omega, ?_⟩
        have hx' : cs.get ⟨q + 1 + j, hr⟩ = x := by
          have := (List.getElem?_eq_some.mp hj).2
          simpa using this
        rw [hx']
        exact hxp
      · rw [if_neg hjlt] at hj
        exact absurd hj (by simp)
    · rintro ⟨r, hr, hqr, hrm, hrp⟩
      refine ⟨cs.get ⟨r, hr⟩, ?_, hrp⟩
      apply List.getElem?_mem
      show (susWindow cs q maxScan)[r - (q + 1)]? = _
      unfold susWindow
      rw [List.getElem?_take, if_pos (by omega), List.getElem?_drop]
      have : q + 1 + (r - (q + 1)) = r := by omega
      rw [this]
      simp [List.getElem?_eq_some, hr]
  unfold breakoutsV2.checkBreak
  rw [hnext]
  rcases hfind : (susWindow cs q maxScan).find?
      (susBeyondB sw (cs.get ⟨q, hqn⟩)) with _ | sus
  · rw [hfind] at hscan
    simp only [hscan]
    refine ⟨_, rfl, ?_, rfl, ?_, Or.inr rfl⟩
    · exact hidx q _ (by simp [List.getElem?_eq_some, hqn])
    · constructor
      · intro hcontr
        exact absurd hcontr (by simp [breakoutsV2.buildBreakout])
      · intro hex
        obtain ⟨x, hx1, hx2⟩ := hwin.mpr hex
        have : (susWindow cs q maxScan).find?
            (susBeyondB sw (cs.get ⟨q, hqn⟩)) ≠ none := by
          intro hn
          exact absurd hx2 (by simpa using List.find?_eq_none.mp hn x hx1)
        exact absurd hfind this
  · rw [hfind] at hscan
    simp only [hscan]
    refine ⟨_, rfl, ?_, rfl, ?_, Or.inl rfl⟩
    · exact hidx q _ (by simp [List.getElem?_eq_some, hqn])
    · constructor
      · intro _
        refine hwin.mp ⟨sus, List.mem_of_find?_eq_some hfind, List.find?_some hfind⟩
      · intro _
        rfl

section EqhLemmas

theorem insertAfterLe_perm {α : Type} (key : α → Int) (a : α) (l : List α) :
    (insertAfterLe key a l).Perm (a :: l) := by
  induction l with
  | nil => exact List.Perm.refl _
  | cons x xs ih =>
    by_cases h : key x ≤ key a
    · simp only [insertAfterLe, h, if_pos]
      exact (ih.cons x).trans (List.Perm.swap a x xs)
    · simp only [insertAfterLe, h, if_neg, not_false_iff]
      exact List.Perm.refl _

theorem stableSortBy_perm {α : Type} (key : α → Int) (l : List α) :
    (stableSortBy key l).Perm l := by
  have aux : ∀ (l acc : List α),
      (l.foldl (fun acc a => insertAfterLe key a acc) acc).Perm (l ++ acc) := by
    intro l
    induction l with
    | nil => intro acc; simp
    | cons a as ih =>
      intro acc
      simp only [List.foldl_cons, List.cons_append]
      refine (ih (insertAfterLe key a acc)).trans ?_
      refine (List.Perm.append_left as (insertAfterLe_perm key a acc)).trans ?_
      exact List.perm_middle
  simpa using aux l []

theorem mem_stableSortBy {α : Type} {key : α → Int} {l : List α} {x : α} :
    x ∈ stableSortBy key l ↔ x ∈ l :=
  (stableSortBy_perm key l).mem_iff

theorem mem_insertAfterLe {α : Type} (key : α → Int) (a : α) {l : List α} {x : α}
    (hx : x ∈ l) : x ∈ insertAfterLe key a l :=
  (insertAfterLe_perm key a l).mem_iff.mpr (List.mem_cons_of_mem a hx)

/-- The fields of a level never touched by status evaluation. -/
def levelFrame (old new : eqhEql.Level) : Prop :=
  new.type = old.type ∧ new.zoneTop = old.zoneTop ∧ new.zoneBottom = old.zoneBottom ∧
  new.firstSwingIndex = old.firstSwingIndex ∧
  new.secondSwingIndex = old.secondSwingIndex

theorem levelFrame_refl (l : eqhEql.Level) : levelFrame l l :=
  ⟨rfl, rfl, rfl, rfl, rfl⟩

theorem levelFrame_trans {a b c : eqhEql.Level} (h1 : levelFrame a b)
    (h2 : levelFrame b c) : levelFrame a c := by
  obtain ⟨t1, z1, w1, f1, s1⟩ := h1
  obtain ⟨t2, z2, w2, f2, s2⟩ := h2
  exact ⟨t2.trans t1, z2.trans z1, w2.trans w1, f2.trans f1, s2.trans s1⟩

theorem levelFrame_key {a b : eqhEql.Level} (h : levelFrame b a) : a.key = b.key := by
  obtain ⟨t, _, _, f, s⟩ := h
  simp [eqhEql.Level.key, t, f, s]

/-- One status-evaluation loop run preserves the frame fields and never
lowers the status rank. -/
theorem checkLevelStatusLoop_spec :
    ∀ (rest : List Candle) (lvl : eqhEql.Level),
    levelFrame lvl (eqhEql.checkLevelStatusLoop lvl rest) ∧
    statusRank lvl.status ≤ statusRank (eqhEql.checkLevelStatusLoop lvl rest).status := by
  intro rest
  induction rest with
  | nil =>
    intro lvl
    exact ⟨levelFrame_refl lvl, le_refl _⟩
  | cons c cr ih =>
    intro lvl
    rw [eqhEql.checkLevelStatusLoop]
    dsimp only
    split
    · by_cases hclose : lvl.zoneTop < c.close
      · rw [if_pos hclose]
        refine ⟨⟨rfl, rfl, rfl, rfl, rfl⟩, ?_⟩
        show statusRank lvl.status ≤ statusRank LevelStatus.broken
        cases lvl.status <;> simp [statusRank]
      · rw [if_neg hclose]
        by_cases hs : (lvl.status == LevelStatus.active &&
            decide (lvl.zoneTop < c.high)) = true
        · rw [if_pos hs]
          obtain ⟨hfr, hrk⟩ := ih { lvl with
            lastCheckedIndex := some c.index, status := LevelStatus.swept,
            sweptTime := some c.time, sweptIndex := some c.index,
            sweptBy := some c.high }
          refine ⟨levelFrame_trans ⟨rfl, rfl, rfl, rfl, rfl⟩ hfr, le_trans ?_ hrk⟩
          have ha : lvl.status = LevelStatus.active := by
            simp only [Bool.and_eq_true, beq_iff_eq] at hs
            exact hs.1
          show statusRank lvl.status ≤ statusRank LevelStatus.swept
          simp [ha, statusRank]
        · rw [if_neg hs]
          obtain ⟨hfr, hrk⟩ := ih { lvl with lastCheckedIndex := some c.index }
          exact ⟨levelFrame_trans ⟨rfl, rfl, rfl, rfl, rfl⟩ hfr, hrk⟩
    · by_cases hclose : c.close < lvl.zoneBottom
      · rw [if_pos hclose]
        refine ⟨⟨rfl, rfl, rfl, rfl, rfl⟩, ?_⟩
        show statusRank lvl.status ≤ statusRank LevelStatus.broken
        cases lvl.status <;> simp [statusRank]
      · rw [if_neg hclose]
        by_cases hs : (lvl.status == LevelStatus.active &&
            decide (c.low < lvl.zoneBottom)) = true
        · rw [if_pos hs]
          obtain ⟨hfr, hrk⟩ := ih { lvl with
            lastCheckedIndex := some c.index, status := LevelStatus.swept,
            sweptTime := some c.time, sweptIndex := some c.index,
            sweptBy := some c.low }
          refine ⟨levelFrame_trans ⟨rfl, rfl, rfl, rfl, rfl⟩ hfr, le_trans ?_ hrk⟩
          have ha : lvl.status = LevelStatus.active := by
            simp only [Bool.and_eq_true, beq_iff_eq] at hs
            exact hs.1
          show statusRank lvl.status ≤ statusRank LevelStatus.swept
          simp [ha, statusRank]
        · rw [if_neg hs]
          obtain ⟨hfr, hrk⟩ := ih { lvl with lastCheckedIndex := some c.index }
          exact ⟨levelFrame_trans ⟨rfl, rfl, rfl, rfl, rfl⟩ hfr, hrk⟩

theorem checkLevelStatus_spec (lvl : eqhEql.Level) (cs : List Candle) :
    levelFrame lvl (eqhEql.checkLevelStatus lvl cs) ∧
    statusRank lvl.status ≤ statusRank (eqhEql.checkLevelStatus lvl cs).status := by
  unfold eqhEql.checkLevelStatus
  dsimp only
  split
  · exact ⟨levelFrame_refl lvl, le_refl _⟩
  · rename_i s hs
    exact checkLevelStatusLoop_spec (cs.drop s) lvl

/-- The pending upgrade body preserves the frame, status and break
identity, changing at most BOS_CLOSE into BOS_SUSTAINED on a broken
level. -/
theorem upgradePendingOne_spec (cs : List Candle)
    (ks : List (Nat × Nat × LevelType)) (lvl : eqhEql.Level) :
    levelFrame lvl (eqhEql.upgradePendingOne cs ks lvl) ∧
    (eqhEql.upgradePendingOne cs ks lvl).status = lvl.status ∧
    ((eqhEql.upgradePendingOne cs ks lvl).brokenBosType = lvl.brokenBosType ∨
      (lvl.status = LevelStatus.broken ∧
       lvl.brokenBosType = some BosType.BOS_CLOSE ∧
       (eqhEql.upgradePendingOne cs ks lvl).brokenBosType =
         some BosType.BOS_SUSTAINED)) := by
  unfold eqhEql.upgradePendingOne
  by_cases hg : (lvl.status == LevelStatus.broken &&
      lvl.brokenBosType == some BosType.BOS_CLOSE && !ks.contains lvl.key) = true
  · rw [if_pos hg]
    have hb : lvl.status = LevelStatus.broken ∧
        lvl.brokenBosType = some BosType.BOS_CLOSE := by
      simp only [Bool.and_eq_true, beq_iff_eq] at hg
      exact ⟨hg.1.1, hg.1.2⟩
    split
    · exact ⟨levelFrame_refl lvl, rfl, Or.inl rfl⟩
    · split
      · exact ⟨levelFrame_refl lvl, rfl, Or.inl rfl⟩
      · rename_i bIdx hbIdx startK hstart
        by_cases hcl : (eqhEql.classifyBosType lvl.type lvl.zoneTop lvl.zoneBottom
            (lvl.brokenBy.getD 0) (cs.drop startK) == BosType.BOS_SUSTAINED) = true
        · rw [if_pos hcl]
          exact ⟨⟨rfl, rfl, rfl, rfl, rfl⟩, rfl, Or.inr ⟨hb.1, hb.2, rfl⟩⟩
        · rw [if_neg hcl]
          exact ⟨levelFrame_refl lvl, rfl, Or.inl rfl⟩
  · rw [if_neg hg]
    exact ⟨levelFrame_refl lvl, rfl, Or.inl rfl⟩

/-- The sweep body preserves the frame, never lowers the rank and
leaves broken levels untouched. -/
theorem statusSweepOne_spec (cs : List Candle)
    (ks : List (Nat × Nat × LevelType)) (lvl : eqhEql.Level) :
    levelFrame lvl (eqhEql.statusSweepOne cs ks lvl) ∧
    statusRank lvl.status ≤ statusRank (eqhEql.statusSweepOne cs ks lvl).status ∧
    (lvl.status = LevelStatus.broken → eqhEql.statusSweepOne cs ks lvl = lvl) := by
  unfold eqhEql.statusSweepOne
  by_cases hg : (lvl.status == LevelStatus.broken || ks.contains lvl.key) = true
  · rw [if_pos hg]
    exact ⟨levelFrame_refl lvl, le_refl _, fun _ => rfl⟩
  · rw [if_neg hg]
    obtain ⟨hfr, hrk⟩ := checkLevelStatus_spec lvl cs
    refine ⟨hfr, hrk, fun hb => ?_⟩
    exact absurd hg (by simp [hb])

/-- Combined evolution of one stored level through the status sweep
followed by the pending upgrade. -/
theorem sweepUpgrade_levelEvol (cs : List Candle)
    (ks : List (Nat × Nat × LevelType)) (lvl : eqhEql.Level) :
    levelEvol lvl (eqhEql.upgradePendingOne cs ks (eqhEql.statusSweepOne cs ks lvl)) ∧
    levelFrame lvl
      (eqhEql.upgradePendingOne cs ks (eqhEql.statusSweepOne cs ks lvl)) := by
  obtain ⟨hfr1, hrk1, hbr1⟩ := statusSweepOne_spec cs ks lvl
  obtain ⟨hfr2, hst2, hbos2⟩ := upgradePendingOne_spec cs ks (eqhEql.statusSweepOne cs ks lvl)
  have hframe := levelFrame_trans hfr1 hfr2
  refine ⟨⟨levelFrame_key hframe, ?_, ?_⟩, hframe⟩
  · rw [hst2]
    exact hrk1
  · intro hb
    rw [hbr1 hb] at hst2 hbos2 ⊢
    refine ⟨hst2.trans hb, ?_⟩
    rcases hbos2 with h | ⟨h1, h2, h3⟩
    · exact Or.inl h
    · exact Or.inr ⟨h2, h3⟩

/-- The evolution after only the pending upgrade (when the sweep gate
is off). -/
theorem upgradeOnly_levelEvol (cs : List Candle)
    (ks : List (Nat × Nat × LevelType)) (lvl : eqhEql.Level) :
    levelEvol lvl (eqhEql.upgradePendingOne cs ks lvl) ∧
    levelFrame lvl (eqhEql.upgradePendingOne cs ks lvl) := by
  obtain ⟨hfr, hst, hbos⟩ := upgradePendingOne_spec cs ks lvl
  refine ⟨⟨levelFrame_key hfr, by rw [hst], ?_⟩, hfr⟩
  · intro hb
    rw [hb] at hst
    refine ⟨hst, ?_⟩
    rcases hbos with h | ⟨h1, h2, h3⟩
    · exact Or.inl h
    · exact Or.inr ⟨h2, h3⟩

theorem levelEvol_refl (l : eqhEql.Level) : levelEvol l l :=
  ⟨rfl, le_refl _, fun hb => ⟨hb, Or.inl rfl⟩⟩

theorem levelEvol_trans {a b c : eqhEql.Level} (h1 : levelEvol a b)
    (h2 : levelEvol b c) : levelEvol a c := by
  obtain ⟨k1, r1, b1⟩ := h1
  obtain ⟨k2, r2, b2⟩ := h2
  refine ⟨k2.trans k1, le_trans r1 r2, ?_⟩
  intro ha
  obtain ⟨hb, hbos⟩ := b1 ha
  obtain ⟨hc, hbos2⟩ := b2 hb
  refine ⟨hc, ?_⟩
  rcases hbos with he | ⟨ha1, hb1⟩
  · rcases hbos2 with he2 | ⟨ha2, hb2⟩
    · exact Or.inl (he2.trans he)
    · exact Or.inr ⟨he ▸ ha2, hb2⟩
  · rcases hbos2 with he2 | ⟨ha2, hb2⟩
    · exact Or.inr ⟨ha1, he2 ▸ hb1⟩
    · rw [hb1] at ha2
      exact absurd ha2 (by simp)

/-- The list part of the status sweep fold is a plain map. -/
theorem statusSweep_foldl_eq_map (cs : List Candle)
    (ks : List (Nat × Nat × LevelType)) :
    ∀ (levels : List eqhEql.Level) (acc : List eqhEql.Level × eqhEql.Counts),
    (levels.foldl
      (fun (acc : List eqhEql.Level × eqhEql.Counts) lvl =>
        let lvl' := eqhEql.statusSweepOne cs ks lvl
        (acc.1 ++ [lvl'],
         if lvl.status == LevelStatus.broken || ks.contains lvl.key then acc.2
         else eqhEql.adjustCounts acc.2 lvl.status lvl'.status))
      acc).1 = acc.1 ++ levels.map (eqhEql.statusSweepOne cs ks) := by
  intro levels
  induction levels with
  | nil => intro acc; simp
  | cons lvl rest ih =>
    intro acc
    simp only [List.foldl_cons, List.map_cons]
    rw [ih]
    simp

/-- The level store after the status sweep entry point. -/
theorem updateActiveStatuses_levels (st : eqhEql.EqhState) (cs : List Candle)
    (ks : List (Nat × Nat × LevelType)) :
    (eqhEql.updateActiveStatuses st cs ks).levels =
      eqhEql.upgradePendingBosTypes
        (if 0 < st.counts.active || 0 < st.counts.swept
         then st.levels.map (eqhEql.statusSweepOne cs ks)
         else st.levels) cs ks := by
  unfold eqhEql.updateActiveStatuses
  by_cases hg : 0 < st.counts.active || 0 < st.counts.swept
  · simp only [hg, if_pos]
    rw [statusSweep_foldl_eq_map]
    simp
  · simp only [hg, Bool.false_eq_true, if_false]

end EqhLemmas

theorem posIndexedB_sound :
    ∀ (cs : List Candle) (j0 : Nat), posIndexedB j0 cs = true →
    ∀ (j : Nat) (c : Candle), cs[j]? = some c → c.index = j0 + j := by
  intro cs
  induction cs with
  | nil =>
    intro j0 _ j c h
    exact absurd h (by simp)
  | cons x rest ih =>
    intro j0 hB j c h
    simp only [posIndexedB, Bool.and_eq_true, beq_iff_eq] at hB
    cases j with
    | zero =>
      simp only [List.getElem?_cons_zero, Option.some.injEq] at h
      subst h
      simpa using hB.1
    | succ n =>
      have := ih (j0 + 1) hB.2 n c (by simpa using h)
      omega

/-- Witness for C5: the level of the witness swing (price 100 at
position 0) is first closed beyond at position 1 (close 110), and the
close 111 at position 2 falls inside the default 10-candle window, so
checkBreak reports BOS_SUSTAINED. -/
theorem C5_witness :
    ∃ b, breakoutsV2.checkBreak exSwW exCsW defaultConfig.MAX_BOS_SCAN_CANDLES =
        some b ∧
      b.breakingCandleIndex = 1 ∧
      b.breakingCandleClose = (exCsW.get ⟨1, by decide⟩).close ∧
      (b.bosType = BosType.BOS_SUSTAINED ↔
        ∃ (r : Nat) (hr : r < exCsW.length), 1 < r ∧
          r ≤ 1 + defaultConfig.MAX_BOS_SCAN_CANDLES ∧
          susBeyondB exSwW (exCsW.get ⟨1, by decide⟩) (exCsW.get ⟨r, hr⟩) = true) ∧
      (b.bosType = BosType.BOS_SUSTAINED ∨ b.bosType = BosType.BOS_CLOSE) :=
  C5_bounded_sustained_confirmation exCsW exSwW defaultConfig.MAX_BOS_SCAN_CANDLES 1
    (fun j c h => by simpa using posIndexedB_sound exCsW 0 (by decide) j c h)
    (by decide) (by decide) (by decide) (by decide)
    (by intro j hj h1 h2; omega)

/-- C8: every breakout record in any reachable second-generation store
carries confidence equal to min(strengthRank/3 + (0.2 if
isCharacterChange else 0), 1.0), where the strength rank is 1 for
WICK, 2 for CLOSE and 3 for SUSTAINED, and this value lies in the
interval [0, 1]. -/
theorem C8_breakout_confidence_formula (s : List breakoutsV2.Breakout)
    (hs : ReachableB s) (b : breakoutsV2.Breakout) (hb : b ∈ s) :
    b.strength = strengthOfBos b.bosType ∧
    b.confidence =
      min ((b.strength : ℚ) / 3 + (if b.isCHoCH then 1 / 5 else 0)) 1 ∧
    0 ≤ b.confidence ∧ b.confidence ≤ 1 := by
  obtain ⟨h1, h2⟩ := reachableB_contract hs b hb
  refine ⟨h1, h2, ?_, ?_⟩
  · rw [h2]
    refine le_min (by positivity) (by norm_num)
  · rw [h2]
    exact min_le_right _ _

/-- C3: across any sequence of incremental detectLatest passes, the
strength rank stored on a given breakout record is non-decreasing, a
record at BOS_SUSTAINED is never modified again, and whenever the
record does change, the stored strength strictly increased and the
record had not been sustained. -/
theorem C3_monotonic_breakout_strength (s : List breakoutsV2.Breakout)
    (args : List passArgs) (p : Nat) (old : breakoutsV2.Breakout)
    (h : s[p]? = some old) :
    ∃ new, (detectLatestFold s args)[p]? = some new ∧
      old.strength ≤ new.strength ∧
      (old.bosType = BosType.BOS_SUSTAINED → new = old) ∧
      (new ≠ old → old.strength < new.strength ∧
        old.bosType ≠ BosType.BOS_SUSTAINED) := by
  obtain ⟨new, hnew, hev⟩ := (detectLatestFold_passInv s args).2 p old h
  obtain ⟨h1, h2, h3⟩ := recordEvolution_facts hev
  exact ⟨new, hnew, h1, h2, h3⟩

/-- Witness for C3: one pass over a store holding a sustained record
leaves it untouched. -/
theorem C3_witness :
    ∃ new,
      (detectLatestFold (breakoutsV2.detectAllS [exSwW] exCsW 10)
          [([exSwW], exCsW, 10)])[0]? = some new ∧
      (breakoutsV2.buildBreakout .BOS_SUSTAINED exSwW
          (mkCandle 1 100 120 95 110)
          [mkCandle 1 100 120 95 110, mkCandle 2 100 112 98 111]).strength ≤
        new.strength ∧
      ((breakoutsV2.buildBreakout .BOS_SUSTAINED exSwW
          (mkCandle 1 100 120 95 110)
          [mkCandle 1 100 120 95 110, mkCandle 2 100 112 98 111]).bosType =
          BosType.BOS_SUSTAINED →
        new = breakoutsV2.buildBreakout .BOS_SUSTAINED exSwW
          (mkCandle 1 100 120 95 110)
          [mkCandle 1 100 120 95 110, mkCandle 2 100 112 98 111]) ∧
      (new ≠ breakoutsV2.buildBreakout .BOS_SUSTAINED exSwW
          (mkCandle 1 100 120 95 110)
          [mkCandle 1 100 120 95 110, mkCandle 2 100 112 98 111] →
        (breakoutsV2.buildBreakout .BOS_SUSTAINED exSwW
          (mkCandle 1 100 120 95 110)
          [mkCandle 1 100 120 95 110, mkCandle 2 100 112 98 111]).strength <
          new.strength ∧
        (breakoutsV2.buildBreakout .BOS_SUSTAINED exSwW
          (mkCandle 1 100 120 95 110)
          [mkCandle 1 100 120 95 110, mkCandle 2 100 112 98 111]).bosType ≠
          BosType.BOS_SUSTAINED) :=
  C3_monotonic_breakout_strength
    (breakoutsV2.detectAllS [exSwW] exCsW 10) [([exSwW], exCsW, 10)] 0 _
    (by
      have h : breakoutsV2.detectAllS [exSwW] exCsW 10 =
          [breakoutsV2.buildBreakout .BOS_SUSTAINED exSwW
            (mkCandle 1 100 120 95 110)
            [mkCandle 1 100 120 95 110, mkCandle 2 100 112 98 111]] := rfl
      rw [h]
      simp)

/-- C9: across one incremental pass, every pre-existing breakout record
keeps its swing identity fields (swingType, swingIndex, swingPrice,
swingKeyPrice, swingDirection, swingTime) and is either left untouched
or replaced in place by the upgrade assignment of a strictly stronger
recomputed result, which overwrites only the classification,
breaking-candle, confirming-candle, time metadata and confidence
fields; this in-place upgrade is the only way an existing record
changes. -/
theorem C9_upgrade_frame (s : List breakoutsV2.Breakout) (swings : List Swing)
    (cs : List Candle) (m : Nat) (p : Nat) (old : breakoutsV2.Breakout)
    (h : s[p]? = some old) :
    ∃ new, (breakoutsV2.detectLatestS s swings cs m)[p]? = some new ∧
      new.swingType = old.swingType ∧ new.swingIndex = old.swingIndex ∧
      new.swingPrice = old.swingPrice ∧ new.swingKeyPrice = old.swingKeyPrice ∧
      new.swingDirection = old.swingDirection ∧ new.swingTime = old.swingTime ∧
      (new = old ∨
        (old.strength < new.strength ∧
         ∃ result, new = breakoutsV2.upgradeAssign old result)) := by
  obtain ⟨new, hnew, hev⟩ :=
    (detectLatestS_passInv s swings cs m).2 p old h
  rcases hev with heq | ⟨hb, r, hr, heq⟩
  · subst heq
    exact ⟨new, hnew, rfl, rfl, rfl, rfl, rfl, rfl, Or.inl rfl⟩
  · subst heq
    refine ⟨_, hnew, rfl, rfl, rfl, rfl, rfl, rfl, Or.inr ⟨?_, r, rfl⟩⟩
    rw [upgradeAssign_strength]
    exact hr

/-- Witness for C9: one pass over a one-record store. -/
theorem C9_witness :
    ∃ new,
      (breakoutsV2.detectLatestS (breakoutsV2.detectAllS [exSwW] exCsW 10)
          [exSwW] exCsW 10)[0]? = some new ∧
      new.swingType = (breakoutsV2.buildBreakout .BOS_SUSTAINED exSwW
          (mkCandle 1 100 120 95 110)
          [mkCandle 1 100 120 95 110, mkCandle 2 100 112 98 111]).swingType ∧
      new.swingIndex = (breakoutsV2.buildBreakout .BOS_SUSTAINED exSwW
          (mkCandle 1 100 120 95 110)
          [mkCandle 1 100 120 95 110, mkCandle 2 100 112 98 111]).swingIndex ∧
      new.swingPrice = (breakoutsV2.buildBreakout .BOS_SUSTAINED exSwW
          (mkCandle 1 100 120 95 110)
          [mkCandle 1 100 120 95 110, mkCandle 2 100 112 98 111]).swingPrice ∧
      new.swingKeyPrice = (breakoutsV2.buildBreakout .BOS_SUSTAINED exSwW
          (mkCandle 1 100 120 95 110)
          [mkCandle 1 100 120 95 110, mkCandle 2 100 112 98 111]).swingKeyPrice ∧
      new.swingDirection = (breakoutsV2.buildBreakout .BOS_SUSTAINED exSwW
          (mkCandle 1 100 120 95 110)
          [mkCandle 1 100 120 95 110, mkCandle 2 100 112 98 111]).swingDirection ∧
      new.swingTime = (breakoutsV2.buildBreakout .BOS_SUSTAINED exSwW
          (mkCandle 1 100 120 95 110)
          [mkCandle 1 100 120 95 110, mkCandle 2 100 112 98 111]).swingTime ∧
      (new = breakoutsV2.buildBreakout .BOS_SUSTAINED exSwW
          (mkCandle 1 100 120 95 110)
          [mkCandle 1 100 120 95 110, mkCandle 2 100 112 98 111] ∨
        ((breakoutsV2.buildBreakout .BOS_SUSTAINED exSwW
          (mkCandle 1 100 120 95 110)
          [mkCandle 1 100 120 95 110, mkCandle 2 100 112 98 111]).strength <
            new.strength ∧
         ∃ result, new = breakoutsV2.upgradeAssign
          (breakoutsV2.buildBreakout .BOS_SUSTAINED exSwW
            (mkCandle 1 100 120 95 110)
            [mkCandle 1 100 120 95 110, mkCandle 2 100 112 98 111]) result)) :=
  C9_upgrade_frame (breakoutsV2.detectAllS [exSwW] exCsW 10) [exSwW] exCsW 10 0 _
    (by
      have h : breakoutsV2.detectAllS [exSwW] exCsW 10 =
          [breakoutsV2.buildBreakout .BOS_SUSTAINED exSwW
            (mkCandle 1 100 120 95 110)
            [mkCandle 1 100 120 95 110, mkCandle 2 100 112 98 111]] := rfl
      rw [h]
      simp)

/-- Witness for C8 at a concrete sustained breakout. -/
theorem C8_witness :
    (breakoutsV2.buildBreakout .BOS_SUSTAINED exSwW
        (mkCandle 1 100 120 95 110)
        [mkCandle 1 100 120 95 110, mkCandle 2 100 112 98 111]).strength =
      strengthOfBos (breakoutsV2.buildBreakout .BOS_SUSTAINED exSwW
        (mkCandle 1 100 120 95 110)
        [mkCandle 1 100 120 95 110, mkCandle 2 100 112 98 111]).bosType ∧
    (breakoutsV2.buildBreakout .BOS_SUSTAINED exSwW
        (mkCandle 1 100 120 95 110)
        [mkCandle 1 100 120 95 110, mkCandle 2 100 112 98 111]).confidence =
      min (((breakoutsV2.buildBreakout .BOS_SUSTAINED exSwW
        (mkCandle 1 100 120 95 110)
        [mkCandle 1 100 120 95 110, mkCandle 2 100 112 98 111]).strength : ℚ) / 3 +
        (if (breakoutsV2.buildBreakout .BOS_SUSTAINED exSwW
          (mkCandle 1 100 120 95 110)
          [mkCandle 1 100 120 95 110, mkCandle 2 100 112 98 111]).isCHoCH
         then 1 / 5 else 0)) 1 ∧
    0 ≤ (breakoutsV2.buildBreakout .BOS_SUSTAINED exSwW
        (mkCandle 1 100 120 95 110)
        [mkCandle 1 100 120 95 110, mkCandle 2 100 112 98 111]).confidence ∧
    (breakoutsV2.buildBreakout .BOS_SUSTAINED exSwW
        (mkCandle 1 100 120 95 110)
        [mkCandle 1 100 120 95 110, mkCandle 2 100 112 98 111]).confidence ≤ 1 :=
  C8_breakout_confidence_formula
    (breakoutsV2.detectAllS [exSwW] exCsW 10)
    (ReachableB.detectAll [exSwW] exCsW 10)
    _
    (by
      have h : breakoutsV2.detectAllS [exSwW] exCsW 10 =
          [breakoutsV2.buildBreakout .BOS_SUSTAINED exSwW
            (mkCandle 1 100 120 95 110)
            [mkCandle 1 100 120 95 110, mkCandle 2 100 112 98 111]] := rfl
      rw [h]
      exact List.mem_singleton.mpr rfl)

section LevelCreation

theorem validateAndBuild_fields {type : LevelType} {f s : Swing}
    {cs : List Candle} {all : List Swing} {lvl : eqhEql.Level}
    (h : eqhEql.validateAndBuild type f s cs all = some lvl) :
    lvl.type = type ∧ lvl.zoneTop = f.price ∧ lvl.zoneBottom = f.keyPrice := by
  unfold eqhEql.validateAndBuild at h
  dsimp only at h
  split at h
  · exact absurd h (by simp)
  · split at h
    · exact absurd h (by simp)
    · split at h
      · exact absurd h (by simp)
      · split at h
        · split at h
          · exact absurd h (by simp)
          · injection h with h2
            subst h2
            exact ⟨rfl, rfl, rfl⟩
        · split at h
          · exact absurd h (by simp)
          · injection h with h2
            subst h2
            exact ⟨rfl, rfl, rfl⟩

theorem tryCreateLevel_zoneOrder {type : LevelType} {f s : Swing}
    {cs : List Candle} {all : List Swing} {bias : Option BiasSnapshot}
    {store : List eqhEql.Level} {lvl : eqhEql.Level}
    (h : eqhEql.tryCreateLevel type f s cs all bias store = some lvl) :
    zoneOrder lvl := by
  unfold eqhEql.tryCreateLevel at h
  split at h
  · exact absurd h (by simp)
  · rename_i hpair
    split at h
    · exact absurd h (by simp)
    · split at h
      · exact absurd h (by simp)
      · rename_i lvl0 hvb
        injection h with h2
        subst h2
        obtain ⟨htf, hzt, hzb⟩ := validateAndBuild_fields hvb
        obtain ⟨⟨ht2, hz2, hw2, h42, h52⟩, hrk2⟩ :=
          checkLevelStatus_spec { lvl0 with bias := bias } cs
        have hp : eqhEql.pairOk type f s = true := by
          revert hpair
          cases eqhEql.pairOk type f s <;> simp
        constructor
        · intro hE
          have htype : type = LevelType.EQH := by
            rw [← htf]
            exact ht2.symm.trans hE
          subst htype
          simp only [eqhEql.pairOk, Bool.and_eq_true, Bool.not_eq_true',
            decide_eq_false_iff_not, not_lt] at hp
          rw [hw2, hz2]
          show lvl0.zoneBottom ≤ lvl0.zoneTop
          rw [hzb, hzt]
          exact le_trans hp.2 hp.1
        · intro hE
          have htype : type = LevelType.EQL := by
            rw [← htf]
            exact ht2.symm.trans hE
          subst htype
          simp only [eqhEql.pairOk, Bool.and_eq_true, Bool.not_eq_true',
            decide_eq_false_iff_not, not_lt] at hp
          rw [hz2, hw2]
          show lvl0.zoneTop ≤ lvl0.zoneBottom
          rw [hzb, hzt]
          exact le_trans hp.1 hp.2

theorem insertSorted_mem_inv (lvl : eqhEql.Level) (store : List eqhEql.Level)
    (x : eqhEql.Level) (hx : x ∈ eqhEql.insertSorted lvl store) :
    x = lvl ∨ x ∈ store := by
  have h := (insertAfterLe_perm (fun l => l.time) lvl store).mem_iff.mp hx
  simpa using h

theorem pairStep_mem {type : LevelType} {sws : List Swing} {cs : List Candle}
    {all : List Swing} {bias : Option BiasSnapshot}
    {ins : eqhEql.Level → List eqhEql.Level → List eqhEql.Level}
    (hins : ∀ (lvl : eqhEql.Level) (store : List eqhEql.Level) (x : eqhEql.Level),
      x ∈ store → x ∈ ins lvl store)
    (acc : List eqhEql.Level × eqhEql.Counts × List eqhEql.Level) (p : Nat × Nat)
    {x : eqhEql.Level} (hx : x ∈ acc.1) :
    x ∈ (eqhEql.pairStep type sws cs all bias ins acc p).1 := by
  unfold eqhEql.pairStep
  split
  · split
    · exact hx
    · exact hins _ _ _ hx
  all_goals exact hx

theorem pairStep_foldl_mem {type : LevelType} {sws : List Swing} {cs : List Candle}
    {all : List Swing} {bias : Option BiasSnapshot}
    {ins : eqhEql.Level → List eqhEql.Level → List eqhEql.Level}
    (hins : ∀ (lvl : eqhEql.Level) (store : List eqhEql.Level) (x : eqhEql.Level),
      x ∈ store → x ∈ ins lvl store)
    (ps : List (Nat × Nat)) {l : eqhEql.Level} :
    ∀ (acc : List eqhEql.Level × eqhEql.Counts × List eqhEql.Level),
      l ∈ acc.1 → l ∈ (ps.foldl (eqhEql.pairStep type sws cs all bias ins) acc).1 := by
  induction ps with
  | nil => intro acc h; simpa using h
  | cons p ps ih =>
    intro acc h
    simp only [List.foldl_cons]
    exact ih _ (pairStep_mem hins acc p h)

theorem pairStep_zoneOrder_inv {type : LevelType} {sws : List Swing}
    {cs : List Candle} {all : List Swing} {bias : Option BiasSnapshot}
    {ins : eqhEql.Level → List eqhEql.Level → List eqhEql.Level}
    (hins : ∀ (lvl : eqhEql.Level) (store : List eqhEql.Level) (x : eqhEql.Level),
      x ∈ ins lvl store → x = lvl ∨ x ∈ store)
    (acc : List eqhEql.Level × eqhEql.Counts × List eqhEql.Level) (p : Nat × Nat)
    (hacc : ∀ l ∈ acc.1, zoneOrder l) :
    ∀ l ∈ (eqhEql.pairStep type sws cs all bias ins acc p).1, zoneOrder l := by
  intro l hl
  unfold eqhEql.pairStep at hl
  split at hl
  · split at hl
    · exact hacc l hl
    · rename_i lvl hlvl
      rcases hins _ _ _ hl with rfl | hmem
      · exact tryCreateLevel_zoneOrder hlvl
      · exact hacc l hmem
  all_goals exact hacc l hl

theorem pairStep_fold_zoneOrder {type : LevelType} {sws : List Swing}
    {cs : List Candle} {all : List Swing} {bias : Option BiasSnapshot}
    {ins : eqhEql.Level → List eqhEql.Level → List eqhEql.Level}
    (hins : ∀ (lvl : eqhEql.Level) (store : List eqhEql.Level) (x : eqhEql.Level),
      x ∈ ins lvl store → x = lvl ∨ x ∈ store)
    (ps : List (Nat × Nat)) :
    ∀ (acc : List eqhEql.Level × eqhEql.Counts × List eqhEql.Level),
      (∀ l ∈ acc.1, zoneOrder l) →
      ∀ l ∈ (ps.foldl (eqhEql.pairStep type sws cs all bias ins) acc).1,
        zoneOrder l := by
  induction ps with
  | nil => intro acc hacc; simpa using hacc
  | cons p ps ih =>
    intro acc hacc
    simp only [List.foldl_cons]
    exact ih _ (pairStep_zoneOrder_inv hins acc p hacc)

theorem zoneOrder_of_frame {a b : eqhEql.Level} (hfr : levelFrame a b)
    (h : zoneOrder a) : zoneOrder b := by
  obtain ⟨ht, hzt, hzb, _, _⟩ := hfr
  constructor
  · intro hE
    rw [hzt, hzb]
    refine h.1 ?_
    rw [← ht]
    exact hE
  · intro hE
    rw [hzt, hzb]
    refine h.2 ?_
    rw [← ht]
    exact hE

theorem detectLatestE_eq (st : eqhEql.EqhState) (sw : List Swing)
    (bias : Option BiasSnapshot) (cs : List Candle) :
    eqhEql.detectLatestE st sw bias cs =
      if cs.isEmpty then st
      else if sw.isEmpty then st
      else
        eqhEql.updateActiveStatuses
          { levels := (eqhLatestAcc2 st sw bias cs).1
            counts := (eqhLatestAcc2 st sw bias cs).2.1
            lastHighs := (sw.filter isHighSwing).length
            lastLows := (sw.filter isLowSwing).length }
          cs ((eqhLatestAcc2 st sw bias cs).2.2.map eqhEql.Level.key) := rfl

theorem detectLatestE_zoneOrder {st : eqhEql.EqhState}
    (hst : ∀ l ∈ st.levels, zoneOrder l) (sw : List Swing)
    (bias : Option BiasSnapshot) (cs : List Candle) :
    ∀ l ∈ (eqhEql.detectLatestE st sw bias cs).levels, zoneOrder l := by
  rw [detectLatestE_eq]
  split
  · exact hst
  · split
    · exact hst
    · intro l hl
      rw [updateActiveStatuses_levels] at hl
      dsimp only at hl
      have hacc : ∀ x ∈ (eqhLatestAcc2 st sw bias cs).1, zoneOrder x := by
        unfold eqhLatestAcc2
        refine pairStep_fold_zoneOrder ?_ _ _ (pairStep_fold_zoneOrder ?_ _ _ hst)
        · exact insertSorted_mem_inv
        · exact insertSorted_mem_inv
      unfold eqhEql.upgradePendingBosTypes at hl
      split at hl
      · rcases List.mem_map.mp hl with ⟨y, hy, rfl⟩
        rcases List.mem_map.mp hy with ⟨x, hx, rfl⟩
        exact zoneOrder_of_frame (sweepUpgrade_levelEvol _ _ x).2 (hacc x hx)
      · rcases List.mem_map.mp hl with ⟨x, hx, rfl⟩
        exact zoneOrder_of_frame (upgradeOnly_levelEvol _ _ x).2 (hacc x hx)

theorem detectAllE_zoneOrder {st : eqhEql.EqhState}
    (hst : ∀ l ∈ st.levels, zoneOrder l) (sw : List Swing)
    (bias : Option BiasSnapshot) (cs : List Candle) :
    ∀ l ∈ (eqhEql.detectAllE st sw bias cs).levels, zoneOrder l := by
  unfold eqhEql.detectAllE
  split
  · exact hst
  · split
    · intro l hl
      simp at hl
    · intro l hl
      dsimp only at hl
      rw [mem_stableSortBy] at hl
      refine pairStep_fold_zoneOrder ?_ _ _
        (pairStep_fold_zoneOrder ?_ _ _ ?_) l hl
      · intro lvl store x hx
        exact Or.symm (by simpa using hx)
      · intro lvl store x hx
        exact Or.symm (by simpa using hx)
      · intro x hx
        simp at hx

theorem detectLatestE_levelEvol (st : eqhEql.EqhState) (sw : List Swing)
    (bias : Option BiasSnapshot) (cs : List Candle) {l : eqhEql.Level}
    (hl : l ∈ st.levels) :
    ∃ lnew ∈ (eqhEql.detectLatestE st sw bias cs).levels, levelEvol l lnew := by
  rw [detectLatestE_eq]
  split
  · exact ⟨l, hl, levelEvol_refl l⟩
  · split
    · exact ⟨l, hl, levelEvol_refl l⟩
    · rw [updateActiveStatuses_levels]
      dsimp only
      have hmem : l ∈ (eqhLatestAcc2 st sw bias cs).1 := by
        unfold eqhLatestAcc2
        refine pairStep_foldl_mem ?_ _ _ (pairStep_foldl_mem ?_ _ _ hl)
        · exact fun lvl store x hx => mem_insertAfterLe _ lvl hx
        · exact fun lvl store x hx => mem_insertAfterLe _ lvl hx
      unfold eqhEql.upgradePendingBosTypes
      split
      · exact ⟨_, List.mem_map_of_mem _ (List.mem_map_of_mem _ hmem),
          (sweepUpgrade_levelEvol _ _ l).1⟩
      · exact ⟨_, List.mem_map_of_mem _ hmem, (upgradeOnly_levelEvol _ _ l).1⟩

theorem headI_mem_of_ne {α : Type} [Inhabited α] {l : List α} (h : l ≠ []) :
    l.headI ∈ l := by
  cases l with
  | nil => exact absurd rfl h
  | cons a as => exact List.mem_cons_self a as

end LevelCreation

/-- C2 (counterexample to the claim as stated): a full-batch pipeline
run over exC2 creates a level whose zoneTop is strictly below its
zoneBottom, so zoneTop ≥ zoneBottom fails already at creation: for an
EQL level zoneTop carries the first swing's wick low and zoneBottom the
higher body price. -/
theorem C2_counterexample :
    ((pipelineFull exC2 1).eqh.levels.any fun l =>
      decide (l.zoneTop < l.zoneBottom)) = true := by decide

/-- C2 (amended): the zone ordering the engine actually maintains, at
creation and across every status sweep and BOS upgrade of the level's
lifetime on every reachable store: an EQH level has zoneBottom ≤
zoneTop, an EQL level has zoneTop ≤ zoneBottom. -/
theorem C2_zone_order_invariant (st : eqhEql.EqhState) (h : ReachableE st) :
    ∀ l ∈ st.levels, zoneOrder l := by
  induction h with
  | init =>
    intro l hl
    simp [eqhEql.EqhState.init] at hl
  | detectAll st sw bias cs hr ih => exact detectAllE_zoneOrder ih sw bias cs
  | detectLatest st sw bias cs hr ih => exact detectLatestE_zoneOrder ih sw bias cs

theorem C2_witness :
    zoneOrder ((pipelineFull exC2 1).eqh.levels.headI) :=
  C2_zone_order_invariant ((pipelineFull exC2 1).eqh)
    (ReachableE.detectAll eqhEql.EqhState.init
      (SwingEngine.detectAllS [] exC2 1)
      (breakouts.getCurrentBias
        (breakouts.detectAllS (SwingEngine.detectAllS [] exC2 1) exC2))
      exC2 ReachableE.init)
    ((pipelineFull exC2 1).eqh.levels.headI)
    (headI_mem_of_ne (by decide))

/-- C4: the level status state machine: across any sequence of
incremental detectLatest passes, every stored level evolves into a
stored level with the same pair key whose status rank never decreases
(so the visited statuses follow active → swept → broken or
active → broken and never reverse), broken is terminal for status, and
after broken the BOS type either stays or upgrades BOS_CLOSE →
BOS_SUSTAINED, never the reverse. -/
theorem C4_level_status_machine (st : eqhEql.EqhState) (args : List eqhArgs)
    {l : eqhEql.Level} (hl : l ∈ st.levels) :
    ∃ lnew ∈ (detectLatestEFold st args).levels, levelEvol l lnew := by
  induction args generalizing st l with
  | nil => exact ⟨l, hl, levelEvol_refl l⟩
  | cons a as ih =>
    obtain ⟨l1, hl1, he1⟩ := detectLatestE_levelEvol st a.1 a.2.1 a.2.2 hl
    obtain ⟨l2, hl2, he2⟩ := ih _ hl1
    exact ⟨l2, hl2, levelEvol_trans he1 he2⟩

theorem C4_witness :
    ∃ lnew ∈ (detectLatestEFold (pipelineFull exC2 1).eqh
        [([], none, exC2)]).levels,
      levelEvol ((pipelineFull exC2 1).eqh.levels.headI) lnew :=
  C4_level_status_machine ((pipelineFull exC2 1).eqh) [([], none, exC2)]
    (headI_mem_of_ne (by decide))

/-- C6 (code bug): with age eviction enabled (maxAgeMs = 50 > 0), an
insert into a store whose entries are all older than the bound evicts
nothing: findIndex finds no fresh level (the source gets -1), the age
branch is skipped, and every retained level's age exceeds the
configured maximum while all keys stay in the duplicate set; the count
bound (maxLevels = 1000) is not exceeded so no count pruning masks
it. -/
theorem C6_age_eviction_noop :
    ((eqhEqlV2.insertSorted [exLevelC6 0 0, exLevelC6 1 10]
        {(0, 1, LevelType.EQH), (1, 2, LevelType.EQH), (2, 3, LevelType.EQH)}
        (exLevelC6 2 20) 100 1000 50).1.all fun l =>
      decide (50 < 100 - l.time)) = true ∧
    (eqhEqlV2.insertSorted [exLevelC6 0 0, exLevelC6 1 10]
        {(0, 1, LevelType.EQH), (1, 2, LevelType.EQH), (2, 3, LevelType.EQH)}
        (exLevelC6 2 20) 100 1000 50).1.length = 3 ∧
    (eqhEqlV2.insertSorted [exLevelC6 0 0, exLevelC6 1 10]
        {(0, 1, LevelType.EQH), (1, 2, LevelType.EQH), (2, 3, LevelType.EQH)}
        (exLevelC6 2 20) 100 1000 50).2 =
      {(0, 1, LevelType.EQH), (1, 2, LevelType.EQH), (2, 3, LevelType.EQH)} := by
  decide

section SwingScan

theorem swingFlagStep_spec (cs : List Candle) (c : Candle) (i : Nat)
    (b : Bool × Bool) (j : Nat) :
    ((swingFlagStep cs c i b j).1 = true ↔ (b.1 = true ∧ nbrHigh cs c i j)) ∧
    ((swingFlagStep cs c i b j).2 = true ↔ (b.2 = true ∧ nbrLow cs c i j)) := by
  unfold swingFlagStep
  split
  · rename_i p q hp hq
    by_cases hs : (isSaneCandle p && isSaneCandle q) = true
    · rw [if_pos hs]
      simp only [Bool.and_eq_true] at hs
      constructor
      · constructor
        · intro h
          simp only [Bool.and_eq_true, decide_eq_true_eq] at h
          exact ⟨h.1.1, p, q, hp, hq, hs.1, hs.2, h.1.2, h.2⟩
        · rintro ⟨hb, p2, q2, hp2, hq2, _, _, h1, h2⟩
          rw [hp] at hp2
          rw [hq] at hq2
          injection hp2 with e1
          injection hq2 with e2
          subst e1
          subst e2
          simp [hb, h1, h2]
      · constructor
        · intro h
          simp only [Bool.and_eq_true, decide_eq_true_eq] at h
          exact ⟨h.1.1, p, q, hp, hq, hs.1, hs.2, h.1.2, h.2⟩
        · rintro ⟨hb, p2, q2, hp2, hq2, _, _, h1, h2⟩
          rw [hp] at hp2
          rw [hq] at hq2
          injection hp2 with e1
          injection hq2 with e2
          subst e1
          subst e2
          simp [hb, h1, h2]
    · rw [if_neg hs]
      constructor
      · constructor
        · intro h
          exact absurd h (by simp)
        · rintro ⟨hb, p2, q2, hp2, hq2, hs1, hs2, h1, h2⟩
          rw [hp] at hp2
          rw [hq] at hq2
          injection hp2 with e1
          injection hq2 with e2
          subst e1
          subst e2
          exact absurd hs (by simp [hs1, hs2])
      · constructor
        · intro h
          exact absurd h (by simp)
        · rintro ⟨hb, p2, q2, hp2, hq2, hs1, hs2, h1, h2⟩
          rw [hp] at hp2
          rw [hq] at hq2
          injection hp2 with e1
          injection hq2 with e2
          subst e1
          subst e2
          exact absurd hs (by simp [hs1, hs2])
  · rename_i hno
    constructor
    · constructor
      · intro h
        exact absurd h (by simp)
      · rintro ⟨hb, p2, q2, hp2, hq2, _⟩
        exact (hno p2 q2 hp2 hq2).elim
    · constructor
      · intro h
        exact absurd h (by simp)
      · rintro ⟨hb, p2, q2, hp2, hq2, _⟩
        exact (hno p2 q2 hp2 hq2).elim

theorem swingFlags_fold_spec (cs : List Candle) (c : Candle) (i : Nat) :
    ∀ (js : List Nat) (b : Bool × Bool),
    ((js.foldl (swingFlagStep cs c i) b).1 = true ↔
      (b.1 = true ∧ ∀ j ∈ js, nbrHigh cs c i j)) ∧
    ((js.foldl (swingFlagStep cs c i) b).2 = true ↔
      (b.2 = true ∧ ∀ j ∈ js, nbrLow cs c i j)) := by
  intro js
  induction js with
  | nil => intro b; simp
  | cons j js ih =>
    intro b
    simp only [List.foldl_cons, List.forall_mem_cons]
    constructor
    · rw [(ih (swingFlagStep cs c i b j)).1, (swingFlagStep_spec cs c i b j).1]
      exact and_assoc
    · rw [(ih (swingFlagStep cs c i b j)).2, (swingFlagStep_spec cs c i b j).2]
      exact and_assoc

theorem swingFlagsAt_spec (cs : List Candle) (c : Candle) (i k : Nat) :
    ((swingFlagsAt cs c i k).1 = true ↔ ∀ j ∈ List.range' 1 k, nbrHigh cs c i j) ∧
    ((swingFlagsAt cs c i k).2 = true ↔ ∀ j ∈ List.range' 1 k, nbrLow cs c i j) := by
  unfold swingFlagsAt
  constructor
  · rw [(swingFlags_fold_spec cs c i (List.range' 1 k) (true, true)).1]
    simp
  · rw [(swingFlags_fold_spec cs c i (List.range' 1 k) (true, true)).2]
    simp

theorem mem_scanStep_iff (cs : List Candle) (k : Nat)
    (acc : List Swing) (a : Nat) (t : SwingType) (i : Nat) :
    (∃ s ∈ scanStep cs k acc a, s.type = t ∧ s.index = i) ↔
      ((∃ s ∈ acc, s.type = t ∧ s.index = i) ∨ (i = a ∧ scanHit cs k t a)) := by
  unfold scanStep
  split
  · rename_i hnone
    simp [scanHit, hnone]
  · rename_i current hc
    by_cases hsane : isSaneCandle current = true
    · rw [if_pos hsane]
      dsimp only
      cases t with
      | high =>
        by_cases h1 : (swingFlagsAt cs current a k).1 = true <;>
          by_cases h2 : (swingFlagsAt cs current a k).2 = true <;>
            simp [h1, h2, scanHit, hc, hsane, buildSwing, and_comm] <;>
              aesop
      | low =>
        by_cases h1 : (swingFlagsAt cs current a k).1 = true <;>
          by_cases h2 : (swingFlagsAt cs current a k).2 = true <;>
            simp [h1, h2, scanHit, hc, hsane, buildSwing, and_comm] <;>
              aesop
    · rw [if_neg hsane]
      simp [scanHit, hc, hsane]

theorem mem_scanFold_iff (cs : List Candle) (k : Nat) (t : SwingType) (i : Nat)
    (is : List Nat) :
    ∀ (acc : List Swing),
    (∃ s ∈ is.foldl (scanStep cs k) acc, s.type = t ∧ s.index = i) ↔
      ((∃ s ∈ acc, s.type = t ∧ s.index = i) ∨ (i ∈ is ∧ scanHit cs k t i)) := by
  induction is with
  | nil => intro acc; simp
  | cons a is ih =>
    intro acc
    simp only [List.foldl_cons]
    rw [ih, mem_scanStep_iff]
    constructor
    · rintro ((h | ⟨rfl, hh⟩) | ⟨hm, hh⟩)
      · exact Or.inl h
      · exact Or.inr ⟨List.mem_cons_self _ _, hh⟩
      · exact Or.inr ⟨List.mem_cons_of_mem _ hm, hh⟩
    · rintro (h | ⟨hm, hh⟩)
      · exact Or.inl (Or.inl h)
      · rcases List.mem_cons.mp hm with rfl | hm2
        · exact Or.inl (Or.inr ⟨rfl, hh⟩)
        · exact Or.inr ⟨hm2, hh⟩

theorem mem_scanSwings_iff (cs : List Candle) (k : Nat) (t : SwingType) (i : Nat) :
    (∃ s ∈ scanSwings cs k, s.type = t ∧ s.index = i) ↔
      (i ∈ List.range' k (cs.length - 2 * k) ∧ scanHit cs k t i) := by
  unfold scanSwings
  rw [mem_scanFold_iff]
  simp

theorem assignDirFull_typeIndex (lH lL : Option ℚ) (l : List Swing) :
    (assignDirFull lH lL l).map (fun s => (s.type, s.index)) =
      l.map (fun s => (s.type, s.index)) := by
  induction l generalizing lH lL with
  | nil => rfl
  | cons s rest ih =>
    simp only [assignDirFull]
    split <;> simp [ih]

theorem typeIndex_mem_map (l : List Swing) (t : SwingType) (i : Nat) :
    ((t, i) ∈ l.map fun s => (s.type, s.index)) ↔
      ∃ s ∈ l, s.type = t ∧ s.index = i := by
  rw [List.mem_map]
  constructor
  · rintro ⟨s, hs, he⟩
    exact ⟨s, hs, congrArg Prod.fst he, congrArg Prod.snd he⟩
  · rintro ⟨s, hs, h1, h2⟩
    exact ⟨s, hs, by rw [h1, h2]⟩

theorem mem_detectAllS_iff (cs : List Candle) (k : Nat) (t : SwingType) (i : Nat)
    (hk : 1 ≤ k) :
    (∃ s ∈ SwingEngine.detectAllS [] cs k, s.type = t ∧ s.index = i) ↔
      (i ∈ List.range' k (cs.length - 2 * k) ∧ scanHit cs k t i) := by
  unfold SwingEngine.detectAllS
  split
  · rename_i hlen
    constructor
    · rintro ⟨s, hs, _⟩
      simp at hs
    · rintro ⟨hmem, _⟩
      rw [List.mem_range'_1] at hmem
      omega
  · rename_i hlen
    have hmax : max k 1 = k := by omega
    dsimp only
    rw [hmax, ← typeIndex_mem_map, assignDirFull_typeIndex, typeIndex_mem_map]
    simp only [mem_stableSortBy]
    exact mem_scanSwings_iff cs k t i

end SwingScan

/-- C7: the swing detection rule: on an all-sane candle sequence with
strength k ≥ 1, position i is reported as a swing HIGH by a full
detection run iff k ≤ i < n - k and its high strictly exceeds the high
of every other candle in the window [i-k, i+k] (so ties are never
swings); symmetrically for LOW with lows; and on the five-candle
scenario of the specification with strength 1 the output is exactly
HIGH at 1 (FIRST), LOW at 2 (FIRST), HIGH at 3 (HH), in this order. -/
theorem C7_swing_detection_rule :
    (∀ (cs : List Candle) (k i : Nat) (c : Candle),
      (∀ x ∈ cs, isSaneCandle x = true) → 1 ≤ k → cs[i]? = some c →
      ((∃ s ∈ SwingEngine.detectAllS [] cs k,
          s.type = SwingType.high ∧ s.index = i) ↔
        (k ≤ i ∧ i + k < cs.length ∧ ∀ j, 1 ≤ j → j ≤ k →
          (∀ p, cs[i - j]? = some p → p.high < c.high) ∧
          (∀ q, cs[i + j]? = some q → q.high < c.high)))) ∧
    (∀ (cs : List Candle) (k i : Nat) (c : Candle),
      (∀ x ∈ cs, isSaneCandle x = true) → 1 ≤ k → cs[i]? = some c →
      ((∃ s ∈ SwingEngine.detectAllS [] cs k,
          s.type = SwingType.low ∧ s.index = i) ↔
        (k ≤ i ∧ i + k < cs.length ∧ ∀ j, 1 ≤ j → j ≤ k →
          (∀ p, cs[i - j]? = some p → c.low < p.low) ∧
          (∀ q, cs[i + j]? = some q → c.low < q.low)))) ∧
    ((SwingEngine.detectAllS [] exC7 1).map
        (fun s => (s.type, s.index, s.direction)) =
      [(SwingType.high, 1, some SwingDir.FIRST),
       (SwingType.low, 2, some SwingDir.FIRST),
       (SwingType.high, 3, some SwingDir.HH)]) := by
  refine ⟨?_, ?_, by decide⟩
  · intro cs k i c hsane hk hc
    rw [mem_detectAllS_iff cs k SwingType.high i hk]
    have hi : i < cs.length := by
      by_contra hno
      rw [List.getElem?_eq_none (by omega)] at hc
      exact absurd hc (by simp)
    constructor
    · rintro ⟨hmem, hhit⟩
      rw [List.mem_range'_1] at hmem
      obtain ⟨c2, hc2, hcs2, hflag⟩ := hhit
      rw [hc] at hc2
      injection hc2 with e
      subst e
      refine ⟨hmem.1, by omega, ?_⟩
      intro j h1 h2
      have hj : j ∈ List.range' 1 k := by
        rw [List.mem_range'_1]
        omega
      obtain ⟨p, q, hp, hq, _, _, hph, hqh⟩ :=
        (swingFlagsAt_spec cs c i k).1.mp hflag j hj
      constructor
      · intro p2 hp2
        rw [hp] at hp2
        injection hp2 with e2
        subst e2
        exact hph
      · intro q2 hq2
        rw [hq] at hq2
        injection hq2 with e2
        subst e2
        exact hqh
    · rintro ⟨hki, hikn, hcond⟩
      constructor
      · rw [List.mem_range'_1]
        omega
      · refine ⟨c, hc, hsane c (List.getElem?_mem hc), ?_⟩
        show (swingFlagsAt cs c i k).1 = true
        rw [(swingFlagsAt_spec cs c i k).1]
        intro j hj
        rw [List.mem_range'_1] at hj
        have hlt1 : i - j < cs.length := by omega
        have hlt2 : i + j < cs.length := by omega
        obtain ⟨p, hp⟩ : ∃ p, cs[i - j]? = some p :=
          ⟨cs[i - j], List.getElem?_eq_getElem hlt1⟩
        obtain ⟨q, hq⟩ : ∃ q, cs[i + j]? = some q :=
          ⟨cs[i + j], List.getElem?_eq_getElem hlt2⟩
        exact ⟨p, q, hp, hq, hsane p (List.getElem?_mem hp),
          hsane q (List.getElem?_mem hq),
          (hcond j hj.1 (by omega)).1 p hp, (hcond j hj.1 (by omega)).2 q hq⟩
  · intro cs k i c hsane hk hc
    rw [mem_detectAllS_iff cs k SwingType.low i hk]
    have hi : i < cs.length := by
      by_contra hno
      rw [List.getElem?_eq_none (by omega)] at hc
      exact absurd hc (by simp)
    constructor
    · rintro ⟨hmem, hhit⟩
      rw [List.mem_range'_1] at hmem
      obtain ⟨c2, hc2, hcs2, hflag⟩ := hhit
      rw [hc] at hc2
      injection hc2 with e
      subst e
      refine ⟨hmem.1, by omega, ?_⟩
      intro j h1 h2
      have hj : j ∈ List.range' 1 k := by
        rw [List.mem_range'_1]
        omega
      obtain ⟨p, q, hp, hq, _, _, hph, hqh⟩ :=
        (swingFlagsAt_spec cs c i k).2.mp hflag j hj
      constructor
      · intro p2 hp2
        rw [hp] at hp2
        injection hp2 with e2
        subst e2
        exact hph
      · intro q2 hq2
        rw [hq] at hq2
        injection hq2 with e2
        subst e2
        exact hqh
    · rintro ⟨hki, hikn, hcond⟩
      constructor
      · rw [List.mem_range'_1]
        omega
      · refine ⟨c, hc, hsane c (List.getElem?_mem hc), ?_⟩
        show (swingFlagsAt cs c i k).2 = true
        rw [(swingFlagsAt_spec cs c i k).2]
        intro j hj
        rw [List.mem_range'_1] at hj
        have hlt1 : i - j < cs.length := by omega
        have hlt2 : i + j < cs.length := by omega
        obtain ⟨p, hp⟩ : ∃ p, cs[i - j]? = some p :=
          ⟨cs[i - j], List.getElem?_eq_getElem hlt1⟩
        obtain ⟨q, hq⟩ : ∃ q, cs[i + j]? = some q :=
          ⟨cs[i + j], List.getElem?_eq_getElem hlt2⟩
        exact ⟨p, q, hp, hq, hsane p (List.getElem?_mem hp),
          hsane q (List.getElem?_mem hq),
          (hcond j hj.1 (by omega)).1 p hp, (hcond j hj.1 (by omega)).2 q hq⟩

theorem C7_witness :
    1 ≤ 1 ∧ 1 + 1 < exC7.length ∧ ∀ j, 1 ≤ j → j ≤ 1 →
      (∀ p, exC7[1 - j]? = some p → p.high < (mkCandle 1 11 12 11 11).high) ∧
      (∀ q, exC7[1 + j]? = some q → q.high < (mkCandle 1 11 12 11 11).high) :=
  (C7_swing_detection_rule.1 exC7 1 1 (mkCandle 1 11 12 11 11)
    (by decide) (by decide) (by decide)).mp (by decide)

section SetupScan

theorem minLow_fold_spec (w : List Candle) :
    ∀ (acc : Option Candle) (b : Candle),
      w.foldl setup.minLowStep acc = some b →
      (b ∈ w ∨ acc = some b) ∧ (∀ x ∈ w, b.low ≤ x.low) ∧
      (∀ a, acc = some a → b.low ≤ a.low) := by
  induction w with
  | nil =>
    intro acc b h
    simp only [List.foldl_nil] at h
    refine ⟨Or.inr h, by simp, ?_⟩
    intro a ha
    rw [h] at ha
    injection ha with e
    rw [e]
  | cons c cs ih =>
    intro acc b h
    simp only [List.foldl_cons] at h
    obtain ⟨h1, h2, h3⟩ := ih (setup.minLowStep acc c) b h
    rcases hacc : acc with _ | a
    · rw [hacc] at h1 h3
      have hbc : b.low ≤ c.low := h3 c rfl
      refine ⟨?_, ?_, ?_⟩
      · rcases h1 with hm | hs
        · exact Or.inl (List.mem_cons_of_mem _ hm)
        · rw [show setup.minLowStep none c = some c from rfl] at hs
          injection hs with e
          rw [← e]
          exact Or.inl (List.mem_cons_self _ _)
      · intro x hx
        rcases List.mem_cons.mp hx with rfl | hx2
        · exact hbc
        · exact h2 x hx2
      · intro a ha
        exact absurd ha (by simp)
    · rw [hacc] at h1 h3
      by_cases hlt : c.low < a.low
      · have hstep : setup.minLowStep (some a) c = some c := by
          simp [setup.minLowStep, hlt]
        rw [hstep] at h1 h3
        have hbc : b.low ≤ c.low := h3 c rfl
        refine ⟨?_, ?_, ?_⟩
        · rcases h1 with hm | hs
          · exact Or.inl (List.mem_cons_of_mem _ hm)
          · injection hs with e
            rw [← e]
            exact Or.inl (List.mem_cons_self _ _)
        · intro x hx
          rcases List.mem_cons.mp hx with rfl | hx2
          · exact hbc
          · exact h2 x hx2
        · intro a2 ha2
          injection ha2 with e
          rw [← e]
          exact le_of_lt (lt_of_le_of_lt hbc hlt)
      · have hstep : setup.minLowStep (some a) c = some a := by
          simp [setup.minLowStep, hlt]
        rw [hstep] at h1 h3
        have hba : b.low ≤ a.low := h3 a rfl
        refine ⟨?_, ?_, ?_⟩
        · rcases h1 with hm | hs
          · exact Or.inl (List.mem_cons_of_mem _ hm)
          · exact Or.inr hs
        · intro x hx
          rcases List.mem_cons.mp hx with rfl | hx2
          · exact le_trans hba (not_lt.mp hlt)
          · exact h2 x hx2
        · intro a2 ha2
          injection ha2 with e
          rw [← e]
          exact hba

theorem maxHigh_fold_spec (w : List Candle) :
    ∀ (acc : Option Candle) (b : Candle),
      w.foldl setup.maxHighStep acc = some b →
      (b ∈ w ∨ acc = some b) ∧ (∀ x ∈ w, x.high ≤ b.high) ∧
      (∀ a, acc = some a → a.high ≤ b.high) := by
  induction w with
  | nil =>
    intro acc b h
    simp only [List.foldl_nil] at h
    refine ⟨Or.inr h, by simp, ?_⟩
    intro a ha
    rw [h] at ha
    injection ha with e
    rw [e]
  | cons c cs ih =>
    intro acc b h
    simp only [List.foldl_cons] at h
    obtain ⟨h1, h2, h3⟩ := ih (setup.maxHighStep acc c) b h
    rcases hacc : acc with _ | a
    · rw [hacc] at h1 h3
      have hbc : c.high ≤ b.high := h3 c rfl
      refine ⟨?_, ?_, ?_⟩
      · rcases h1 with hm | hs
        · exact Or.inl (List.mem_cons_of_mem _ hm)
        · rw [show setup.maxHighStep none c = some c from rfl] at hs
          injection hs with e
          rw [← e]
          exact Or.inl (List.mem_cons_self _ _)
      · intro x hx
        rcases List.mem_cons.mp hx with rfl | hx2
        · exact hbc
        · exact h2 x hx2
      · intro a ha
        exact absurd ha (by simp)
    · rw [hacc] at h1 h3
      by_cases hlt : a.high < c.high
      · have hstep : setup.maxHighStep (some a) c = some c := by
          simp [setup.maxHighStep, hlt]
        rw [hstep] at h1 h3
        have hbc : c.high ≤ b.high := h3 c rfl
        refine ⟨?_, ?_, ?_⟩
        · rcases h1 with hm | hs
          · exact Or.inl (List.mem_cons_of_mem _ hm)
          · injection hs with e
            rw [← e]
            exact Or.inl (List.mem_cons_self _ _)
        · intro x hx
          rcases List.mem_cons.mp hx with rfl | hx2
          · exact hbc
          · exact h2 x hx2
        · intro a2 ha2
          injection ha2 with e
          rw [← e]
          exact le_of_lt (lt_of_lt_of_le hlt hbc)
      · have hstep : setup.maxHighStep (some a) c = some a := by
          simp [setup.maxHighStep, hlt]
        rw [hstep] at h1 h3
        have hba : a.high ≤ b.high := h3 a rfl
        refine ⟨?_, ?_, ?_⟩
        · rcases h1 with hm | hs
          · exact Or.inl (List.mem_cons_of_mem _ hm)
          · exact Or.inr hs
        · intro x hx
          rcases List.mem_cons.mp hx with rfl | hx2
          · exact le_trans (not_lt.mp hlt) hba
          · exact h2 x hx2
        · intro a2 ha2
          injection ha2 with e
          rw [← e]
          exact hba

theorem minLowCandle_spec {w : List Candle} {b : Candle}
    (h : setup.minLowCandle w = some b) : b ∈ w ∧ ∀ x ∈ w, b.low ≤ x.low := by
  obtain ⟨h1, h2, _⟩ := minLow_fold_spec w none b h
  refine ⟨?_, h2⟩
  rcases h1 with hm | hs
  · exact hm
  · exact absurd hs (by simp)

theorem maxHighCandle_spec {w : List Candle} {b : Candle}
    (h : setup.maxHighCandle w = some b) : b ∈ w ∧ ∀ x ∈ w, x.high ≤ b.high := by
  obtain ⟨h1, h2, _⟩ := maxHigh_fold_spec w none b h
  refine ⟨?_, h2⟩
  rcases h1 with hm | hs
  · exact hm
  · exact absurd hs (by simp)

theorem minLowStep_isSome (acc : Option Candle) (c : Candle) :
    (setup.minLowStep acc c).isSome = true := by
  unfold setup.minLowStep
  rcases acc with _ | b
  · rfl
  · dsimp only
    split <;> rfl

theorem maxHighStep_isSome (acc : Option Candle) (c : Candle) :
    (setup.maxHighStep acc c).isSome = true := by
  unfold setup.maxHighStep
  rcases acc with _ | b
  · rfl
  · dsimp only
    split <;> rfl

theorem minLow_foldl_isSome (w : List Candle) :
    ∀ acc, acc.isSome = true → (w.foldl setup.minLowStep acc).isSome = true := by
  induction w with
  | nil => intro acc h; simpa using h
  | cons c cs ih =>
    intro acc h
    simp only [List.foldl_cons]
    exact ih _ (minLowStep_isSome acc c)

theorem maxHigh_foldl_isSome (w : List Candle) :
    ∀ acc, acc.isSome = true → (w.foldl setup.maxHighStep acc).isSome = true := by
  induction w with
  | nil => intro acc h; simpa using h
  | cons c cs ih =>
    intro acc h
    simp only [List.foldl_cons]
    exact ih _ (maxHighStep_isSome acc c)

theorem minLowCandle_isSome {w : List Candle} (h : w ≠ []) :
    (setup.minLowCandle w).isSome = true := by
  cases w with
  | nil => exact absurd rfl h
  | cons c cs =>
    unfold setup.minLowCandle
    simp only [List.foldl_cons]
    exact minLow_foldl_isSome cs _ (minLowStep_isSome none c)

theorem maxHighCandle_isSome {w : List Candle} (h : w ≠ []) :
    (setup.maxHighCandle w).isSome = true := by
  cases w with
  | nil => exact absurd rfl h
  | cons c cs =>
    unfold setup.maxHighCandle
    simp only [List.foldl_cons]
    exact maxHigh_foldl_isSome cs _ (maxHighStep_isSome none c)

theorem setupExtreme_eqh {cs : List Candle} {sc : Nat} {lvl : eqhEql.Level}
    {bIdx pos : Nat} (hb : lvl.brokenIndex = some bIdx)
    (hpos : candleIndexMapGet cs bIdx = some pos)
    (htype : lvl.type = LevelType.EQH) :
    setup.setupExtreme cs sc lvl =
      setup.minLowCandle ((cs.drop (pos + 1)).take sc) := by
  unfold setup.setupExtreme
  rw [hb]
  dsimp only
  rw [hpos]
  dsimp only
  rw [if_pos (show (lvl.type == LevelType.EQH) = true by rw [htype]; decide)]

theorem setupExtreme_eql {cs : List Candle} {sc : Nat} {lvl : eqhEql.Level}
    {bIdx pos : Nat} (hb : lvl.brokenIndex = some bIdx)
    (hpos : candleIndexMapGet cs bIdx = some pos)
    (htype : lvl.type = LevelType.EQL) :
    setup.setupExtreme cs sc lvl =
      setup.maxHighCandle ((cs.drop (pos + 1)).take sc) := by
  unfold setup.setupExtreme
  rw [hb]
  dsimp only
  rw [hpos]
  dsimp only
  rw [if_neg (show ¬(lvl.type == LevelType.EQH) = true by rw [htype]; decide)]

theorem setupImpulse_eqh {cs : List Candle} {lvl : eqhEql.Level}
    {vIdx vPos sPos : Nat} {ec : Candle}
    (hv : lvl.vShapeIndex = some vIdx)
    (hvpos : candleIndexMapGet cs vIdx = some vPos)
    (hspos : candleIndexMapGet cs ec.index = some sPos)
    (horder : vPos < sPos)
    (htype : lvl.type = LevelType.EQH) :
    setup.setupImpulse cs lvl (some ec) =
      setup.maxHighCandle ((cs.drop (vPos + 1)).take (sPos - (vPos + 1))) := by
  unfold setup.setupImpulse
  rw [hv]
  dsimp only
  rw [hvpos, hspos]
  dsimp only
  rw [if_pos horder]
  rw [if_pos (show (lvl.type == LevelType.EQH) = true by rw [htype]; decide)]

theorem setupImpulse_eql {cs : List Candle} {lvl : eqhEql.Level}
    {vIdx vPos sPos : Nat} {ec : Candle}
    (hv : lvl.vShapeIndex = some vIdx)
    (hvpos : candleIndexMapGet cs vIdx = some vPos)
    (hspos : candleIndexMapGet cs ec.index = some sPos)
    (horder : vPos < sPos)
    (htype : lvl.type = LevelType.EQL) :
    setup.setupImpulse cs lvl (some ec) =
      setup.minLowCandle ((cs.drop (vPos + 1)).take (sPos - (vPos + 1))) := by
  unfold setup.setupImpulse
  rw [hv]
  dsimp only
  rw [hvpos, hspos]
  dsimp only
  rw [if_pos horder]
  rw [if_neg (show ¬(lvl.type == LevelType.EQH) = true by rw [htype]; decide)]

theorem setupFor_fields (cs : List Candle) (sc : Nat) (lvl : eqhEql.Level) :
    (setup.setupFor cs sc lvl).level = lvl ∧
    (setup.setupFor cs sc lvl).setupVshapeDepth =
      (setup.setupExtreme cs sc lvl).map
        (fun c => if lvl.type == LevelType.EQH then c.low else c.high) ∧
    (setup.setupFor cs sc lvl).setupVshapeIndex =
      (setup.setupExtreme cs sc lvl).map (fun c => c.index) ∧
    (setup.setupFor cs sc lvl).impulseExtremeDepth =
      (setup.setupImpulse cs lvl (setup.setupExtreme cs sc lvl)).map
        (fun c => if lvl.type == LevelType.EQH then c.high else c.low) ∧
    (setup.setupFor cs sc lvl).impulseExtremeIndex =
      (setup.setupImpulse cs lvl (setup.setupExtreme cs sc lvl)).map
        (fun c => c.index) :=
  ⟨rfl, rfl, rfl, rfl, rfl⟩

end SetupScan

/-- C10: setup derivation: getSetups yields exactly one setup per
broken level, in store order, carrying each level verbatim and none for
active or swept levels; for a broken EQH (resp. EQL) level with a
located breaking candle and a nonempty scan window of at most
scanCandles candles immediately after it, the pullback fields hold the
lowest low (resp. highest high) of that window; and with a located
vShape position strictly before the pullback position and a nonempty
window strictly between them, the impulse fields hold the opposite
extreme of that window. The stored levels are never mutated: the level
inside each setup equals the stored one. -/
theorem C10_setup_derivation :
    (∀ (levels : List eqhEql.Level) (cs : List Candle) (sc : Nat),
      cs.isEmpty = false →
      (setup.getSetups levels cs sc).map setup.Setup.level =
        levels.filter fun l => l.status == LevelStatus.broken) ∧
    (∀ (cs : List Candle) (sc : Nat) (lvl : eqhEql.Level) (bIdx pos : Nat),
      lvl.brokenIndex = some bIdx → candleIndexMapGet cs bIdx = some pos →
      lvl.type = LevelType.EQH → (cs.drop (pos + 1)).take sc ≠ [] →
      ∃ m ∈ (cs.drop (pos + 1)).take sc,
        (setup.setupFor cs sc lvl).setupVshapeDepth = some m.low ∧
        (setup.setupFor cs sc lvl).setupVshapeIndex = some m.index ∧
        ∀ x ∈ (cs.drop (pos + 1)).take sc, m.low ≤ x.low) ∧
    (∀ (cs : List Candle) (sc : Nat) (lvl : eqhEql.Level) (bIdx pos : Nat),
      lvl.brokenIndex = some bIdx → candleIndexMapGet cs bIdx = some pos →
      lvl.type = LevelType.EQL → (cs.drop (pos + 1)).take sc ≠ [] →
      ∃ m ∈ (cs.drop (pos + 1)).take sc,
        (setup.setupFor cs sc lvl).setupVshapeDepth = some m.high ∧
        (setup.setupFor cs sc lvl).setupVshapeIndex = some m.index ∧
        ∀ x ∈ (cs.drop (pos + 1)).take sc, x.high ≤ m.high) ∧
    (∀ (cs : List Candle) (sc : Nat) (lvl : eqhEql.Level)
        (bIdx pos vIdx vPos sPos : Nat) (m : Candle),
      lvl.brokenIndex = some bIdx → candleIndexMapGet cs bIdx = some pos →
      lvl.type = LevelType.EQH →
      setup.minLowCandle ((cs.drop (pos + 1)).take sc) = some m →
      lvl.vShapeIndex = some vIdx → candleIndexMapGet cs vIdx = some vPos →
      candleIndexMapGet cs m.index = some sPos → vPos < sPos →
      (cs.drop (vPos + 1)).take (sPos - (vPos + 1)) ≠ [] →
      ∃ im ∈ (cs.drop (vPos + 1)).take (sPos - (vPos + 1)),
        (setup.setupFor cs sc lvl).impulseExtremeDepth = some im.high ∧
        (setup.setupFor cs sc lvl).impulseExtremeIndex = some im.index ∧
        ∀ x ∈ (cs.drop (vPos + 1)).take (sPos - (vPos + 1)), x.high ≤ im.high) ∧
    (∀ (cs : List Candle) (sc : Nat) (lvl : eqhEql.Level)
        (bIdx pos vIdx vPos sPos : Nat) (m : Candle),
      lvl.brokenIndex = some bIdx → candleIndexMapGet cs bIdx = some pos →
      lvl.type = LevelType.EQL →
      setup.maxHighCandle ((cs.drop (pos + 1)).take sc) = some m →
      lvl.vShapeIndex = some vIdx → candleIndexMapGet cs vIdx = some vPos →
      candleIndexMapGet cs m.index = some sPos → vPos < sPos →
      (cs.drop (vPos + 1)).take (sPos - (vPos + 1)) ≠ [] →
      ∃ im ∈ (cs.drop (vPos + 1)).take (sPos - (vPos + 1)),
        (setup.setupFor cs sc lvl).impulseExtremeDepth = some im.low ∧
        (setup.setupFor cs sc lvl).impulseExtremeIndex = some im.index ∧
        ∀ x ∈ (cs.drop (vPos + 1)).take (sPos - (vPos + 1)), im.low ≤ x.low) := by
  refine ⟨?_, ?_, ?_, ?_, ?_⟩
  · intro levels cs sc hcs
    unfold setup.getSetups
    dsimp only
    by_cases hbe : (levels.filter fun l => l.status == LevelStatus.broken).isEmpty = true
    · rw [if_pos hbe]
      rw [List.isEmpty_iff.mp hbe]
      rfl
    · rw [if_neg hbe, if_neg (by rw [hcs]; simp)]
      rw [List.map_map]
      have he : ∀ l ∈ levels.filter fun l => l.status == LevelStatus.broken,
          (setup.Setup.level ∘ setup.setupFor cs sc) l = id l := fun l _ => rfl
      rw [List.map_congr_left he, List.map_id]
  · intro cs sc lvl bIdx pos hb hpos htype hw
    obtain ⟨m, hm⟩ := Option.isSome_iff_exists.mp (minLowCandle_isSome hw)
    obtain ⟨hmem, hmin⟩ := minLowCandle_spec hm
    refine ⟨m, hmem, ?_, ?_, hmin⟩
    · rw [(setupFor_fields cs sc lvl).2.1, setupExtreme_eqh hb hpos htype, hm,
        Option.map_some']
      rw [if_pos (show (lvl.type == LevelType.EQH) = true by rw [htype]; decide)]
    · rw [(setupFor_fields cs sc lvl).2.2.1, setupExtreme_eqh hb hpos htype, hm,
        Option.map_some']
  · intro cs sc lvl bIdx pos hb hpos htype hw
    obtain ⟨m, hm⟩ := Option.isSome_iff_exists.mp (maxHighCandle_isSome hw)
    obtain ⟨hmem, hmax⟩ := maxHighCandle_spec hm
    refine ⟨m, hmem, ?_, ?_, hmax⟩
    · rw [(setupFor_fields cs sc lvl).2.1, setupExtreme_eql hb hpos htype, hm,
        Option.map_some']
      rw [if_neg (show ¬(lvl.type == LevelType.EQH) = true by rw [htype]; decide)]
    · rw [(setupFor_fields cs sc lvl).2.2.1, setupExtreme_eql hb hpos htype, hm,
        Option.map_some']
  · intro cs sc lvl bIdx pos vIdx vPos sPos m hb hpos htype hm hv hvpos hspos horder hbw
    obtain ⟨im, him⟩ := Option.isSome_iff_exists.mp (maxHighCandle_isSome hbw)
    obtain ⟨hmem, hmax⟩ := maxHighCandle_spec him
    refine ⟨im, hmem, ?_, ?_, hmax⟩
    · rw [(setupFor_fields cs sc lvl).2.2.2.1, setupExtreme_eqh hb hpos htype, hm,
        setupImpulse_eqh hv hvpos hspos horder htype, him, Option.map_some']
      rw [if_pos (show (lvl.type == LevelType.EQH) = true by rw [htype]; decide)]
    · rw [(setupFor_fields cs sc lvl).2.2.2.2, setupExtreme_eqh hb hpos htype, hm,
        setupImpulse_eqh hv hvpos hspos horder htype, him, Option.map_some']
  · intro cs sc lvl bIdx pos vIdx vPos sPos m hb hpos htype hm hv hvpos hspos horder hbw
    obtain ⟨im, him⟩ := Option.isSome_iff_exists.mp (minLowCandle_isSome hbw)
    obtain ⟨hmem, hmin⟩ := minLowCandle_spec him
    refine ⟨im, hmem, ?_, ?_, hmin⟩
    · rw [(setupFor_fields cs sc lvl).2.2.2.1, setupExtreme_eql hb hpos htype, hm,
        setupImpulse_eql hv hvpos hspos horder htype, him, Option.map_some']
      rw [if_neg (show ¬(lvl.type == LevelType.EQH) = true by rw [htype]; decide)]
    · rw [(setupFor_fields cs sc lvl).2.2.2.2, setupExtreme_eql hb hpos htype, hm,
        setupImpulse_eql hv hvpos hspos horder htype, him, Option.map_some']

theorem C10_witness :
    (setup.getSetups [exLvlC10] exCsW 50).map setup.Setup.level =
      [exLvlC10].filter fun l => l.status == LevelStatus.broken :=
  C10_setup_derivation.1 [exLvlC10] exCsW 50 (by decide)

section ModifyLemmas

theorem modifyFirstP_cons_pos {α : Type} (p : α → Bool) (f : α → α) (x : α)
    (xs : List α) (h : p x = true) :
    modifyFirstP p f (x :: xs) = f x :: xs := by
  unfold modifyFirstP
  rw [if_pos h]

theorem modifyFirstP_cons_neg {α : Type} (p : α → Bool) (f : α → α) (x : α)
    (xs : List α) (h : p x = false) :
    modifyFirstP p f (x :: xs) = x :: modifyFirstP p f xs := by
  unfold modifyFirstP
  rw [if_neg (by simp [h])]
  cases xs <;> rfl

theorem modifyLastP_cons_any {α : Type} (p : α → Bool) (f : α → α) (x : α)
    (xs : List α) (h : xs.any p = true) :
    modifyLastP p f (x :: xs) = x :: modifyLastP p f xs := by
  unfold modifyLastP
  rw [if_pos h]
  cases xs <;> rfl

theorem modifyLastP_cons_last_pos {α : Type} (p : α → Bool) (f : α → α) (x : α)
    (xs : List α) (h1 : xs.any p = false) (h2 : p x = true) :
    modifyLastP p f (x :: xs) = f x :: xs := by
  unfold modifyLastP
  rw [h1]
  rw [if_neg (by simp), if_pos h2]

theorem modifyLastP_cons_none {α : Type} (p : α → Bool) (f : α → α) (x : α)
    (xs : List α) (h1 : xs.any p = false) (h2 : p x = false) :
    modifyLastP p f (x :: xs) = x :: xs := by
  unfold modifyLastP
  rw [h1]
  rw [if_neg (by simp), if_neg (by simp [h2])]

theorem modifyFirstP_of_not_any {α : Type} (p : α → Bool) (f : α → α) :
    ∀ (l : List α), l.any p = false → modifyFirstP p f l = l := by
  intro l
  induction l with
  | nil => intro _; rfl
  | cons x xs ih =>
    intro h
    simp only [List.any_cons, Bool.or_eq_false_iff] at h
    rw [modifyFirstP_cons_neg p f x xs h.1, ih h.2]

theorem modifyLastP_of_not_any {α : Type} (p : α → Bool) (f : α → α) :
    ∀ (l : List α), l.any p = false → modifyLastP p f l = l := by
  intro l
  induction l with
  | nil => intro _; rfl
  | cons x xs ih =>
    intro h
    simp only [List.any_cons, Bool.or_eq_false_iff] at h
    rw [modifyLastP_cons_none p f x xs h.2 h.1]

theorem modifyFirstP_append_not_any {α : Type} (p : α → Bool) (f : α → α) :
    ∀ (l1 l2 : List α), l1.any p = false →
      modifyFirstP p f (l1 ++ l2) = l1 ++ modifyFirstP p f l2 := by
  intro l1
  induction l1 with
  | nil => intro l2 _; rfl
  | cons x xs ih =>
    intro l2 h
    simp only [List.any_cons, Bool.or_eq_false_iff] at h
    simp only [List.cons_append]
    rw [modifyFirstP_cons_neg p f x (xs ++ l2) h.1, ih l2 h.2]

theorem modifyLastP_append_not_any {α : Type} (p : α → Bool) (f : α → α) :
    ∀ (l1 l2 : List α), l2.any p = false →
      modifyLastP p f (l1 ++ l2) = modifyLastP p f l1 ++ l2 := by
  intro l1
  induction l1 with
  | nil =>
    intro l2 h
    simp only [List.nil_append]
    rw [modifyLastP_of_not_any p f l2 h]
    rfl
  | cons x xs ih =>
    intro l2 h
    simp only [List.cons_append]
    by_cases hxs : xs.any p = true
    · have h1 : (xs ++ l2).any p = true := by
        rw [List.any_append, hxs]
        rfl
      rw [modifyLastP_cons_any p f x (xs ++ l2) h1, ih l2 h,
        modifyLastP_cons_any p f x xs hxs]
      rfl
    · have hxs2 : xs.any p = false := by
        cases hv : xs.any p
        · rfl
        · exact absurd hv hxs
      have h1 : (xs ++ l2).any p = false := by
        rw [List.any_append, hxs2, h]
        rfl
      by_cases hpx : p x = true
      · rw [modifyLastP_cons_last_pos p f x (xs ++ l2) h1 hpx,
          modifyLastP_cons_last_pos p f x xs hxs2 hpx]
        rfl
      · have hpx2 : p x = false := by
          cases hv : p x
          · rfl
          · exact absurd hv hpx
        rw [modifyLastP_cons_none p f x (xs ++ l2) h1 hpx2,
          modifyLastP_cons_none p f x xs hxs2 hpx2]
        rfl

theorem modifyLastP_concat {α : Type} (p : α → Bool) (f : α → α) :
    ∀ (l : List α) (x : α), p x = true →
      modifyLastP p f (l ++ [x]) = l ++ [f x] := by
  intro l
  induction l with
  | nil =>
    intro x hx
    simp only [List.nil_append]
    rw [modifyLastP_cons_last_pos p f x [] rfl hx]
  | cons a as ih =>
    intro x hx
    simp only [List.cons_append]
    have hany : (as ++ [x]).any p = true := by
      rw [List.any_append]
      simp [hx]
    rw [modifyLastP_cons_any p f a (as ++ [x]) hany, ih x hx]

theorem modifyLastP_pair_fst {α : Type} (p : α → Bool) (f : α → α) :
    ∀ (l1 : List α) (x y : α), p x = true → p y = false →
      modifyLastP p f (l1 ++ [x, y]) = l1 ++ [f x, y] := by
  intro l1
  induction l1 with
  | nil =>
    intro x y hx hy
    simp only [List.nil_append]
    have h1 : ([y] : List α).any p = false := by simp [hy]
    rw [modifyLastP_cons_last_pos p f x [y] h1 hx]
  | cons a as ih =>
    intro x y hx hy
    simp only [List.cons_append]
    have hany : (as ++ [x, y]).any p = true := by
      rw [List.any_append]
      simp [hx]
    rw [modifyLastP_cons_any p f a (as ++ [x, y]) hany, ih x y hx hy]

theorem modifyLastP_pair_snd {α : Type} (p : α → Bool) (f : α → α) :
    ∀ (l1 : List α) (x y : α), p y = true →
      modifyLastP p f (l1 ++ [x, y]) = l1 ++ [x, f y] := by
  intro l1
  induction l1 with
  | nil =>
    intro x y hy
    simp only [List.nil_append]
    have h1 : ([y] : List α).any p = true := by simp [hy]
    rw [modifyLastP_cons_any p f x [y] h1,
      modifyLastP_cons_last_pos p f y [] rfl hy]
  | cons a as ih =>
    intro x y hy
    simp only [List.cons_append]
    have hany : (as ++ [x, y]).any p = true := by
      rw [List.any_append]
      simp [hy]
    rw [modifyLastP_cons_any p f a (as ++ [x, y]) hany, ih x y hy]

theorem modifyFirstP_head_fix {α : Type} (p : α → Bool) (f : α → α) :
    ∀ (l : List α) (x : α), (l.filter p).head? = some x → f x = x →
      modifyFirstP p f l = l := by
  intro l
  induction l with
  | nil => intro x h _; simp at h
  | cons a as ih =>
    intro x h hf
    by_cases hpa : p a = true
    · rw [List.filter_cons_of_pos hpa] at h
      simp only [List.head?_cons, Option.some.injEq] at h
      rw [modifyFirstP_cons_pos p f a as hpa, h, hf]
    · have hpa2 : p a = false := by
        cases hv : p a
        · rfl
        · exact absurd hv hpa
      rw [List.filter_cons_of_neg (by simp [hpa2])] at h
      rw [modifyFirstP_cons_neg p f a as hpa2, ih x h hf]

theorem modifyLastP_last_fix {α : Type} (p : α → Bool) (f : α → α) :
    ∀ (l : List α) (x : α), (l.filter p).getLast? = some x → f x = x →
      modifyLastP p f l = l := by
  intro l
  induction l with
  | nil => intro x h _; simp at h
  | cons a as ih =>
    intro x h hf
    by_cases hany : as.any p = true
    · have hne : as.filter p ≠ [] := by
        rcases List.any_eq_true.mp hany with ⟨y, hy, hpy⟩
        intro hc
        have hmem : y ∈ as.filter p := List.mem_filter.mpr ⟨hy, hpy⟩
        rw [hc] at hmem
        simp at hmem
      have heq : ((a :: as).filter p).getLast? = (as.filter p).getLast? := by
        by_cases hpa : p a = true
        · rw [List.filter_cons_of_pos hpa]
          cases hfa : as.filter p with
          | nil => exact absurd hfa hne
          | cons b bs => rw [List.getLast?_cons_cons]
        · rw [List.filter_cons_of_neg hpa]
      rw [heq] at h
      rw [modifyLastP_cons_any p f a as hany, ih x h hf]
    · have hany2 : as.any p = false := by
        cases hv : as.any p
        · rfl
        · exact absurd hv hany
      have hfe : as.filter p = [] := by
        cases hfa : as.filter p with
        | nil => rfl
        | cons b bs =>
          have hmem : b ∈ as.filter p := by
            rw [hfa]
            exact List.mem_cons_self _ _
          have hb := List.mem_filter.mp hmem
          exact absurd (List.any_eq_true.mpr ⟨b, hb.1, hb.2⟩) hany
      by_cases hpa : p a = true
      · rw [List.filter_cons_of_pos hpa, hfe] at h
        have hax : a = x := by simpa using h
        rw [modifyLastP_cons_last_pos p f a as hany2 hpa, hax, hf]
      · have hpa2 : p a = false := by
          cases hv : p a
          · rfl
          · exact absurd hv hpa
        rw [List.filter_cons_of_neg (by simp [hpa2]), hfe] at h
        simp at h

end ModifyLemmas

section DirectionStructure

theorem dirChainH_cons (lH : Option ℚ) (s : Swing) (rest : List Swing) :
    dirChainH lH (s :: rest) =
      { s with direction := some (dirHOf lH s) } :: dirChainH (some s.price) rest :=
  rfl

theorem dirChainL_cons (lL : Option ℚ) (s : Swing) (rest : List Swing) :
    dirChainL lL (s :: rest) =
      { s with direction := some (dirLOf lL s) } :: dirChainL (some s.price) rest :=
  rfl

theorem assignDirFull_cons_high (lH lL : Option ℚ) (s : Swing) (rest : List Swing)
    (h : s.type = SwingType.high) :
    assignDirFull lH lL (s :: rest) =
      { s with direction := some (dirHOf lH s) } ::
        assignDirFull (some s.price) lL rest := by
  rw [assignDirFull.eq_def]
  dsimp only
  rw [h]

theorem assignDirFull_cons_low (lH lL : Option ℚ) (s : Swing) (rest : List Swing)
    (h : s.type = SwingType.low) :
    assignDirFull lH lL (s :: rest) =
      { s with direction := some (dirLOf lL s) } ::
        assignDirFull lH (some s.price) rest := by
  rw [assignDirFull.eq_def]
  dsimp only
  rw [h]

theorem assignDirFull_append (N : List Swing) :
    ∀ (L : List Swing) (lH lL : Option ℚ),
      assignDirFull lH lL (L ++ N) =
        assignDirFull lH lL L ++ assignDirFull (hAccF lH L) (lAccF lL L) N := by
  intro L
  induction L with
  | nil => intro lH lL; simp [hAccF, lAccF, assignDirFull]
  | cons s rest ih =>
    intro lH lL
    rcases hst : s.type with _ | _
    · simp only [List.cons_append]
      rw [assignDirFull_cons_high lH lL s (rest ++ N) hst,
          assignDirFull_cons_high lH lL s rest hst,
          ih (some s.price) lL]
      have h1 : hAccF lH (s :: rest) = hAccF (some s.price) rest := by
        simp [hAccF, isHighSwing, hst]
      have h2 : lAccF lL (s :: rest) = lAccF lL rest := by
        simp [lAccF, isLowSwing, hst]
      rw [h1, h2, List.cons_append]
    · simp only [List.cons_append]
      rw [assignDirFull_cons_low lH lL s (rest ++ N) hst,
          assignDirFull_cons_low lH lL s rest hst,
          ih lH (some s.price)]
      have h1 : hAccF lH (s :: rest) = hAccF lH rest := by
        simp [hAccF, isHighSwing, hst]
      have h2 : lAccF lL (s :: rest) = lAccF (some s.price) rest := by
        simp [lAccF, isLowSwing, hst]
      rw [h1, h2, List.cons_append]

theorem assignDirFull_isSome :
    ∀ (L : List Swing) (lH lL : Option ℚ) (s : Swing),
      s ∈ assignDirFull lH lL L → s.direction.isSome = true := by
  intro L
  induction L with
  | nil => intro lH lL s h; simp [assignDirFull] at h
  | cons a rest ih =>
    intro lH lL s h
    rcases hst : a.type with _ | _
    · rw [assignDirFull_cons_high lH lL a rest hst] at h
      rcases List.mem_cons.mp h with rfl | h2
      · rfl
      · exact ih _ _ _ h2
    · rw [assignDirFull_cons_low lH lL a rest hst] at h
      rcases List.mem_cons.mp h with rfl | h2
      · rfl
      · exact ih _ _ _ h2

theorem assignDirFull_filter_high :
    ∀ (L : List Swing) (lH lL : Option ℚ),
      (assignDirFull lH lL L).filter isHighSwing =
        dirChainH lH (L.filter isHighSwing) := by
  intro L
  induction L with
  | nil => intro lH lL; rfl
  | cons s rest ih =>
    intro lH lL
    rcases hst : s.type with _ | _
    · rw [assignDirFull_cons_high lH lL s rest hst,
          List.filter_cons_of_pos (by simp [isHighSwing, hst]),
          List.filter_cons_of_pos (by simp [isHighSwing, hst]),
          dirChainH_cons, ih (some s.price) lL]
    · rw [assignDirFull_cons_low lH lL s rest hst,
          List.filter_cons_of_neg (by simp [isHighSwing, hst]),
          List.filter_cons_of_neg (by simp [isHighSwing, hst]),
          ih lH (some s.price)]

theorem assignDirFull_filter_low :
    ∀ (L : List Swing) (lH lL : Option ℚ),
      (assignDirFull lH lL L).filter isLowSwing =
        dirChainL lL (L.filter isLowSwing) := by
  intro L
  induction L with
  | nil => intro lH lL; rfl
  | cons s rest ih =>
    intro lH lL
    rcases hst : s.type with _ | _
    · rw [assignDirFull_cons_high lH lL s rest hst,
          List.filter_cons_of_neg (by simp [isLowSwing, hst]),
          List.filter_cons_of_neg (by simp [isLowSwing, hst]),
          ih (some s.price) lL]
    · rw [assignDirFull_cons_low lH lL s rest hst,
          List.filter_cons_of_pos (by simp [isLowSwing, hst]),
          List.filter_cons_of_pos (by simp [isLowSwing, hst]),
          dirChainL_cons, ih lH (some s.price)]

theorem dirChainH_length : ∀ (L : List Swing) (lH : Option ℚ),
    (dirChainH lH L).length = L.length := by
  intro L
  induction L with
  | nil => intro lH; rfl
  | cons s rest ih =>
    intro lH
    rw [dirChainH_cons]
    simp only [List.length_cons, ih]

theorem dirChainL_length : ∀ (L : List Swing) (lL : Option ℚ),
    (dirChainL lL L).length = L.length := by
  intro L
  induction L with
  | nil => intro lL; rfl
  | cons s rest ih =>
    intro lL
    rw [dirChainL_cons]
    simp only [List.length_cons, ih]

theorem dirChainH_price : ∀ (L : List Swing) (lH : Option ℚ),
    (dirChainH lH L).map (fun s => s.price) = L.map (fun s => s.price) := by
  intro L
  induction L with
  | nil => intro lH; rfl
  | cons s rest ih =>
    intro lH
    rw [dirChainH_cons]
    simp only [List.map_cons, ih]

theorem dirChainL_price : ∀ (L : List Swing) (lL : Option ℚ),
    (dirChainL lL L).map (fun s => s.price) = L.map (fun s => s.price) := by
  intro L
  induction L with
  | nil => intro lL; rfl
  | cons s rest ih =>
    intro lL
    rw [dirChainL_cons]
    simp only [List.map_cons, ih]

theorem dirChainH_last_dir :
    ∀ (L : List Swing) (lH : Option ℚ) (prev last : Swing),
      (dirChainH lH L)[L.length - 2]? = some prev →
      (dirChainH lH L)[L.length - 1]? = some last →
      2 ≤ L.length →
      last.direction =
        some (if prev.price < last.price then SwingDir.HH else SwingDir.LH) := by
  intro L
  induction L with
  | nil =>
    intro lH prev last h1 h2 hlen
    simp at hlen
  | cons a rest ih =>
    intro lH prev last h1 h2 hlen
    rcases rest with _ | ⟨b, rest2⟩
    · simp at hlen
    · rcases rest2 with _ | ⟨c, rest3⟩
      · have hch : dirChainH lH [a, b] =
            [{ a with direction := some (dirHOf lH a) },
             { b with direction := some (dirHOf (some a.price) b) }] := rfl
        rw [hch] at h1 h2
        simp only [List.length_cons, List.length_nil] at h1 h2
        have e1 := Option.some.inj h1
        have e2 := Option.some.inj h2
        rw [← e1, ← e2]
        rfl
      · have hidx1 : (a :: b :: c :: rest3).length - 2 =
            ((b :: c :: rest3).length - 2) + 1 := by
          simp only [List.length_cons]
          omega
        have hidx2 : (a :: b :: c :: rest3).length - 1 =
            ((b :: c :: rest3).length - 1) + 1 := by
          simp only [List.length_cons]
          omega
        rw [hidx1, dirChainH_cons, List.getElem?_cons_succ] at h1
        rw [hidx2, dirChainH_cons, List.getElem?_cons_succ] at h2
        exact ih (some a.price) prev last h1 h2
          (by simp only [List.length_cons]; omega)

theorem dirChainL_last_dir :
    ∀ (L : List Swing) (lL : Option ℚ) (prev last : Swing),
      (dirChainL lL L)[L.length - 2]? = some prev →
      (dirChainL lL L)[L.length - 1]? = some last →
      2 ≤ L.length →
      last.direction =
        some (if prev.price < last.price then SwingDir.HL else SwingDir.LL) := by
  intro L
  induction L with
  | nil =>
    intro lL prev last h1 h2 hlen
    simp at hlen
  | cons a rest ih =>
    intro lL prev last h1 h2 hlen
    rcases rest with _ | ⟨b, rest2⟩
    · simp at hlen
    · rcases rest2 with _ | ⟨c, rest3⟩
      · have hch : dirChainL lL [a, b] =
            [{ a with direction := some (dirLOf lL a) },
             { b with direction := some (dirLOf (some a.price) b) }] := rfl
        rw [hch] at h1 h2
        simp only [List.length_cons, List.length_nil] at h1 h2
        have e1 := Option.some.inj h1
        have e2 := Option.some.inj h2
        rw [← e1, ← e2]
        rfl
      · have hidx1 : (a :: b :: c :: rest3).length - 2 =
            ((b :: c :: rest3).length - 2) + 1 := by
          simp only [List.length_cons]
          omega
        have hidx2 : (a :: b :: c :: rest3).length - 1 =
            ((b :: c :: rest3).length - 1) + 1 := by
          simp only [List.length_cons]
          omega
        rw [hidx1, dirChainL_cons, List.getElem?_cons_succ] at h1
        rw [hidx2, dirChainL_cons, List.getElem?_cons_succ] at h2
        exact ih (some a.price) prev last h1 h2
          (by simp only [List.length_cons]; omega)

theorem hAccF_eq : ∀ (S : List Swing) (lH : Option ℚ),
    hAccF lH S = match (S.filter isHighSwing).getLast? with
      | none => lH
      | some x => some x.price := by
  intro S
  induction S with
  | nil => intro lH; rfl
  | cons s rest ih =>
    intro lH
    by_cases hs : isHighSwing s = true
    · have h1 : hAccF lH (s :: rest) = hAccF (some s.price) rest := by
        simp [hAccF, hs]
      rw [h1, ih (some s.price), List.filter_cons_of_pos hs]
      cases hf : rest.filter isHighSwing with
      | nil => rfl
      | cons b bs =>
        rw [List.getLast?_cons_cons]
        cases hy : (b :: bs).getLast? with
        | none =>
          rw [List.getLast?_eq_getElem?] at hy
          rw [List.getElem?_eq_none_iff] at hy
          simp at hy
        | some y => rfl
    · have hs2 : isHighSwing s = false := by
        cases hv : isHighSwing s
        · rfl
        · exact absurd hv hs
      have h1 : hAccF lH (s :: rest) = hAccF lH rest := by
        simp [hAccF, hs2]
      rw [h1, ih lH, List.filter_cons_of_neg (by simp [hs2])]

theorem lAccF_eq : ∀ (S : List Swing) (lL : Option ℚ),
    lAccF lL S = match (S.filter isLowSwing).getLast? with
      | none => lL
      | some x => some x.price := by
  intro S
  induction S with
  | nil => intro lL; rfl
  | cons s rest ih =>
    intro lL
    by_cases hs : isLowSwing s = true
    · have h1 : lAccF lL (s :: rest) = lAccF (some s.price) rest := by
        simp [lAccF, hs]
      rw [h1, ih (some s.price), List.filter_cons_of_pos hs]
      cases hf : rest.filter isLowSwing with
      | nil => rfl
      | cons b bs =>
        rw [List.getLast?_cons_cons]
        cases hy : (b :: bs).getLast? with
        | none =>
          rw [List.getLast?_eq_getElem?] at hy
          rw [List.getElem?_eq_none_iff] at hy
          simp at hy
        | some y => rfl
    · have hs2 : isLowSwing s = false := by
        cases hv : isLowSwing s
        · rfl
        · exact absurd hv hs
      have h1 : lAccF lL (s :: rest) = lAccF lL rest := by
        simp [lAccF, hs2]
      rw [h1, ih lL, List.filter_cons_of_neg (by simp [hs2])]

theorem setDirection_self (v : SwingDir) (s : Swing)
    (h : s.direction = some v) : setDirection v s = s := by
  cases s
  simp only [setDirection]
  simp only at h
  rw [h]

theorem mem_of_head? {α : Type} {l : List α} {x : α} (h : l.head? = some x) :
    x ∈ l := by
  cases l with
  | nil => simp at h
  | cons a as =>
    simp only [List.head?_cons, Option.some.injEq] at h
    rw [← h]
    exact List.mem_cons_self _ _

theorem head?_append_of_ne_nil {α : Type} {l1 : List α} (l2 : List α)
    (h : l1 ≠ []) : (l1 ++ l2).head? = l1.head? := by
  cases l1 with
  | nil => exact absurd rfl h
  | cons a as => rfl

theorem getElem?_concat_self {α : Type} (l : List α) (x : α) :
    (l ++ [x])[(l ++ [x]).length - 1]? = some x := by
  have h : (l ++ [x]).length - 1 = l.length := by simp
  rw [h]
  exact List.getElem?_concat_length l x

theorem getElem?_concat_pre {α : Type} (l : List α) (x : α) (h : l ≠ []) :
    (l ++ [x])[(l ++ [x]).length - 2]? = l[l.length - 1]? := by
  have h1 : (l ++ [x]).length - 2 = l.length - 1 := by simp
  rw [h1]
  have h2 : l.length - 1 < l.length := by
    cases l
    · exact absurd rfl h
    · simp
  rw [List.getElem?_append_left h2]

theorem getElem?_price_eq {l1 l2 : List Swing}
    (h : l1.map (fun s => s.price) = l2.map (fun s => s.price)) (i : Nat) :
    (l1[i]?).map (fun s => s.price) = (l2[i]?).map (fun s => s.price) := by
  rw [← List.getElem?_map, ← List.getElem?_map, h]

theorem getElem?_isSome_of_lt {α : Type} {l : List α} {i : Nat}
    (h : i < l.length) : ∃ x, l[i]? = some x :=
  ⟨l[i], List.getElem?_eq_getElem h⟩

theorem getLast?_isSome_of_ne_nil {α : Type} {l : List α} (h : l ≠ []) :
    ∃ x, l.getLast? = some x := by
  cases hy : l.getLast? with
  | some y => exact ⟨y, rfl⟩
  | none =>
    rw [List.getLast?_eq_getElem?, List.getElem?_eq_none_iff] at hy
    exfalso
    cases l with
    | nil => exact h rfl
    | cons a as =>
      simp only [List.length_cons] at hy
      omega

theorem any_eq_false_of_filter_nil {α : Type} {p : α → Bool} {l : List α}
    (h : l.filter p = []) : l.any p = false := by
  cases hv : l.any p
  · rfl
  · rcases List.any_eq_true.mp hv with ⟨x, hx, hpx⟩
    have : x ∈ l.filter p := List.mem_filter.mpr ⟨hx, hpx⟩
    rw [h] at this
    simp at this

theorem updateIncr_append_high (S : List Swing) (h : Swing)
    (hty : h.type = SwingType.high) (hdir : h.direction = none) :
    updateDirectionsIncr (assignDirFull none none S ++ [h]) =
      assignDirFull none none (S ++ [h]) := by
  have hRHS : assignDirFull none none (S ++ [h]) =
      assignDirFull none none S ++
        [{ h with direction := some (dirHOf (hAccF none S) h) }] := by
    rw [assignDirFull_append [h] S none none, assignDirFull_cons_high _ _ h [] hty]
    rfl
  have hfh : (assignDirFull none none S ++ [h]).filter isHighSwing =
      dirChainH none (S.filter isHighSwing) ++ [h] := by
    rw [List.filter_append, assignDirFull_filter_high]
    congr 1
    simp [isHighSwing, hty]
  have hfl : (assignDirFull none none S ++ [h]).filter isLowSwing =
      dirChainL none (S.filter isLowSwing) := by
    rw [List.filter_append, assignDirFull_filter_low]
    have he : [h].filter isLowSwing = [] := by simp [isLowSwing, hty]
    rw [he, List.append_nil]
  rw [hRHS]
  unfold updateDirectionsIncr
  dsimp only
  rw [hfh, hfl]
  rcases hHs : S.filter isHighSwing with _ | ⟨b, bs⟩
  · -- no stored highs: the new high becomes FIRST, the last-high pass skips
    have hDfh : (assignDirFull none none S).filter isHighSwing = [] := by
      rw [assignDirFull_filter_high, hHs]
      rfl
    have hDany : (assignDirFull none none S).any isHighSwing = false :=
      any_eq_false_of_filter_nil hDfh
    have hstep1 : modifyFirstP isHighSwing
        (fun s => if s.direction.isNone then setDirection SwingDir.FIRST s else s)
        (assignDirFull none none S ++ [h]) =
        assignDirFull none none S ++ [setDirection SwingDir.FIRST h] := by
      rw [modifyFirstP_append_not_any _ _ _ _ hDany,
          modifyFirstP_cons_pos _ _ _ _ (by simp [isHighSwing, hty])]
      simp [hdir]
    rw [hstep1]
    have hgH : ¬(2 ≤ (dirChainH none ([] : List Swing) ++ [h]).length) := by
      simp [dirChainH]
    rw [if_neg hgH]
    have hacc : hAccF none S = none := by
      rw [hAccF_eq, hHs]
      rfl
    have hlow1 : isLowSwing (setDirection SwingDir.FIRST h) = false := by
      simp [isLowSwing, setDirection, hty]
    rcases hLs : S.filter isLowSwing with _ | ⟨c, cs2⟩
    · have hDlow : (assignDirFull none none S).any isLowSwing = false :=
        any_eq_false_of_filter_nil (by rw [assignDirFull_filter_low, hLs]; rfl)
      have hanyl : (assignDirFull none none S ++
          [setDirection SwingDir.FIRST h]).any isLowSwing = false := by
        rw [List.any_append, hDlow]
        simp [hlow1]
      rw [modifyFirstP_of_not_any _ _ _ hanyl]
      have hgL : ¬(2 ≤ (dirChainL none ([] : List Swing)).length) := by
        simp [dirChainL]
      rw [if_neg hgL, hacc]
      rfl
    · have hflo : (assignDirFull none none S ++
          [setDirection SwingDir.FIRST h]).filter isLowSwing =
          dirChainL none (c :: cs2) := by
        rw [List.filter_append, assignDirFull_filter_low, hLs]
        have he : [setDirection SwingDir.FIRST h].filter isLowSwing = [] := by
          simp [hlow1]
        rw [he, List.append_nil]
      have hheadl : ((assignDirFull none none S ++
          [setDirection SwingDir.FIRST h]).filter isLowSwing).head? =
          some { c with direction := some (dirLOf none c) } := by
        rw [hflo, dirChainL_cons]
        rfl
      have hstep2 : modifyFirstP isLowSwing
          (fun s => if s.direction.isNone then setDirection SwingDir.FIRST s else s)
          (assignDirFull none none S ++ [setDirection SwingDir.FIRST h]) =
          assignDirFull none none S ++ [setDirection SwingDir.FIRST h] :=
        modifyFirstP_head_fix _ _ _ _ hheadl (by simp)
      rw [hstep2]
      rcases cs2 with _ | ⟨d, ds⟩
      · have hgL : ¬(2 ≤ (dirChainL none [c]).length) := by
          rw [dirChainL_length]
          simp
        rw [if_neg hgL, hacc]
        rfl
      · have hgL : 2 ≤ (dirChainL none (c :: d :: ds)).length := by
          rw [dirChainL_length]
          simp
        rw [if_pos hgL]
        obtain ⟨p2, hp2⟩ := getElem?_isSome_of_lt
          (l := dirChainL none (c :: d :: ds))
          (i := (dirChainL none (c :: d :: ds)).length - 2) (by omega)
        obtain ⟨l2, hl2⟩ := getElem?_isSome_of_lt
          (l := dirChainL none (c :: d :: ds))
          (i := (dirChainL none (c :: d :: ds)).length - 1) (by omega)
        rw [hp2, hl2]
        dsimp only
        rw [modifyLastP_append_not_any _ _ _ _ (by simp [hlow1])]
        have hlast : ((assignDirFull none none S).filter isLowSwing).getLast? =
            some l2 := by
          rw [assignDirFull_filter_low, hLs, List.getLast?_eq_getElem?]
          exact hl2
        have hdir2 : l2.direction =
            some (if p2.price < l2.price then SwingDir.HL else SwingDir.LL) := by
          rw [dirChainL_length] at hp2 hl2
          exact dirChainL_last_dir (c :: d :: ds) none p2 l2 hp2 hl2 (by simp)
        rw [modifyLastP_last_fix _ _ _ _ hlast (setDirection_self _ _ hdir2), hacc]
        rfl
  · -- stored highs exist: first-high fixup is a no-op, the last-high pass
    -- rewrites the new swing from its predecessor
    have hne : dirChainH none (b :: bs) ≠ [] := by
      rw [dirChainH_cons]
      exact List.cons_ne_nil _ _
    have hhead : ((assignDirFull none none S ++ [h]).filter isHighSwing).head? =
        some { b with direction := some (dirHOf none b) } := by
      rw [hfh, hHs, head?_append_of_ne_nil _ hne, dirChainH_cons]
      rfl
    have hstep1 : modifyFirstP isHighSwing
        (fun s => if s.direction.isNone then setDirection SwingDir.FIRST s else s)
        (assignDirFull none none S ++ [h]) =
        assignDirFull none none S ++ [h] :=
      modifyFirstP_head_fix _ _ _ _ hhead (by simp)
    rw [hstep1]
    have hgH : 2 ≤ (dirChainH none (b :: bs) ++ [h]).length := by
      rw [List.length_append, dirChainH_length]
      simp only [List.length_cons, List.length_singleton]
      omega
    rw [if_pos hgH]
    have hlenH : (dirChainH none (b :: bs)).length = (b :: bs).length :=
      dirChainH_length _ _
    obtain ⟨prev, hprev⟩ := getElem?_isSome_of_lt
      (l := dirChainH none (b :: bs))
      (i := (dirChainH none (b :: bs)).length - 1)
      (by rw [hlenH]; simp)
    have hr1 : (dirChainH none (b :: bs) ++
        [h])[(dirChainH none (b :: bs) ++ [h]).length - 2]? = some prev := by
      rw [getElem?_concat_pre _ _ hne]
      exact hprev
    have hr2 : (dirChainH none (b :: bs) ++
        [h])[(dirChainH none (b :: bs) ++ [h]).length - 1]? = some h :=
      getElem?_concat_self _ _
    rw [hr1, hr2]
    dsimp only
    obtain ⟨y, hy⟩ := getLast?_isSome_of_ne_nil
      (l := (b : Swing) :: bs) (List.cons_ne_nil _ _)
    have hacc : hAccF none S = some y.price := by
      rw [hAccF_eq, hHs, hy]
    have hpp : prev.price = y.price := by
      have h1 := getElem?_price_eq (dirChainH_price (b :: bs) none)
        ((b :: bs).length - 1)
      rw [hlenH] at hprev
      rw [hprev] at h1
      rw [List.getLast?_eq_getElem?] at hy
      rw [hy] at h1
      simpa using h1
    have hlow1 : isLowSwing h = false := by
      simp [isLowSwing, hty]
    rcases hLs : S.filter isLowSwing with _ | ⟨c, cs2⟩
    · have hDlow : (assignDirFull none none S).any isLowSwing = false :=
        any_eq_false_of_filter_nil (by rw [assignDirFull_filter_low, hLs]; rfl)
      have hanyl : (assignDirFull none none S ++ [h]).any isLowSwing = false := by
        rw [List.any_append, hDlow]
        simp [hlow1]
      rw [modifyFirstP_of_not_any _ _ _ hanyl]
      rw [modifyLastP_concat _ _ _ _ (by simp [isHighSwing, hty])]
      have hgL : ¬(2 ≤ (dirChainL none ([] : List Swing)).length) := by
        simp [dirChainL]
      rw [if_neg hgL, hacc, hpp]
      rfl
    · have hflo : (assignDirFull none none S ++ [h]).filter isLowSwing =
          dirChainL none (c :: cs2) := by
        rw [List.filter_append, assignDirFull_filter_low, hLs]
        have he : [h].filter isLowSwing = [] := by simp [hlow1]
        rw [he, List.append_nil]
      have hheadl : ((assignDirFull none none S ++ [h]).filter isLowSwing).head? =
          some { c with direction := some (dirLOf none c) } := by
        rw [hflo, dirChainL_cons]
        rfl
      have hstep2 : modifyFirstP isLowSwing
          (fun s => if s.direction.isNone then setDirection SwingDir.FIRST s else s)
          (assignDirFull none none S ++ [h]) =
          assignDirFull none none S ++ [h] :=
        modifyFirstP_head_fix _ _ _ _ hheadl (by simp)
      rw [hstep2]
      rw [modifyLastP_concat _ _ _ _ (by simp [isHighSwing, hty])]
      rcases cs2 with _ | ⟨d, ds⟩
      · have hgL : ¬(2 ≤ (dirChainL none [c]).length) := by
          rw [dirChainL_length]
          simp
        rw [if_neg hgL, hacc, hpp]
        rfl
      · have hgL : 2 ≤ (dirChainL none (c :: d :: ds)).length := by
          rw [dirChainL_length]
          simp
        rw [if_pos hgL]
        obtain ⟨p2, hp2⟩ := getElem?_isSome_of_lt
          (l := dirChainL none (c :: d :: ds))
          (i := (dirChainL none (c :: d :: ds)).length - 2) (by omega)
        obtain ⟨l2, hl2⟩ := getElem?_isSome_of_lt
          (l := dirChainL none (c :: d :: ds))
          (i := (dirChainL none (c :: d :: ds)).length - 1) (by omega)
        rw [hp2, hl2]
        dsimp only
        have hhigh2 : isLowSwing (setDirection
            (if prev.price < h.price then SwingDir.HH else SwingDir.LH) h) =
            false := by
          simp [isLowSwing, setDirection, hty]
        rw [modifyLastP_append_not_any _ _ _ _ (by simp [hhigh2])]
        have hlast : ((assignDirFull none none S).filter isLowSwing).getLast? =
            some l2 := by
          rw [assignDirFull_filter_low, hLs, List.getLast?_eq_getElem?]
          exact hl2
        have hdir2 : l2.direction =
            some (if p2.price < l2.price then SwingDir.HL else SwingDir.LL) := by
          rw [dirChainL_length] at hp2 hl2
          exact dirChainL_last_dir (c :: d :: ds) none p2 l2 hp2 hl2 (by simp)
        rw [modifyLastP_last_fix _ _ _ _ hlast (setDirection_self _ _ hdir2),
          hacc, hpp]
        rfl

theorem updateIncr_append_low (S : List Swing) (l : Swing)
    (hty : l.type = SwingType.low) (hdir : l.direction = none) :
    updateDirectionsIncr (assignDirFull none none S ++ [l]) =
      assignDirFull none none (S ++ [l]) := by
  have hRHS : assignDirFull none none (S ++ [l]) =
      assignDirFull none none S ++
        [{ l with direction := some (dirLOf (lAccF none S) l) }] := by
    rw [assignDirFull_append [l] S none none, assignDirFull_cons_low _ _ l [] hty]
    rfl
  have hfh : (assignDirFull none none S ++ [l]).filter isHighSwing =
      dirChainH none (S.filter isHighSwing) := by
    rw [List.filter_append, assignDirFull_filter_high]
    have he : [l].filter isHighSwing = [] := by simp [isHighSwing, hty]
    rw [he, List.append_nil]
  have hfl : (assignDirFull none none S ++ [l]).filter isLowSwing =
      dirChainL none (S.filter isLowSwing) ++ [l] := by
    rw [List.filter_append, assignDirFull_filter_low]
    congr 1
    simp [isLowSwing, hty]
  rw [hRHS]
  unfold updateDirectionsIncr
  dsimp only
  rw [hfh, hfl]
  have hhigh1 : isHighSwing l = false := by
    simp [isHighSwing, hty]
  rcases hLs : S.filter isLowSwing with _ | ⟨c, cs2⟩
  · -- no stored lows: the new low becomes FIRST, the last-low pass skips
    have hlacc : lAccF none S = none := by
      rw [lAccF_eq, hLs]
      rfl
    rcases hHs : S.filter isHighSwing with _ | ⟨b, bs⟩
    · have hDhigh : (assignDirFull none none S).any isHighSwing = false :=
        any_eq_false_of_filter_nil (by rw [assignDirFull_filter_high, hHs]; rfl)
      have hany1 : (assignDirFull none none S ++ [l]).any isHighSwing = false := by
        rw [List.any_append, hDhigh]
        simp [hhigh1]
      rw [modifyFirstP_of_not_any _ _ _ hany1]
      have hDlow : (assignDirFull none none S).any isLowSwing = false :=
        any_eq_false_of_filter_nil (by rw [assignDirFull_filter_low, hLs]; rfl)
      have hstep2 : modifyFirstP isLowSwing
          (fun s => if s.direction.isNone then setDirection SwingDir.FIRST s else s)
          (assignDirFull none none S ++ [l]) =
          assignDirFull none none S ++ [setDirection SwingDir.FIRST l] := by
        rw [modifyFirstP_append_not_any _ _ _ _ hDlow,
            modifyFirstP_cons_pos _ _ _ _ (by simp [isLowSwing, hty])]
        simp [hdir]
      rw [hstep2]
      have hgH : ¬(2 ≤ (dirChainH none ([] : List Swing)).length) := by
        simp [dirChainH]
      rw [if_neg hgH]
      have hgL : ¬(2 ≤ (dirChainL none ([] : List Swing) ++ [l]).length) := by
        simp [dirChainL]
      rw [if_neg hgL, hlacc]
      rfl
    · have hneH : dirChainH none (b :: bs) ≠ [] := by
        rw [dirChainH_cons]
        exact List.cons_ne_nil _ _
      have hhead : ((assignDirFull none none S ++ [l]).filter isHighSwing).head? =
          some { b with direction := some (dirHOf none b) } := by
        rw [hfh, hHs, dirChainH_cons]
        rfl
      have hstep1 : modifyFirstP isHighSwing
          (fun s => if s.direction.isNone then setDirection SwingDir.FIRST s else s)
          (assignDirFull none none S ++ [l]) =
          assignDirFull none none S ++ [l] :=
        modifyFirstP_head_fix _ _ _ _ hhead (by simp)
      rw [hstep1]
      have hDlow : (assignDirFull none none S).any isLowSwing = false :=
        any_eq_false_of_filter_nil (by rw [assignDirFull_filter_low, hLs]; rfl)
      have hstep2 : modifyFirstP isLowSwing
          (fun s => if s.direction.isNone then setDirection SwingDir.FIRST s else s)
          (assignDirFull none none S ++ [l]) =
          assignDirFull none none S ++ [setDirection SwingDir.FIRST l] := by
        rw [modifyFirstP_append_not_any _ _ _ _ hDlow,
            modifyFirstP_cons_pos _ _ _ _ (by simp [isLowSwing, hty])]
        simp [hdir]
      rw [hstep2]
      rcases bs with _ | ⟨b2, bt⟩
      · have hgH : ¬(2 ≤ (dirChainH none [b]).length) := by
          rw [dirChainH_length]
          simp
        rw [if_neg hgH]
        have hgL : ¬(2 ≤ (dirChainL none ([] : List Swing) ++ [l]).length) := by
          simp [dirChainL]
        rw [if_neg hgL, hlacc]
        rfl
      · have hgH : 2 ≤ (dirChainH none (b :: b2 :: bt)).length := by
          rw [dirChainH_length]
          simp
        rw [if_pos hgH]
        obtain ⟨p2, hp2⟩ := getElem?_isSome_of_lt
          (l := dirChainH none (b :: b2 :: bt))
          (i := (dirChainH none (b :: b2 :: bt)).length - 2) (by omega)
        obtain ⟨l2, hl2⟩ := getElem?_isSome_of_lt
          (l := dirChainH none (b :: b2 :: bt))
          (i := (dirChainH none (b :: b2 :: bt)).length - 1) (by omega)
        rw [hp2, hl2]
        dsimp only
        have hlow2 : isHighSwing (setDirection SwingDir.FIRST l) = false := by
          simp [isHighSwing, setDirection, hty]
        rw [modifyLastP_append_not_any _ _ _ _ (by simp [hlow2])]
        have hlast : ((assignDirFull none none S).filter isHighSwing).getLast? =
            some l2 := by
          rw [assignDirFull_filter_high, hHs, List.getLast?_eq_getElem?]
          exact hl2
        have hdir2 : l2.direction =
            some (if p2.price < l2.price then SwingDir.HH else SwingDir.LH) := by
          rw [dirChainH_length] at hp2 hl2
          exact dirChainH_last_dir (b :: b2 :: bt) none p2 l2 hp2 hl2 (by simp)
        rw [modifyLastP_last_fix _ _ _ _ hlast (setDirection_self _ _ hdir2)]
        have hgL : ¬(2 ≤ (dirChainL none ([] : List Swing) ++ [l]).length) := by
          simp [dirChainL]
        rw [if_neg hgL, hlacc]
        rfl
  · -- stored lows exist: first-low fixup is a no-op, the last-low pass
    -- rewrites the new swing from its predecessor
    have hne : dirChainL none (c :: cs2) ≠ [] := by
      rw [dirChainL_cons]
      exact List.cons_ne_nil _ _
    have hheadl : ((assignDirFull none none S ++ [l]).filter isLowSwing).head? =
        some { c with direction := some (dirLOf none c) } := by
      rw [hfl, hLs, head?_append_of_ne_nil _ hne, dirChainL_cons]
      rfl
    have hgL : 2 ≤ (dirChainL none (c :: cs2) ++ [l]).length := by
      rw [List.length_append, dirChainL_length]
      simp only [List.length_cons, List.length_singleton]
      omega
    have hlenL : (dirChainL none (c :: cs2)).length = (c :: cs2).length :=
      dirChainL_length _ _
    obtain ⟨prev, hprev⟩ := getElem?_isSome_of_lt
      (l := dirChainL none (c :: cs2))
      (i := (dirChainL none (c :: cs2)).length - 1)
      (by rw [hlenL]; simp)
    have hr1 : (dirChainL none (c :: cs2) ++
        [l])[(dirChainL none (c :: cs2) ++ [l]).length - 2]? = some prev := by
      rw [getElem?_concat_pre _ _ hne]
      exact hprev
    have hr2 : (dirChainL none (c :: cs2) ++
        [l])[(dirChainL none (c :: cs2) ++ [l]).length - 1]? = some l :=
      getElem?_concat_self _ _
    obtain ⟨y, hy⟩ := getLast?_isSome_of_ne_nil
      (l := (c : Swing) :: cs2) (List.cons_ne_nil _ _)
    have hlacc : lAccF none S = some y.price := by
      rw [lAccF_eq, hLs, hy]
    have hpp : prev.price = y.price := by
      have h1 := getElem?_price_eq (dirChainL_price (c :: cs2) none)
        ((c :: cs2).length - 1)
      rw [hlenL] at hprev
      rw [hprev] at h1
      rw [List.getLast?_eq_getElem?] at hy
      rw [hy] at h1
      simpa using h1
    have hstep2 : modifyFirstP isLowSwing
        (fun s => if s.direction.isNone then setDirection SwingDir.FIRST s else s)
        (assignDirFull none none S ++ [l]) =
        assignDirFull none none S ++ [l] :=
      modifyFirstP_head_fix _ _ _ _ hheadl (by simp)
    rcases hHs : S.filter isHighSwing with _ | ⟨b, bs⟩
    · have hDhigh : (assignDirFull none none S).any isHighSwing = false :=
        any_eq_false_of_filter_nil (by rw [assignDirFull_filter_high, hHs]; rfl)
      have hany1 : (assignDirFull none none S ++ [l]).any isHighSwing = false := by
        rw [List.any_append, hDhigh]
        simp [hhigh1]
      rw [modifyFirstP_of_not_any _ _ _ hany1, hstep2]
      have hgH : ¬(2 ≤ (dirChainH none ([] : List Swing)).length) := by
        simp [dirChainH]
      rw [if_neg hgH, if_pos hgL, hr1, hr2]
      dsimp only
      rw [modifyLastP_concat _ _ _ _ (by simp [isLowSwing, hty]), hlacc, hpp]
      rfl
    · have hneH : dirChainH none (b :: bs) ≠ [] := by
        rw [dirChainH_cons]
        exact List.cons_ne_nil _ _
      have hhead : ((assignDirFull none none S ++ [l]).filter isHighSwing).head? =
          some { b with direction := some (dirHOf none b) } := by
        rw [hfh, hHs, dirChainH_cons]
        rfl
      have hstep1 : modifyFirstP isHighSwing
          (fun s => if s.direction.isNone then setDirection SwingDir.FIRST s else s)
          (assignDirFull none none S ++ [l]) =
          assignDirFull none none S ++ [l] :=
        modifyFirstP_head_fix _ _ _ _ hhead (by simp)
      rw [hstep1, hstep2]
      rcases bs with _ | ⟨b2, bt⟩
      · have hgH : ¬(2 ≤ (dirChainH none [b]).length) := by
          rw [dirChainH_length]
          simp
        rw [if_neg hgH, if_pos hgL, hr1, hr2]
        dsimp only
        rw [modifyLastP_concat _ _ _ _ (by simp [isLowSwing, hty]), hlacc, hpp]
        rfl
      · have hgH : 2 ≤ (dirChainH none (b :: b2 :: bt)).length := by
          rw [dirChainH_length]
          simp
        rw [if_pos hgH]
        obtain ⟨p2, hp2⟩ := getElem?_isSome_of_lt
          (l := dirChainH none (b :: b2 :: bt))
          (i := (dirChainH none (b :: b2 :: bt)).length - 2) (by omega)
        obtain ⟨l2, hl2⟩ := getElem?_isSome_of_lt
          (l := dirChainH none (b :: b2 :: bt))
          (i := (dirChainH none (b :: b2 :: bt)).length - 1) (by omega)
        rw [hp2, hl2]
        dsimp only
        rw [modifyLastP_append_not_any _ _ _ _ (by simp [hhigh1])]
        have hlast : ((assignDirFull none none S).filter isHighSwing).getLast? =
            some l2 := by
          rw [assignDirFull_filter_high, hHs, List.getLast?_eq_getElem?]
          exact hl2
        have hdir2 : l2.direction =
            some (if p2.price < l2.price then SwingDir.HH else SwingDir.LH) := by
          rw [dirChainH_length] at hp2 hl2
          exact dirChainH_last_dir (b :: b2 :: bt) none p2 l2 hp2 hl2 (by simp)
        rw [modifyLastP_last_fix _ _ _ _ hlast (setDirection_self _ _ hdir2)]
        rw [if_pos hgL, hr1, hr2]
        dsimp only
        rw [modifyLastP_concat _ _ _ _ (by simp [isLowSwing, hty]), hlacc, hpp]
        rfl

theorem updateIncr_append_pair (S : List Swing) (h l : Swing)
    (htyh : h.type = SwingType.high) (hdirh : h.direction = none)
    (htyl : l.type = SwingType.low) (hdirl : l.direction = none) :
    updateDirectionsIncr (assignDirFull none none S ++ [h, l]) =
      assignDirFull none none (S ++ [h, l]) := by
  have hRHS : assignDirFull none none (S ++ [h, l]) =
      assignDirFull none none S ++
        [{ h with direction := some (dirHOf (hAccF none S) h) },
         { l with direction := some (dirLOf (lAccF none S) l) }] := by
    rw [assignDirFull_append [h, l] S none none,
        assignDirFull_cons_high _ _ h [l] htyh,
        assignDirFull_cons_low _ _ l [] htyl]
    rfl
  have hfh : (assignDirFull none none S ++ [h, l]).filter isHighSwing =
      dirChainH none (S.filter isHighSwing) ++ [h] := by
    rw [List.filter_append, assignDirFull_filter_high]
    congr 1
    simp [isHighSwing, htyh, htyl]
  have hfl : (assignDirFull none none S ++ [h, l]).filter isLowSwing =
      dirChainL none (S.filter isLowSwing) ++ [l] := by
    rw [List.filter_append, assignDirFull_filter_low]
    congr 1
    simp [isLowSwing, htyh, htyl]
  rw [hRHS]
  unfold updateDirectionsIncr
  dsimp only
  rw [hfh, hfl]
  have hhl : isHighSwing l = false := by simp [isHighSwing, htyl]
  have hlh : isLowSwing h = false := by simp [isLowSwing, htyh]
  rcases hHs : S.filter isHighSwing with _ | ⟨b, bs⟩
  · -- no stored highs: the new high becomes FIRST and the last-high pass skips
    have hDh : (assignDirFull none none S).any isHighSwing = false :=
      any_eq_false_of_filter_nil (by rw [assignDirFull_filter_high, hHs]; rfl)
    have haccH : hAccF none S = none := by
      rw [hAccF_eq, hHs]
      rfl
    have hstep1 : modifyFirstP isHighSwing
        (fun s => if s.direction.isNone then setDirection SwingDir.FIRST s else s)
        (assignDirFull none none S ++ [h, l]) =
        assignDirFull none none S ++ [setDirection SwingDir.FIRST h, l] := by
      rw [modifyFirstP_append_not_any _ _ _ _ hDh,
          modifyFirstP_cons_pos _ _ _ _ (by simp [isHighSwing, htyh])]
      simp [hdirh]
    rw [hstep1]
    have hgH : ¬(2 ≤ (dirChainH none ([] : List Swing) ++ [h]).length) := by
      simp [dirChainH]
    have hlh2 : isLowSwing (setDirection SwingDir.FIRST h) = false := by
      simp [isLowSwing, setDirection, htyh]
    rcases hLs : S.filter isLowSwing with _ | ⟨c, cs2⟩
    · have hDl : (assignDirFull none none S).any isLowSwing = false :=
        any_eq_false_of_filter_nil (by rw [assignDirFull_filter_low, hLs]; rfl)
      have haccL : lAccF none S = none := by
        rw [lAccF_eq, hLs]
        rfl
      have hstep2 : modifyFirstP isLowSwing
          (fun s => if s.direction.isNone then setDirection SwingDir.FIRST s else s)
          (assignDirFull none none S ++ [setDirection SwingDir.FIRST h, l]) =
          assignDirFull none none S ++
            [setDirection SwingDir.FIRST h, setDirection SwingDir.FIRST l] := by
        rw [modifyFirstP_append_not_any _ _ _ _ hDl,
            modifyFirstP_cons_neg _ _ _ _ hlh2,
            modifyFirstP_cons_pos _ _ _ _ (by simp [isLowSwing, htyl])]
        simp [hdirl]
      rw [hstep2, if_neg hgH]
      have hgL : ¬(2 ≤ (dirChainL none ([] : List Swing) ++ [l]).length) := by
        simp [dirChainL]
      rw [if_neg hgL, haccH, haccL]
      rfl
    · have hneL : dirChainL none (c :: cs2) ≠ [] := by
        rw [dirChainL_cons]
        exact List.cons_ne_nil _ _
      have hflo2 : (assignDirFull none none S ++
          [setDirection SwingDir.FIRST h, l]).filter isLowSwing =
          dirChainL none (c :: cs2) ++ [l] := by
        rw [List.filter_append, assignDirFull_filter_low, hLs]
        congr 1
        simp [isLowSwing, setDirection, htyh, htyl]
      have hheadl : ((assignDirFull none none S ++
          [setDirection SwingDir.FIRST h, l]).filter isLowSwing).head? =
          some { c with direction := some (dirLOf none c) } := by
        rw [hflo2, head?_append_of_ne_nil _ hneL, dirChainL_cons]
        rfl
      rw [modifyFirstP_head_fix _ _ _ _ hheadl (by simp), if_neg hgH]
      have hgL : 2 ≤ (dirChainL none (c :: cs2) ++ [l]).length := by
        rw [List.length_append, dirChainL_length]
        simp only [List.length_cons, List.length_singleton]
        omega
      rw [if_pos hgL]
      obtain ⟨prev, hprev⟩ := getElem?_isSome_of_lt
        (l := dirChainL none (c :: cs2))
        (i := (dirChainL none (c :: cs2)).length - 1)
        (by rw [dirChainL_length]; simp)
      have hr1 : (dirChainL none (c :: cs2) ++
          [l])[(dirChainL none (c :: cs2) ++ [l]).length - 2]? = some prev := by
        rw [getElem?_concat_pre _ _ hneL]
        exact hprev
      have hr2 : (dirChainL none (c :: cs2) ++
          [l])[(dirChainL none (c :: cs2) ++ [l]).length - 1]? = some l :=
        getElem?_concat_self _ _
      rw [hr1, hr2]
      dsimp only
      rw [modifyLastP_pair_snd _ _ _ _ _ (by simp [isLowSwing, htyl])]
      obtain ⟨y, hy⟩ := getLast?_isSome_of_ne_nil
        (l := (c : Swing) :: cs2) (List.cons_ne_nil _ _)
      have haccL : lAccF none S = some y.price := by
        rw [lAccF_eq, hLs, hy]
      have hpp : prev.price = y.price := by
        have h1 := getElem?_price_eq (dirChainL_price (c :: cs2) none)
          ((c :: cs2).length - 1)
        rw [dirChainL_length] at hprev
        rw [hprev] at h1
        rw [List.getLast?_eq_getElem?] at hy
        rw [hy] at h1
        simpa using h1
      rw [haccH, haccL, hpp]
      rfl
  · -- stored highs exist
    have hneH : dirChainH none (b :: bs) ≠ [] := by
      rw [dirChainH_cons]
      exact List.cons_ne_nil _ _
    have hhead : ((assignDirFull none none S ++ [h, l]).filter isHighSwing).head? =
        some { b with direction := some (dirHOf none b) } := by
      rw [hfh, hHs, head?_append_of_ne_nil _ hneH, dirChainH_cons]
      rfl
    rw [modifyFirstP_head_fix _ _ _ _ hhead (by simp)]
    have hgH : 2 ≤ (dirChainH none (b :: bs) ++ [h]).length := by
      rw [List.length_append, dirChainH_length]
      simp only [List.length_cons, List.length_singleton]
      omega
    obtain ⟨prevH, hprevH⟩ := getElem?_isSome_of_lt
      (l := dirChainH none (b :: bs))
      (i := (dirChainH none (b :: bs)).length - 1)
      (by rw [dirChainH_length]; simp)
    have hrH1 : (dirChainH none (b :: bs) ++
        [h])[(dirChainH none (b :: bs) ++ [h]).length - 2]? = some prevH := by
      rw [getElem?_concat_pre _ _ hneH]
      exact hprevH
    have hrH2 : (dirChainH none (b :: bs) ++
        [h])[(dirChainH none (b :: bs) ++ [h]).length - 1]? = some h :=
      getElem?_concat_self _ _
    obtain ⟨yH, hyH⟩ := getLast?_isSome_of_ne_nil
      (l := (b : Swing) :: bs) (List.cons_ne_nil _ _)
    have haccH : hAccF none S = some yH.price := by
      rw [hAccF_eq, hHs, hyH]
    have hppH : prevH.price = yH.price := by
      have h1 := getElem?_price_eq (dirChainH_price (b :: bs) none)
        ((b :: bs).length - 1)
      rw [dirChainH_length] at hprevH
      rw [hprevH] at h1
      rw [List.getLast?_eq_getElem?] at hyH
      rw [hyH] at h1
      simpa using h1
    rcases hLs : S.filter isLowSwing with _ | ⟨c, cs2⟩
    · have hDl : (assignDirFull none none S).any isLowSwing = false :=
        any_eq_false_of_filter_nil (by rw [assignDirFull_filter_low, hLs]; rfl)
      have haccL : lAccF none S = none := by
        rw [lAccF_eq, hLs]
        rfl
      have hstep2 : modifyFirstP isLowSwing
          (fun s => if s.direction.isNone then setDirection SwingDir.FIRST s else s)
          (assignDirFull none none S ++ [h, l]) =
          assignDirFull none none S ++ [h, setDirection SwingDir.FIRST l] := by
        rw [modifyFirstP_append_not_any _ _ _ _ hDl,
            modifyFirstP_cons_neg _ _ _ _ hlh,
            modifyFirstP_cons_pos _ _ _ _ (by simp [isLowSwing, htyl])]
        simp [hdirl]
      rw [hstep2, if_pos hgH, hrH1, hrH2]
      dsimp only
      rw [modifyLastP_pair_fst _ _ _ _ _ (by simp [isHighSwing, htyh])
        (by simp [isHighSwing, setDirection, htyl])]
      have hgL : ¬(2 ≤ (dirChainL none ([] : List Swing) ++ [l]).length) := by
        simp [dirChainL]
      rw [if_neg hgL, haccH, haccL, hppH]
      rfl
    · have hneL : dirChainL none (c :: cs2) ≠ [] := by
        rw [dirChainL_cons]
        exact List.cons_ne_nil _ _
      have hheadl : ((assignDirFull none none S ++
          [h, l]).filter isLowSwing).head? =
          some { c with direction := some (dirLOf none c) } := by
        rw [hfl, hLs, head?_append_of_ne_nil _ hneL, dirChainL_cons]
        rfl
      rw [modifyFirstP_head_fix _ _ _ _ hheadl (by simp), if_pos hgH, hrH1, hrH2]
      dsimp only
      rw [modifyLastP_pair_fst _ _ _ _ _ (by simp [isHighSwing, htyh]) hhl]
      have hgL : 2 ≤ (dirChainL none (c :: cs2) ++ [l]).length := by
        rw [List.length_append, dirChainL_length]
        simp only [List.length_cons, List.length_singleton]
        omega
      rw [if_pos hgL]
      obtain ⟨prevL, hprevL⟩ := getElem?_isSome_of_lt
        (l := dirChainL none (c :: cs2))
        (i := (dirChainL none (c :: cs2)).length - 1)
        (by rw [dirChainL_length]; simp)
      have hrL1 : (dirChainL none (c :: cs2) ++
          [l])[(dirChainL none (c :: cs2) ++ [l]).length - 2]? = some prevL := by
        rw [getElem?_concat_pre _ _ hneL]
        exact hprevL
      have hrL2 : (dirChainL none (c :: cs2) ++
          [l])[(dirChainL none (c :: cs2) ++ [l]).length - 1]? = some l :=
        getElem?_concat_self _ _
      rw [hrL1, hrL2]
      dsimp only
      rw [modifyLastP_pair_snd _ _ _ _ _ (by simp [isLowSwing, htyl])]
      obtain ⟨yL, hyL⟩ := getLast?_isSome_of_ne_nil
        (l := (c : Swing) :: cs2) (List.cons_ne_nil _ _)
      have haccL : lAccF none S = some yL.price := by
        rw [lAccF_eq, hLs, hyL]
      have hppL : prevL.price = yL.price := by
        have h1 := getElem?_price_eq (dirChainL_price (c :: cs2) none)
          ((c :: cs2).length - 1)
        rw [dirChainL_length] at hprevL
        rw [hprevL] at h1
        rw [List.getLast?_eq_getElem?] at hyL
        rw [hyL] at h1
        simpa using h1
      rw [haccH, haccL, hppH, hppL]
      rfl

end DirectionStructure

section ScanPrefix

theorem insertAfterLe_all_le {α : Type} (key : α → Int) (a : α) :
    ∀ (l : List α), (∀ x ∈ l, key x ≤ key a) →
      insertAfterLe key a l = l ++ [a] := by
  intro l
  induction l with
  | nil => intro _; rfl
  | cons x xs ih =>
    intro hle
    unfold insertAfterLe
    rw [if_pos (hle x (List.mem_cons_self _ _)),
        ih (fun y hy => hle y (List.mem_cons_of_mem _ hy))]
    rfl

theorem stableSortBy_sorted_id {α : Type} (key : α → Int) :
    ∀ (l : List α), List.Pairwise (fun a b => key a ≤ key b) l →
      stableSortBy key l = l := by
  have aux : ∀ (todo acc : List α),
      (∀ x ∈ acc, ∀ y ∈ todo, key x ≤ key y) →
      List.Pairwise (fun a b => key a ≤ key b) todo →
      todo.foldl (fun acc a => insertAfterLe key a acc) acc = acc ++ todo := by
    intro todo
    induction todo with
    | nil => intro acc _ _; simp
    | cons a as ih =>
      intro acc hcross hpw
      simp only [List.foldl_cons]
      rw [insertAfterLe_all_le key a acc
        (fun x hx => hcross x hx a (List.mem_cons_self _ _))]
      have h2 : ∀ x ∈ acc ++ [a], ∀ y ∈ as, key x ≤ key y := by
        intro x hx y hy
        rcases List.mem_append.mp hx with hx1 | hx2
        · exact hcross x hx1 y (List.mem_cons_of_mem _ hy)
        · have hxa : x = a := by simpa using hx2
          rw [hxa]
          exact (List.pairwise_cons.mp hpw).1 y hy
      rw [ih (acc ++ [a]) h2 (List.pairwise_cons.mp hpw).2, List.append_assoc]
      rfl
  intro l hl
  unfold stableSortBy
  rw [aux l [] (by simp) hl]
  rfl

theorem pairwise_time_getElem? {cs : List Candle}
    (hcs : List.Pairwise (fun a b : Candle => a.time < b.time) cs)
    {i j : Nat} (hij : i < j) {ci cj : Candle}
    (hi : cs[i]? = some ci) (hj : cs[j]? = some cj) : ci.time < cj.time := by
  rw [List.getElem?_eq_some] at hi hj
  obtain ⟨hi1, hi2⟩ := hi
  obtain ⟨hj1, hj2⟩ := hj
  have h := List.pairwise_iff_getElem.mp hcs i j hi1 hj1 hij
  rw [hi2, hj2] at h
  exact h

theorem scanStep_shape (cs' : List Candle) (k i : Nat) (acc : List Swing)
    (c : Candle) (hc : cs'[i]? = some c) (hsane : isSaneCandle c = true) :
    scanStep cs' k acc i =
      (if (swingFlagsAt cs' c i k).1 then acc ++ [buildSwing .high c i k]
       else acc) ++
        (if (swingFlagsAt cs' c i k).2 then [buildSwing .low c i k] else []) := by
  unfold scanStep
  rw [hc]
  dsimp only
  rw [if_pos hsane]
  by_cases h1 : (swingFlagsAt cs' c i k).1 = true <;>
    by_cases h2 : (swingFlagsAt cs' c i k).2 = true <;>
      simp [h1, h2]

theorem scanStep_shape_insane (cs' : List Candle) (k i : Nat) (acc : List Swing)
    (c : Candle) (hc : cs'[i]? = some c) (hsane : isSaneCandle c = false) :
    scanStep cs' k acc i = acc := by
  unfold scanStep
  rw [hc]
  dsimp only
  rw [if_neg (by simp [hsane])]

theorem mem_scanStep_time (cs' : List Candle) (k i : Nat) (acc : List Swing)
    {x : Swing} (hx : x ∈ scanStep cs' k acc i) :
    x ∈ acc ∨ ∃ c, cs'[i]? = some c ∧ x.time = c.time := by
  rcases hc : cs'[i]? with _ | c
  · unfold scanStep at hx
    rw [hc] at hx
    exact Or.inl hx
  · by_cases hsane : isSaneCandle c = true
    · rw [scanStep_shape cs' k i acc c hc hsane] at hx
      rcases List.mem_append.mp hx with hx1 | hx2
      · by_cases h1 : (swingFlagsAt cs' c i k).1 = true
        · rw [if_pos h1] at hx1
          rcases List.mem_append.mp hx1 with hx3 | hx4
          · exact Or.inl hx3
          · have : x = buildSwing .high c i k := by simpa using hx4
            exact Or.inr ⟨c, rfl, by rw [this]; rfl⟩
        · rw [if_neg h1] at hx1
          exact Or.inl hx1
      · by_cases h2 : (swingFlagsAt cs' c i k).2 = true
        · rw [if_pos h2] at hx2
          have : x = buildSwing .low c i k := by simpa using hx2
          exact Or.inr ⟨c, rfl, by rw [this]; rfl⟩
        · rw [if_neg h2] at hx2
          simp at hx2
    · rw [scanStep_shape_insane cs' k i acc c hc
        (by cases hv : isSaneCandle c; rfl; exact absurd hv hsane)] at hx
      exact Or.inl hx

theorem scanStep_sorted (cs' : List Candle) (k i : Nat) (acc : List Swing)
    (hacc : List.Pairwise (fun a b : Swing => a.time ≤ b.time) acc)
    (hbound : ∀ s ∈ acc, ∀ c, cs'[i]? = some c → s.time ≤ c.time) :
    List.Pairwise (fun a b : Swing => a.time ≤ b.time) (scanStep cs' k acc i) := by
  rcases hc : cs'[i]? with _ | c
  · unfold scanStep
    rw [hc]
    exact hacc
  · by_cases hsane : isSaneCandle c = true
    · rw [scanStep_shape cs' k i acc c hc hsane]
      have hb : ∀ s ∈ acc, s.time ≤ c.time := fun s hs => hbound s hs c hc
      rw [List.pairwise_append]
      refine ⟨?_, ?_, ?_⟩
      · by_cases h1 : (swingFlagsAt cs' c i k).1 = true
        · rw [if_pos h1, List.pairwise_append]
          refine ⟨hacc, by simp, ?_⟩
          intro a ha b hb2
          have : b = buildSwing .high c i k := by simpa using hb2
          rw [this]
          exact hb a ha
        · rw [if_neg h1]
          exact hacc
      · by_cases h2 : (swingFlagsAt cs' c i k).2 = true
        · rw [if_pos h2]
          simp
        · rw [if_neg h2]
          simp
      · intro a ha b hb2
        by_cases h2 : (swingFlagsAt cs' c i k).2 = true
        · rw [if_pos h2] at hb2
          have hbv : b = buildSwing .low c i k := by simpa using hb2
          rw [hbv]
          by_cases h1 : (swingFlagsAt cs' c i k).1 = true
          · rw [if_pos h1] at ha
            rcases List.mem_append.mp ha with ha1 | ha2
            · exact hb a ha1
            · have hav : a = buildSwing .high c i k := by simpa using ha2
              rw [hav]
              exact le_refl _
          · rw [if_neg h1] at ha
            exact hb a ha
        · rw [if_neg h2] at hb2
          simp at hb2
    · rw [scanStep_shape_insane cs' k i acc c hc
        (by cases hv : isSaneCandle c; rfl; exact absurd hv hsane)]
      exact hacc

theorem scanFold_sorted (cs' : List Candle) (k : Nat)
    (hcs : List.Pairwise (fun a b : Candle => a.time < b.time) cs') :
    ∀ (is : List Nat), List.Pairwise (· < ·) is →
    ∀ (acc : List Swing),
      List.Pairwise (fun a b : Swing => a.time ≤ b.time) acc →
      (∀ s ∈ acc, ∀ i ∈ is, ∀ c, cs'[i]? = some c → s.time ≤ c.time) →
      List.Pairwise (fun a b : Swing => a.time ≤ b.time)
        (is.foldl (scanStep cs' k) acc) := by
  intro is
  induction is with
  | nil => intro _ acc hacc _; simpa using hacc
  | cons i is ih =>
    intro hpw acc hacc hcross
    simp only [List.foldl_cons]
    refine ih (List.pairwise_cons.mp hpw).2 _ ?_ ?_
    · exact scanStep_sorted cs' k i acc hacc
        (fun s hs c hc => hcross s hs i (List.mem_cons_self _ _) c hc)
    · intro s hs j hj c hc
      rcases mem_scanStep_time cs' k i acc hs with hs1 | ⟨ci, hci, hti⟩
      · exact hcross s hs1 j (List.mem_cons_of_mem _ hj) c hc
      · rw [hti]
        exact le_of_lt (pairwise_time_getElem? hcs
          ((List.pairwise_cons.mp hpw).1 j hj) hci hc)

theorem scanSwings_time_sorted (cs' : List Candle) (k : Nat)
    (hcs : List.Pairwise (fun a b : Candle => a.time < b.time) cs') :
    List.Pairwise (fun a b : Swing => a.time ≤ b.time) (scanSwings cs' k) := by
  unfold scanSwings
  refine scanFold_sorted cs' k hcs _ ?_ [] (by simp) (by simp)
  exact List.pairwise_lt_range' _ _

theorem scanSwings_nil_of_short (cs' : List Candle) (k : Nat)
    (h : cs'.length ≤ 2 * k) : scanSwings cs' k = [] := by
  unfold scanSwings
  have he : cs'.length - 2 * k = 0 := by omega
  rw [he]
  rfl

theorem swingFlagsAt_take (cs : List Candle) (M : Nat) (c : Candle) (i k : Nat)
    (hik : i + k < M) :
    swingFlagsAt (cs.take M) c i k = swingFlagsAt cs c i k := by
  unfold swingFlagsAt
  apply List.foldl_ext
  intro b j hj
  rw [List.mem_range'_1] at hj
  unfold swingFlagStep
  rw [List.getElem?_take_of_lt (by omega), List.getElem?_take_of_lt (by omega)]

theorem scanStep_take (cs : List Candle) (k M : Nat) (acc : List Swing) (i : Nat)
    (hik : i + k < M) :
    scanStep (cs.take M) k acc i = scanStep cs k acc i := by
  unfold scanStep
  rw [List.getElem?_take_of_lt (show i < M by omega)]
  rcases hc : cs[i]? with _ | c
  · rfl
  · dsimp only
    rw [swingFlagsAt_take cs M c i k hik]

theorem scanSwings_take_succ (cs : List Candle) (k m : Nat) (hm : m < cs.length)
    (hk : 2 * k ≤ m) :
    scanSwings (cs.take (m + 1)) k =
      scanStep (cs.take (m + 1)) k (scanSwings (cs.take m) k) (m - k) := by
  unfold scanSwings
  have hlen1 : (cs.take (m + 1)).length = m + 1 := by
    rw [List.length_take]
    omega
  have hlen0 : (cs.take m).length = m := by
    rw [List.length_take]
    omega
  rw [hlen1, hlen0]
  have h1 : m + 1 - 2 * k = (m - 2 * k) + 1 := by omega
  rw [h1, List.range'_1_concat, List.foldl_append]
  simp only [List.foldl_cons, List.foldl_nil]
  have h2 : k + (m - 2 * k) = m - k := by omega
  rw [h2]
  congr 1
  apply List.foldl_ext
  intro acc i hi
  rw [List.mem_range'_1] at hi
  rw [scanStep_take cs k (m + 1) acc i (by omega),
      scanStep_take cs k m acc i (by omega)]

theorem sort_scan_id (cs' : List Candle) (k : Nat)
    (hp : List.Pairwise (fun a b : Candle => a.time < b.time) cs') :
    stableSortBy (fun s => s.time) (scanSwings cs' k) = scanSwings cs' k :=
  stableSortBy_sorted_id _ _ (scanSwings_time_sorted cs' k hp)

theorem detectAllS_eq_assign (cs' : List Candle) (strength : Nat) :
    SwingEngine.detectAllS [] cs' strength =
      assignDirFull none none
        (stableSortBy (fun s => s.time) (scanSwings cs' (max strength 1))) := by
  unfold SwingEngine.detectAllS
  by_cases hg : cs'.length < strength * 2 + 1
  · rw [if_pos hg, scanSwings_nil_of_short cs' (max strength 1) (by omega)]
    rfl
  · rw [if_neg hg]

theorem mem_scanSwings_index_bound (cs' : List Candle) (k : Nat) {s : Swing}
    (hs : s ∈ scanSwings cs' k) :
    s.index + k + 1 ≤ cs'.length ∧ k ≤ s.index := by
  have h := ((mem_scanSwings_iff cs' k s.type s.index).mp ⟨s, hs, rfl, rfl⟩).1
  rw [List.mem_range'_1] at h
  omega

theorem store_any_index_eq_false (L : List Swing) (i : Nat)
    (hL : ∀ s ∈ L, s.index ≠ i) (p : Swing → Bool) :
    (L.any fun s => s.index == i && p s) = false := by
  rw [List.any_eq_false]
  intro s hs
  simp [hL s hs]

end ScanPrefix

section IncrStep

theorem detectLatest_step (cs : List Candle) (strength m : Nat)
    (hm : m < cs.length)
    (hp : List.Pairwise (fun a b : Candle => a.time < b.time) cs) :
    SwingEngine.detectLatestS (SwingEngine.detectAllS [] (cs.take m) strength)
      (cs.take (m + 1)) strength =
      SwingEngine.detectAllS [] (cs.take (m + 1)) strength := by
  have hp1 : List.Pairwise (fun a b : Candle => a.time < b.time) (cs.take (m + 1)) :=
    hp.sublist (List.take_sublist _ _)
  have hp0 : List.Pairwise (fun a b : Candle => a.time < b.time) (cs.take m) :=
    hp.sublist (List.take_sublist _ _)
  have hlen1 : (cs.take (m + 1)).length = m + 1 := by
    rw [List.length_take]
    omega
  have hlen0 : (cs.take m).length = m := by
    rw [List.length_take]
    omega
  have hstore : SwingEngine.detectAllS [] (cs.take m) strength =
      assignDirFull none none (scanSwings (cs.take m) (max strength 1)) := by
    rw [detectAllS_eq_assign, sort_scan_id _ _ hp0]
  have hRHS : SwingEngine.detectAllS [] (cs.take (m + 1)) strength =
      assignDirFull none none (scanSwings (cs.take (m + 1)) (max strength 1)) := by
    rw [detectAllS_eq_assign, sort_scan_id _ _ hp1]
  rw [hstore, hRHS]
  unfold SwingEngine.detectLatestS
  rw [hlen1]
  by_cases hg : m + 1 < strength * 2 + 1
  · rw [if_pos hg,
        scanSwings_nil_of_short (cs.take (m + 1)) (max strength 1)
          (by rw [hlen1]; omega),
        scanSwings_nil_of_short (cs.take m) (max strength 1)
          (by rw [hlen0]; omega)]
  · rw [if_neg hg]
    dsimp only
    have hi : m + 1 - max strength 1 - 1 = m - max strength 1 := by omega
    rw [hi]
    by_cases hik : m - max strength 1 < max strength 1
    · rw [if_pos hik,
          scanSwings_nil_of_short (cs.take (m + 1)) (max strength 1)
            (by rw [hlen1]; omega),
          scanSwings_nil_of_short (cs.take m) (max strength 1)
            (by rw [hlen0]; omega)]
    · rw [if_neg hik]
      have h2k : 2 * max strength 1 ≤ m := by omega
      have hdec : scanSwings (cs.take (m + 1)) (max strength 1) =
          scanStep (cs.take (m + 1)) (max strength 1)
            (scanSwings (cs.take m) (max strength 1)) (m - max strength 1) :=
        scanSwings_take_succ cs (max strength 1) m hm h2k
      rcases hc : (cs.take (m + 1))[m - max strength 1]? with _ | c
      · rw [List.getElem?_eq_none_iff, hlen1] at hc
        omega
      · dsimp only
        by_cases hsane : isSaneCandle c = true
        · rw [if_neg (by simp [hsane])]
          have hidx : ∀ s ∈ assignDirFull none none
              (scanSwings (cs.take m) (max strength 1)),
              s.index ≠ m - max strength 1 := by
            intro s hs hbad
            obtain ⟨s0, hs0, _, hidx0⟩ := (typeIndex_mem_map _ _ _).mp
              (by rw [← assignDirFull_typeIndex none none]
                  exact (typeIndex_mem_map _ _ _).mpr ⟨s, hs, rfl, rfl⟩)
            have hb := mem_scanSwings_index_bound (cs.take m) (max strength 1) hs0
            rw [hlen0] at hb
            omega
          rw [store_any_index_eq_false _ _ hidx isHighSwing,
              store_any_index_eq_false _ _ hidx isLowSwing]
          rw [if_neg (by decide)]
          rw [hdec, scanStep_shape _ _ _ _ c hc hsane]
          by_cases hf1 :
              (swingFlagsAt (cs.take (m + 1)) c (m - max strength 1)
                (max strength 1)).1 = true <;>
            by_cases hf2 :
              (swingFlagsAt (cs.take (m + 1)) c (m - max strength 1)
                (max strength 1)).2 = true
          · simp only [hf1, hf2, Bool.not_false, Bool.true_and, Bool.or_self,
              if_true, if_pos rfl, List.append_assoc, List.singleton_append]
            exact updateIncr_append_pair _ _ _ rfl rfl rfl rfl
          · simp only [hf1, hf2, Bool.not_false, Bool.true_and, Bool.true_or,
              if_pos rfl, if_neg (Bool.false_ne_true), List.append_nil]
            exact updateIncr_append_high _ _ rfl rfl
          · simp only [hf1, hf2, Bool.not_false, Bool.true_and, Bool.false_or,
              if_pos rfl, if_neg (Bool.false_ne_true), List.singleton_append]
            exact updateIncr_append_low _ _ rfl rfl
          · simp only [hf1, hf2, Bool.not_false, Bool.true_and, Bool.or_self,
              if_neg (Bool.false_ne_true), List.append_nil]
        · have hsane2 : isSaneCandle c = false := by
            cases hv : isSaneCandle c
            · rfl
            · exact absurd hv hsane
          rw [if_pos (by simp [hsane2]),
              hdec, scanStep_shape_insane _ _ _ _ c hc hsane2]

end IncrStep

/-- C1: counterexample to the claimed full-batch versus incremental
equivalence of all three stores. On the candle sequence exC1 with
strength 1 the swing and breakout stores agree, but the level stores
differ: the full-batch run creates the EQH level after the breakout
store is already populated and snapshots a bullish bias into it, while
the incremental run creates the same level at a tick where no breakout
exists yet, leaving its bias empty. -/
theorem C1_counterexample :
    (pipelineIncr exC1 1).eqh.levels.map eqhEql.Level.bias ≠
      (pipelineFull exC1 1).eqh.levels.map eqhEql.Level.bias := by
  decide

/-- C1 (amended): full-batch versus incremental equivalence holds for
the swing store. For a candle sequence with strictly increasing
timestamps, feeding it one confirmed candle at a time through
detectLatest, starting from an empty store, yields exactly the store of
one full-batch detectAll run, all fields equal. -/
theorem C1_swing_incr_equivalence (cs : List Candle) (strength : Nat)
    (hp : List.Pairwise (fun a b : Candle => a.time < b.time) cs) :
    incrSwings cs strength = SwingEngine.detectAllS [] cs strength := by
  have aux : ∀ n, n ≤ cs.length →
      (List.range n).foldl
        (fun st m => SwingEngine.detectLatestS st (cs.take (m + 1)) strength) [] =
        SwingEngine.detectAllS [] (cs.take n) strength := by
    intro n
    induction n with
    | zero =>
      intro _
      simp only [List.range_zero, List.foldl_nil, List.take_zero]
      unfold SwingEngine.detectAllS
      rw [if_pos (by simp only [List.length_nil]; omega)]
    | succ n ih =>
      intro hn
      rw [List.range_succ, List.foldl_append]
      simp only [List.foldl_cons, List.foldl_nil]
      rw [ih (by omega)]
      exact detectLatest_step cs strength n (by omega) hp
  unfold incrSwings
  rw [aux cs.length le_rfl, List.take_length]

/-- C1 witness: the amended equivalence applied to the concrete
nine-candle sequence exC1 at strength 1, whose timestamps are strictly
increasing. -/
theorem C1_witness :
    List.Pairwise (fun a b : Candle => a.time < b.time) exC1 ∧
      incrSwings exC1 1 = SwingEngine.detectAllS [] exC1 1 :=
  ⟨by decide, C1_swing_incr_equivalence exC1 1 (by decide)⟩

end POP
